import Mathlib

/-!
# Tree similarity joins: node indexing, the Zhang–Shasha entry point, the LDH join driver,
the bracket notation parser and the join test

A shallow embedding of

* `src/zhang_shasha/zhang_shasha_impl.h` (`index_nodes_recursion`, `index_nodes`,
  `zhang_shasha_ted`),
* `src/join/leaf_dist_histogram/ldh_join_impl.h` (`LDHJoin`),
* `src/parser/bracket_notation_parser_impl.h` (`parse_string`),
* `test/join/ted_join_test.cc` (`main`),

together with the statements of the specification that concern them.

Conventions of the embedding.

* `std::vector<int>` is a `List Int`; `push_back` appends at the end.  The C++ type `int`
  is modelled by `Int`: signed overflow is undefined behaviour in C++, so the model describes
  the runs on trees with fewer than `2^31` nodes.
* `std::vector::at` is bounds checked and throws; a thrown exception is `none`.
* `unsigned long long` counters are natural numbers reduced modulo `2^64`.
* The diagnostic output that the indexer and `zhang_shasha_ted` write to `std::cout` is not
  part of the model.
-/

namespace TreeSimilarity

/-! ## Trees -/

/-- Ordered labelled tree, the class `node::Node<Label>`: a label and the ordered sequence of
children. -/
inductive Node (Label : Type) where
  | mk (label : Label) (children : List (Node Label)) : Node Label

variable {Label : Type}

/-- Accessor `Node::label`. -/
def Node.label : Node Label → Label
  | .mk l _ => l

/-- Accessor `Node::get_children`. -/
def Node.get_children : Node Label → List (Node Label)
  | .mk _ cs => cs

/-- Modelled from the spec: `Node::is_leaf` is declared in `node.h`, which is not among the
sources; a leaf is a node without children (degree `0`). -/
def Node.is_leaf (n : Node Label) : Bool :=
  n.get_children.isEmpty

mutual
/-- Modelled from the spec: `Node::get_tree_size` is declared in `node.h`, which is not among
the sources; the size of a tree is its number of nodes. -/
def Node.get_tree_size : Node Label → Nat
  | .mk _ cs => forest_size cs + 1
/-- Number of nodes of an ordered forest. -/
def forest_size : List (Node Label) → Nat
  | [] => 0
  | c :: cs => c.get_tree_size + forest_size cs
end

/-! ## The indexer of `zhang_shasha_impl.h` -/

/-- The four reference parameters threaded through `index_nodes_recursion`. -/
structure IndexState where
  lld : List Int
  kr : List Int
  start_postorder : Int
  start_preorder : Int
deriving DecidableEq, Repr

/-- Bounds-checked read `v.at(i)`; the `int` index is converted to `size_t`, so a negative
index is out of range as well. -/
def vector_at (v : List Int) (i : Int) : Option Int :=
  if i < 0 then none else v[i.toNat]?

/-- Lines 60-75 of `index_nodes_recursion`: push this node's lld and advance the postorder
counter. -/
def index_nodes_push_lld (is_leaf : Bool) (first_child_postorder : Int) (s : IndexState) :
    Option IndexState :=
  if is_leaf then
    some { s with lld := s.lld ++ [s.start_postorder],
                  start_postorder := s.start_postorder + 1 }
  else
    match vector_at s.lld (first_child_postorder - 1) with
    | none => none
    | some x => some { s with lld := s.lld ++ [x],
                              start_postorder := s.start_postorder + 1 }

mutual
/-- The function `Algorithm::index_nodes_recursion`. -/
def index_nodes_recursion : Node Label → IndexState → Option IndexState
  | .mk label children, s0 =>
    let s1 := { s0 with start_preorder := s0.start_preorder + 1 }
    let visited : Option (Int × IndexState) :=
      match children with
      | [] => some (-1, s1)
      | c :: rest =>
        match index_nodes_recursion c s1 with
        | none => none
        | some s2 =>
          match index_nodes_while rest s2 with
          | none => none
          | some s3 => some (s2.start_postorder - 1, s3)
    match visited with
    | none => none
    | some (first_child_postorder, s) =>
      index_nodes_push_lld (Node.mk label children).is_leaf first_child_postorder s
/-- The `while` loop of `index_nodes_recursion` over the children after the first one
(lines 52-59). -/
def index_nodes_while : List (Node Label) → IndexState → Option IndexState
  | [], s => some s
  | c :: rest, s =>
    match index_nodes_recursion c s with
    | none => none
    | some s1 => index_nodes_while rest { s1 with kr := s1.kr ++ [s1.start_postorder - 1] }
end

/-- The function `Algorithm::index_nodes`: returns the final contents of `lld` and `kr`. -/
def index_nodes (root : Node Label) (lld kr : List Int) : Option (List Int × List Int) :=
  match index_nodes_recursion root ⟨lld, kr, 1, 1⟩ with
  | none => none
  | some s => some (s.lld, s.kr ++ [s.start_postorder - 1])

/-! ## Closed form of the vectors built by the indexer -/

mutual
/-- The lld entries appended while indexing a subtree that starts after `k` nodes. -/
def lld_from : Nat → Node Label → List Nat
  | k, .mk _ cs => lld_forest k cs ++ [k + 1]
/-- The lld entries appended while indexing consecutive sibling subtrees. -/
def lld_forest : Nat → List (Node Label) → List Nat
  | _, [] => []
  | k, c :: cs => lld_from k c ++ lld_forest (k + c.get_tree_size) cs
end

mutual
/-- The kr entries pushed inside the recursion for a subtree that starts after `k` nodes. -/
def kr_from : Nat → Node Label → List Nat
  | _, .mk _ [] => []
  | k, .mk _ (c :: rest) => kr_from k c ++ kr_while (k + c.get_tree_size) rest
/-- The kr entries pushed by the `while` loop over the later siblings. -/
def kr_while : Nat → List (Node Label) → List Nat
  | _, [] => []
  | k, c :: rest =>
    kr_from k c ++ (k + c.get_tree_size) :: kr_while (k + c.get_tree_size) rest
end

/-- Casting a list of natural numbers to the `int` entries of a vector. -/
def to_ints (l : List Nat) : List Int := l.map Int.ofNat

/-! ## Specification vocabulary: addresses, postorder, leftmost leaf -/

/-- Address of a node: the child positions (counted from `0`) on the way from the root. -/
abbrev Path := List Nat

mutual
/-- The nodes of a tree, each with its address, in postorder: children from left to right,
every child subtree before its parent. -/
def postorder : Node Label → List (Path × Node Label)
  | .mk l cs => postorder_forest 0 cs ++ [([], .mk l cs)]
/-- Postorder of the sibling subtrees `cs`, the first of which is child number `i`. -/
def postorder_forest : Nat → List (Node Label) → List (Path × Node Label)
  | _, [] => []
  | i, c :: cs =>
    (postorder c).map (fun e => (i :: e.1, e.2)) ++ postorder_forest (i + 1) cs
end

/-- Addresses of the nodes in postorder. -/
def postorder_paths (t : Node Label) : List Path :=
  (postorder t).map Prod.fst

/-- Position (from `0`) of the first occurrence of `a` in `l`; the length of `l` when `a`
does not occur. -/
def index_of (a : Path) : List Path → Nat
  | [] => 0
  | b :: l => if b = a then 0 else index_of a l + 1

/-- The 1-based postorder id of the node at address `a`. -/
def postorder_id (t : Node Label) (a : Path) : Nat :=
  index_of a (postorder_paths t) + 1

/-- Address, relative to the node itself, of its leftmost leaf descendant: follow the first
child until a leaf is reached. -/
def leftmost_leaf : Node Label → Path
  | .mk _ [] => []
  | .mk _ (c :: _) => 0 :: leftmost_leaf c

/-- A node is a keyroot when it is the root (empty address) or a non-first child (the last
step of its address is not `0`). -/
def is_keyroot_path (a : Path) : Bool :=
  match a.getLast? with
  | none => true
  | some i => i != 0

/-- The 1-based positions of the entries of a list of addresses that satisfy `f`, the first
entry having position `k + 1`. -/
def pos_filter (f : Path → Bool) : Nat → List Path → List Nat
  | _, [] => []
  | k, a :: l => if f a then (k + 1) :: pos_filter f (k + 1) l else pos_filter f (k + 1) l

/-- The entries of a vector paired with their 1-based positions, the first entry having
position `k + 1`. -/
def indexed : Nat → List Nat → List (Nat × Nat)
  | _, [] => []
  | k, x :: L => (k + 1, x) :: indexed (k + 1) L

/-- Every entry of an lld block that starts after `k` nodes lies between `k + 1` and its own
position. -/
def lld_bounded (k : Nat) (L : List Nat) : Prop :=
  ∀ v x, (v, x) ∈ indexed k L → k + 1 ≤ x ∧ x ≤ v

/-- Keyroot characterisation inside a block: a position is listed in `K` exactly when no
later position of the block carries the same lld value. -/
def kr_char (k : Nat) (L K : List Nat) : Prop :=
  ∀ v x, (v, x) ∈ indexed k L →
    (v ∈ K ↔ ∀ w y, (w, y) ∈ indexed k L → v < w → y ≠ x)

/-- The tree `{a{b}{c{d}{e}}}` used in the worked instances. -/
def ex1 : Node String := .mk "a" [.mk "b" [], .mk "c" [.mk "d" [], .mk "e" []]]

/-! ## The entry point `zhang_shasha_ted` -/

/-- The member vectors of `Algorithm` that `zhang_shasha_ted` passes to `index_nodes`. -/
structure Algorithm where
  lld1_ : List Int
  kr1_ : List Int
  lld2_ : List Int
  kr2_ : List Int
deriving DecidableEq, Repr

/-- A newly constructed `Algorithm`: its member vectors are default constructed, hence
empty. -/
def Algorithm.init : Algorithm := ⟨[], [], [], []⟩

/-- What a call of `zhang_shasha_ted` leaves behind: the returned `double` (the values that
occur are exact, so it is a rational number), the members of the object after the call, the
dimensions with which the matrix `td` is allocated and the cells `td[kr1][kr2]` written by the
nested loop, in order.  The class `data_structures::Matrix` is not among the sources and no
cell of `td` is read for the result, so the model records the written cells only. -/
structure TedRun where
  result : ℚ
  alg : Algorithm
  td_rows : Nat
  td_columns : Nat
  td_writes : List (Int × Int)

/-- The function `Algorithm::zhang_shasha_ted`.  The cost model `c` is not used by the body. -/
def zhang_shasha_ted {CostModel : Type} (alg : Algorithm) (t1 t2 : Node Label)
    (_c : CostModel) : Option TedRun :=
  let t1_size := t1.get_tree_size
  let t2_size := t2.get_tree_size
  match index_nodes t1 alg.lld1_ alg.kr1_ with
  | none => none
  | some (lld1, kr1) =>
    match index_nodes t2 alg.lld2_ alg.kr2_ with
    | none => none
    | some (lld2, kr2) =>
      some { result := 5
             alg := ⟨lld1, kr1, lld2, kr2⟩
             td_rows := t1_size
             td_columns := t2_size
             td_writes := kr1.flatMap (fun k1 => kr2.map (fun k2 => (k1, k2))) }

/-! ## Tree edit distance -/

/-- Modelled from the spec: one unit-cost edit operation on an ordered forest, namely
relabelling a node, deleting a node (its children take its place among its siblings) or
inserting a node (above a run of consecutive siblings), at the top level or deeper inside. -/
inductive ForestEdit : List (Node Label) → List (Node Label) → Prop where
  | relabel (pre post cs : List (Node Label)) (l l' : Label) :
      ForestEdit (pre ++ Node.mk l cs :: post) (pre ++ Node.mk l' cs :: post)
  | delete (pre post cs : List (Node Label)) (l : Label) :
      ForestEdit (pre ++ Node.mk l cs :: post) (pre ++ cs ++ post)
  | insert (pre post cs : List (Node Label)) (l : Label) :
      ForestEdit (pre ++ cs ++ post) (pre ++ Node.mk l cs :: post)
  | inside (pre post cs cs' : List (Node Label)) (l : Label) :
      ForestEdit cs cs' →
      ForestEdit (pre ++ Node.mk l cs :: post) (pre ++ Node.mk l cs' :: post)

/-- Modelled from the spec: `EditScript n t1 t2` holds when `n` unit-cost edit operations
transform the tree `t1` into the tree `t2`. -/
inductive EditScript : Nat → Node Label → Node Label → Prop where
  | done (t : Node Label) : EditScript 0 t t
  | step (n : Nat) (t1 t2 t3 : Node Label) :
      ForestEdit [t1] [t2] → EditScript n t2 t3 → EditScript (n + 1) t1 t3

/-- Modelled from the spec: `d` is the tree edit distance of `t1` and `t2` under unit costs,
the minimum total cost of an edit script from `t1` to `t2`. -/
def is_tree_edit_distance (t1 t2 : Node Label) (d : ℚ) : Prop :=
  ∃ n : Nat, (n : ℚ) = d ∧ EditScript n t1 t2 ∧ ∀ m : Nat, EditScript m t1 t2 → n ≤ m

/-! ## The join driver `LDHJoin` of `ldh_join_impl.h`

The distances are `double` values in the source.  The driver only compares them with the
threshold, so the model is parametric in the type `D` of distances and in the comparison
`le` that stands for `<=`. -/

/-- The class `join::JoinResultElement`; `join_result_element.h` is not among the sources, the
fields are the three arguments of `emplace_back(pair.first, pair.second, ted_value)`. -/
structure JoinResultElement (D : Type) where
  tree_id_1 : Nat
  tree_id_2 : Nat
  ted_value : D
deriving DecidableEq, Repr

/-- The template parameter `VerificationAlgorithm`: an object with internal state that is
default constructed, verifies a pair of trees against the threshold and reports the number of
subproblems of its last computation. -/
structure VerificationAlgorithm (Label D State : Type) where
  init : State
  verify : State → Node Label → Node Label → D → D × State
  get_subproblem_count : State → Nat

/-- The member variables of `LDHJoin`, all `unsigned long long int`. -/
structure LDHJoin where
  il_size_ : Nat
  pre_candidates_ : Nat
  sum_subproblem_counter_ : Nat
  il_lookups_ : Nat
deriving DecidableEq, Repr

/-- The constructor `LDHJoin::LDHJoin` zeroes three counters; it leaves `il_size_`
uninitialised, so its initial value is a parameter. -/
def LDHJoin.init (il_size_ : Nat) : LDHJoin :=
  { il_size_ := il_size_, pre_candidates_ := 0, sum_subproblem_counter_ := 0, il_lookups_ := 0 }

/-- The getter `LDHJoin::get_number_of_pre_candidates`. -/
def LDHJoin.get_number_of_pre_candidates (self : LDHJoin) : Nat := self.pre_candidates_

/-- The getter `LDHJoin::get_subproblem_count`. -/
def LDHJoin.get_subproblem_count (self : LDHJoin) : Nat := self.sum_subproblem_counter_

/-- The getter `LDHJoin::get_number_of_il_lookups`. -/
def LDHJoin.get_number_of_il_lookups (self : LDHJoin) : Nat := self.il_lookups_

/-- The `for` loop of `LDHJoin::verify_candidates` (lines 95-104), threading the verification
object, `join_result` and `sum_subproblem_counter_`.  The unchecked reads
`trees_collection[pair.first]` and `trees_collection[pair.second]` are undefined outside the
collection; such a run has no result (`none`).  The addition to the 64-bit counter wraps. -/
def verify_candidates_loop {D State : Type} (V : VerificationAlgorithm Label D State)
    (le : D → D → Bool) (trees_collection : List (Node Label)) (distance_threshold : D) :
    List (Nat × Nat) → State → List (JoinResultElement D) → Nat →
      Option (List (JoinResultElement D) × Nat)
  | [], _, join_result, sum_subproblem_counter_ => some (join_result, sum_subproblem_counter_)
  | pair :: rest, ted_algorithm, join_result, sum_subproblem_counter_ =>
    match trees_collection[pair.1]?, trees_collection[pair.2]? with
    | some t1, some t2 =>
      let r := V.verify ted_algorithm t1 t2 distance_threshold
      let ted_value := r.1
      let join_result' :=
        if le ted_value distance_threshold then
          join_result ++ [⟨pair.1, pair.2, ted_value⟩]
        else join_result
      verify_candidates_loop V le trees_collection distance_threshold rest r.2 join_result'
        ((sum_subproblem_counter_ + V.get_subproblem_count r.2) % 2 ^ 64)
    | _, _ => none

/-- The function `LDHJoin::verify_candidates`: returns the object and `join_result` after the
call. -/
def LDHJoin.verify_candidates {D State : Type} (self : LDHJoin)
    (V : VerificationAlgorithm Label D State) (le : D → D → Bool)
    (trees_collection : List (Node Label)) (candidates : List (Nat × Nat))
    (join_result : List (JoinResultElement D)) (distance_threshold : D) :
    Option (LDHJoin × List (JoinResultElement D)) :=
  match verify_candidates_loop V le trees_collection distance_threshold candidates V.init
      join_result self.sum_subproblem_counter_ with
  | none => none
  | some (join_result', sum) => some ({ self with sum_subproblem_counter_ := sum }, join_result')

/-- The class `leaf_dist_histogram_converter::Converter` is not among the sources and is a
parameter: `create_histogram` yields the histogram collection it leaves behind together with
the value `get_maximum_leaf_dist()` reports afterwards.  It reads the collection of trees and
leaves it as it is. -/
structure Converter (Label H : Type) where
  create_histogram : List (Node Label) → H → H × Nat

/-- The class `ldh_candidate_index::CandidateIndex` is not among the sources and is a
parameter: `lookup` yields the candidates it leaves behind together with the values that
`get_number_of_pre_candidates()` and `get_number_of_il_lookups()` report afterwards.  It reads
the histogram collection and leaves it as it is. -/
structure CandidateIndex (H D : Type) where
  lookup : H → List (Nat × Nat) → Nat → D → List (Nat × Nat) × Nat × Nat

/-- The function `LDHJoin::convert_trees_to_histograms`. -/
def LDHJoin.convert_trees_to_histograms {H : Type} (self : LDHJoin) (C : Converter Label H)
    (trees_collection : List (Node Label)) (histogram_collection : H) : LDHJoin × H :=
  let r := C.create_histogram trees_collection histogram_collection
  ({ self with il_size_ := r.2 }, r.1)

/-- The function `LDHJoin::retrieve_candidates`. -/
def LDHJoin.retrieve_candidates {H D : Type} (self : LDHJoin) (I : CandidateIndex H D)
    (histogram_collection : H) (candidates : List (Nat × Nat)) (distance_threshold : D) :
    LDHJoin × List (Nat × Nat) :=
  let r := I.lookup histogram_collection candidates self.il_size_ distance_threshold
  ({ self with pre_candidates_ := r.2.1, il_lookups_ := r.2.2 }, r.1)

/-- What `LDHJoin::execute_join` leaves in its reference parameters. -/
structure JoinRun (H D : Type) where
  self : LDHJoin
  histogram_collection : H
  candidates : List (Nat × Nat)
  join_result : List (JoinResultElement D)

/-- The function `LDHJoin::execute_join`. -/
def LDHJoin.execute_join {H D State : Type} (self : LDHJoin) (C : Converter Label H)
    (I : CandidateIndex H D) (V : VerificationAlgorithm Label D State) (le : D → D → Bool)
    (trees_collection : List (Node Label)) (histogram_collection : H)
    (candidates : List (Nat × Nat)) (join_result : List (JoinResultElement D))
    (distance_threshold : D) : Option (JoinRun H D) :=
  let r1 := self.convert_trees_to_histograms C trees_collection histogram_collection
  let r2 := r1.1.retrieve_candidates I r1.2 candidates distance_threshold
  match r2.1.verify_candidates V le trees_collection r2.2 join_result distance_threshold with
  | none => none
  | some (self', join_result') =>
    some { self := self', histogram_collection := r1.2, candidates := r2.2,
           join_result := join_result' }

/-! ## Specification vocabulary for the join -/

/-- One verification: the candidate pair, the distance the verification algorithm returned
for it and the subproblem count it reported afterwards. -/
structure Verification (D : Type) where
  tree_id_1 : Nat
  tree_id_2 : Nat
  ted_value : D
  subproblem_count : Nat

/-- The verifications of a candidate list in candidate order, the verification object being
in state `s` before the first one. -/
def verification_trace {D State : Type} (V : VerificationAlgorithm Label D State)
    (trees : List (Node Label)) (threshold : D) :
    List (Nat × Nat) → State → Option (List (Verification D))
  | [], _ => some []
  | p :: rest, s =>
    match trees[p.1]?, trees[p.2]? with
    | some t1, some t2 =>
      let r := V.verify s t1 t2 threshold
      match verification_trace V trees threshold rest r.2 with
      | none => none
      | some tr => some (⟨p.1, p.2, r.1, V.get_subproblem_count r.2⟩ :: tr)
    | _, _ => none

/-- The join result elements of the verifications whose distance is within the threshold. -/
def emitted {D : Type} (le : D → D → Bool) (threshold : D) (tr : List (Verification D)) :
    List (JoinResultElement D) :=
  (tr.filter (fun e => le e.ted_value threshold)).map
    (fun e => ⟨e.tree_id_1, e.tree_id_2, e.ted_value⟩)

/-- Adding the counts one after the other to an `unsigned long long` that holds `sum`. -/
def add_wrapping (sum : Nat) : List Nat → Nat
  | [] => sum
  | c :: cs => add_wrapping ((sum + c) % 2 ^ 64) cs

/-- The result element of the pair `p` when its trees are within `threshold` of each other
under the distance function `ted`. -/
def join_element {D : Type} (ted : Node Label → Node Label → D) (le : D → D → Bool)
    (trees : List (Node Label)) (threshold : D) (p : Nat × Nat) :
    Option (JoinResultElement D) :=
  match trees[p.1]?, trees[p.2]? with
  | some t1, some t2 =>
    if le (ted t1 t2) threshold then some ⟨p.1, p.2, ted t1 t2⟩ else none
  | _, _ => none

/-- All pairs `(i, j)` with `i < j < n`, in lexicographic order. -/
def all_pairs (n : Nat) : List (Nat × Nat) :=
  (List.product (List.range n) (List.range n)).filter (fun p => p.1 < p.2)

/-- Modelled from the spec: the naive join (`naive_join_ti.h` is not among the sources)
computes the distance of every pair `(i, j)` with `i < j` and keeps those within the
threshold. -/
def naive_join {D : Type} (ted : Node Label → Node Label → D) (le : D → D → Bool)
    (trees : List (Node Label)) (threshold : D) : List (JoinResultElement D) :=
  (all_pairs trees.length).filterMap (join_element ted le trees threshold)

/-- A distance for the worked instances: the difference of the tree sizes. -/
def size_distance (t1 t2 : Node String) : Nat :=
  (t1.get_tree_size - t2.get_tree_size) + (t2.get_tree_size - t1.get_tree_size)

/-- A verification algorithm for the worked instances: it returns `size_distance` and every
verification reports `2^63` subproblems. -/
def size_verifier : VerificationAlgorithm String Nat Unit where
  init := ()
  verify := fun _ t1 t2 _ => (size_distance t1 t2, ())
  get_subproblem_count := fun _ => 2 ^ 63

/-- A converter for the worked instances: no histograms, maximum leaf distance `3`. -/
def unit_converter : Converter String Unit where
  create_histogram := fun _ h => (h, 3)

/-- A candidate index for the worked instances: it appends all pairs of a collection of three
trees and reports `3` pre-candidates and `5` lookups. -/
def three_index : CandidateIndex Unit Nat where
  lookup := fun _ candidates _ _ => (candidates ++ [(0, 1), (0, 2), (1, 2)], 3, 5)

/-- A collection of three trees for the worked instances. -/
def three_trees : List (Node String) := [Node.mk "a" [], ex1, Node.mk "b" []]

/-- Modelled from the spec: a counter that saturates, as the spec's error table describes
("Counters saturate at their maximum"): adding the counts one after the other, the value
never exceeds `2^64 - 1`. -/
def add_saturating (sum : Nat) : List Nat → Nat
  | [] => sum
  | c :: cs => add_saturating (min (sum + c) (2 ^ 64 - 1)) cs

/-- A verification algorithm for the worked instances: it returns `size_distance` and reports
the product of the two tree sizes as the number of subproblems. -/
def product_verifier : VerificationAlgorithm String Nat Nat where
  init := 0
  verify := fun _ t1 t2 _ => (size_distance t1 t2, t1.get_tree_size * t2.get_tree_size)
  get_subproblem_count := fun s => s

/-- The candidate list that `execute_join` hands to `verify_candidates`: what `lookup` leaves in
`candidates` for the histograms and the inverted list size left by the converter. -/
def handed_candidates {H D : Type} (C : Converter Label H) (I : CandidateIndex H D)
    (trees_collection : List (Node Label)) (histogram_collection : H)
    (candidates : List (Nat × Nat)) (distance_threshold : D) : List (Nat × Nat) :=
  (I.lookup (C.create_histogram trees_collection histogram_collection).1 candidates
    (C.create_histogram trees_collection histogram_collection).2 distance_threshold).1

/-- A candidate index for the worked instances: it appends the given pairs and reports the
given numbers of pre-candidates and lookups. -/
def pairs_index {H D : Type} (pairs : List (Nat × Nat)) (pre_candidates il_lookups : Nat) :
    CandidateIndex H D where
  lookup := fun _ candidates _ _ => (candidates ++ pairs, pre_candidates, il_lookups)

/-- A verification algorithm with rational distances for the worked instances: it returns
`size_distance` and reports the product of the two tree sizes. -/
def rat_verifier : VerificationAlgorithm String ℚ Nat where
  init := 0
  verify := fun _ t1 t2 _ => ((size_distance t1 t2 : Nat), t1.get_tree_size * t2.get_tree_size)
  get_subproblem_count := fun s => s

/-! ## The histogram stage, modelled from the spec -/

mutual
/-- Modelled from the spec: the leaf distance `d(v)` of a node (the converter is not among the
sources), `0` for a leaf and otherwise `1` plus the minimum over the children. -/
def leaf_dist : Node Label → Nat
  | .mk _ [] => 0
  | .mk _ (c :: cs) => 1 + min_leaf_dist (leaf_dist c) cs
/-- The minimum of `m` and the leaf distances of the trees of a forest. -/
def min_leaf_dist : Nat → List (Node Label) → Nat
  | m, [] => m
  | m, c :: cs => min_leaf_dist (min m (leaf_dist c)) cs
end

mutual
/-- Modelled from the spec: the multiset of the leaf-distance histogram of a tree, one key
`d(v)` for every node `v`; the count of a key is its number of occurrences. -/
def leaf_dist_keys : Node Label → List Nat
  | .mk l cs => leaf_dist (.mk l cs) :: leaf_dist_keys_forest cs
/-- The keys of the nodes of a forest. -/
def leaf_dist_keys_forest : List (Node Label) → List Nat
  | [] => []
  | c :: cs => leaf_dist_keys c ++ leaf_dist_keys_forest cs
end

/-- Modelled from the spec: a histogram is the tree size together with the multiset of
keys. -/
abbrev Histogram := Nat × List Nat

/-- Modelled from the spec: the converter appends one leaf-distance histogram per tree and
exposes the maximum key seen across the collection. -/
def spec_converter : Converter Label (List Histogram) where
  create_histogram := fun trees histogram_collection =>
    (histogram_collection ++ trees.map (fun t => (t.get_tree_size, leaf_dist_keys t)),
     (trees.map (fun t => (leaf_dist_keys t).foldl max 0)).foldl max 0)

/-- Modelled from the spec: the L1 distance of two histograms over the keys `0..il_size`. -/
def l1_distance (il_size : Nat) (h1 h2 : List Nat) : Nat :=
  ((List.range (il_size + 1)).map
    (fun k => (h1.count k - h2.count k) + (h2.count k - h1.count k))).sum

/-- Modelled from the spec: the pre-candidates of the candidate index, the pairs `i < j` of
histograms whose size difference passes the admissibility test `within` (the test
`n ≤ 2·c_kind·τ` of the spec, a parameter). -/
def pre_candidate_pairs {D : Type} (within : Nat → D → Bool) (hist : List Histogram)
    (threshold : D) : List (Nat × Nat) :=
  (all_pairs hist.length).filter (fun p =>
    within (((hist.getD p.1 (0, [])).1 - (hist.getD p.2 (0, [])).1)
      + ((hist.getD p.2 (0, [])).1 - (hist.getD p.1 (0, [])).1)) threshold)

/-- Modelled from the spec: the candidate index (it is not among the sources).  The pairs whose
size difference passes are the pre-candidates and `pre_candidates` counts them; a pre-candidate
survives as a candidate when the L1 distance of the two histograms passes the admissibility
test.  The number of inverted list entries touched depends on the layout of the lists, which
the spec leaves open; it is the parameter `touched`. -/
def spec_candidate_index {D : Type} (within : Nat → D → Bool)
    (touched : List Histogram → Nat → D → Nat) : CandidateIndex (List Histogram) D where
  lookup := fun hist candidates il_size threshold =>
    (candidates ++ (pre_candidate_pairs within hist threshold).filter (fun p =>
        within (l1_distance il_size (hist.getD p.1 (0, [])).2 (hist.getD p.2 (0, [])).2)
          threshold),
     (pre_candidate_pairs within hist threshold).length,
     touched hist il_size threshold)

/-! ## The bracket notation parser of `bracket_notation_parser_impl.h`

A `std::string` is a `String`.  The member `node_stack` is a vector of references to nodes;
a reference into the tree under construction is the address of the node, and the back of the
vector is the head of the list. -/

/-- The constant `kLeftBracket`. -/
def kLeftBracket : String := "\x7b"

/-- The constant `kRightBracket`. -/
def kRightBracket : String := "\x7d"

/-- A match of the regex `kR`: the matched text `match.str()` and the text of group 1,
`match.str(1)`, which is empty when the group did not take part in the match. -/
structure Token where
  str : String
  group1 : String
deriving DecidableEq, Repr

/-- The label token that the scanner has pending, if any. -/
def flush_label : Option (List Char) → List Token
  | none => []
  | some text => [⟨String.mk text, String.mk text⟩]

/-- Modelled from the spec: the tokens of a string (the regex `kR` is declared in
`bracket_notation_parser.h`, which is not among the sources).  Each bracket is a token; the
label text between an opening bracket and the first bracket that follows is a token whose
group 1 is that text, possibly empty; other text between brackets is a token when it is not
empty.  The second argument is the text read since the last bracket, when it makes a token. -/
def kR_tokens_from : List Char → Option (List Char) → List Token
  | [], pending => flush_label pending
  | c :: cs, pending =>
    if c = '\x7b' then flush_label pending ++ ⟨kLeftBracket, ""⟩ :: kR_tokens_from cs (some [])
    else if c = '\x7d' then flush_label pending ++ ⟨kRightBracket, ""⟩ :: kR_tokens_from cs none
    else kR_tokens_from cs (some (pending.getD [] ++ [c]))

/-- The token sequence `std::sregex_iterator(tree_string.begin(), tree_string.end(), kR)`. -/
def kR_tokens (tree_string : String) : List Token :=
  kR_tokens_from tree_string.data none

/-- An entry of `node_stack`: a reference to the node at an address of the tree under
construction, or a reference left behind by an earlier call, whose node no longer exists. -/
inductive NodeRef where
  | stale : NodeRef
  | node (address : Path) : NodeRef
deriving DecidableEq, Repr

/-- The call `r.get().add_child(n)` for the reference `r` to the node at `address` of `root`
(`Node::add_child` is declared in `node.h`, not among the sources): `n` becomes the last child
of that node; the result is the tree and the address of the new child.  There is no result
when no node has that address. -/
def add_child_at : Path → Node Label → Node Label → Option (Node Label × Path)
  | [], .mk l cs, n => some (.mk l (cs ++ [n]), [cs.length])
  | i :: a, .mk l cs, n =>
    match cs[i]? with
    | none => none
    | some c =>
      match add_child_at a c n with
      | none => none
      | some (c', a') => some (.mk l (cs.set i c'), i :: a')

/-- What `parse_string` leaves behind: the returned tree and the member `node_stack`. -/
structure ParseRun where
  root : Node String
  node_stack : List NodeRef

/-- The loop `for (; tokens_begin != tokens_end; ++tokens_begin)` of `parse_string`
(lines 49-71).  Reading the token after the last one, `back()` or `pop_back()` on an empty
stack and the use of a stale reference are undefined; such a run has no result. -/
def parse_loop : List Token → Node String → List NodeRef → Option ParseRun
  | [], root, node_stack => some ⟨root, node_stack⟩
  | tok :: rest, root, node_stack =>
    if tok.str = kLeftBracket then
      match rest with
      | [] => none
      | label :: rest' =>
        match node_stack with
        | [] => none
        | NodeRef.stale :: _ => none
        | NodeRef.node address :: _ =>
          match add_child_at address root (Node.mk label.group1 []) with
          | none => none
          | some (root', address') =>
            if label.group1 = kRightBracket then
              parse_loop rest' root' node_stack
            else
              parse_loop rest' root' (NodeRef.node address' :: node_stack)
    else if tok.str = kRightBracket then
      match node_stack with
      | [] => none
      | _ :: node_stack' => parse_loop rest root node_stack'
    else parse_loop rest root node_stack

/-- The body of `parse_string` on the token sequence: the first token is skipped, the second
one gives the root label, the loop reads the rest. -/
def parse_tokens (node_stack : List NodeRef) : List Token → Option ParseRun
  | _ :: label :: rest =>
    parse_loop rest (Node.mk label.group1 []) (NodeRef.node [] :: node_stack)
  | _ => none

/-- The function `BracketNotationParser::parse_string`, called with the member `node_stack`
as given. -/
def parse_string (node_stack : List NodeRef) (tree_string : String) : Option ParseRun :=
  parse_tokens node_stack (kR_tokens tree_string)

/-! ## Specification vocabulary for the parser -/

mutual
/-- Modelled from the spec: the bracket notation of a tree, `T ::= "{" LABEL T* "}"`. -/
def to_bracket_chars : Node String → List Char
  | .mk l cs => '\x7b' :: (l.data ++ (forest_to_bracket_chars cs ++ ['\x7d']))
/-- The bracket notation of the trees of a forest, one after the other. -/
def forest_to_bracket_chars : List (Node String) → List Char
  | [] => []
  | c :: cs => to_bracket_chars c ++ forest_to_bracket_chars cs
end

/-- The bracket notation of a tree as a string. -/
def to_bracket_string (t : Node String) : String :=
  String.mk (to_bracket_chars t)

/-- A label of the grammar: no character of it is a bracket. -/
def is_label (l : String) : Bool :=
  l.data.all (fun c => c != '\x7b' && c != '\x7d')

mutual
/-- Every label of the tree is a label of the grammar. -/
def well_labelled : Node String → Bool
  | .mk l cs => is_label l && forest_well_labelled cs
/-- Every label of the forest is a label of the grammar. -/
def forest_well_labelled : List (Node String) → Bool
  | [] => true
  | c :: cs => well_labelled c && forest_well_labelled cs
end

mutual
/-- The tokens of the bracket notation of a tree: the opening bracket, the label, the tokens
of the children, the closing bracket. -/
def tree_tokens : Node String → List Token
  | .mk l cs => ⟨kLeftBracket, ""⟩ :: ⟨l, l⟩ :: (forest_tokens cs ++ [⟨kRightBracket, ""⟩])
/-- The tokens of the bracket notation of a forest. -/
def forest_tokens : List (Node String) → List Token
  | [] => []
  | c :: cs => tree_tokens c ++ forest_tokens cs
end

/-- The tree under construction seen from the node being filled: for every proper ancestor,
from the root downwards, its label and its children to the left of the path. -/
def plug : List (String × List (Node String)) → Node String → Node String
  | [], t => t
  | (l, ks) :: ctx, t => .mk l (ks ++ [plug ctx t])

/-- The address of the node being filled. -/
def plug_path : List (String × List (Node String)) → Path
  | [] => []
  | (_, ks) :: ctx => ks.length :: plug_path ctx

/-- The tree `{a{}{b{c}}}` with an empty label, used in the worked instances. -/
def ex2 : Node String := .mk "a" [.mk "" [], .mk "b" [.mk "c" []]]

/-! ## The join test harness `ted_join_test.cc`

The joins under test and the data set `join_test_data.txt` are not among the sources.  The
harness only compares the size of each join result with a golden count, so `main` is modelled
as a function of the variant name `argv[1]` and of the result size each join returns for each
threshold. -/

/-- The vector `results`: the golden counts for the thresholds `1` to `15`. -/
def results : List Nat :=
  [9, 37, 61, 109, 196, 344, 476, 596, 704, 840, 946, 1138, 1356, 1498, 1692]

/-- The value of `join_result.size()` after each join variant has run on the parsed collection
with the threshold `(double)i`. -/
structure JoinSizes where
  naive : Nat → Nat
  tjoin : Nat → Nat
  tang : Nat → Nat
  guha : Nat → Nat

/-- What a run of `main` leaves behind: the returned exit code and, for every line
`ERROR Incorrect join result for threshold i: n instead of ...` written to `std::cout`,
the pair `(i, n)`. -/
structure MainRun where
  exit_code : Int
  errors : List (Nat × Nat)
deriving DecidableEq, Repr

/-- The loop `for (int i = ...; i <= max_thres; i += thres_step)` of one branch of `main`,
started at `i`; when the loop ends `main` goes on to `return 0`.  The first argument bounds the
number of iterations; `results[i - 1]` is an unchecked read, undefined outside the vector. -/
def threshold_loop (join_size : Nat → Nat) (max_thres thres_step : Nat) :
    Nat → Nat → Option MainRun
  | 0, _ => none
  | fuel + 1, i =>
    if i ≤ max_thres then
      match results[i - 1]? with
      | none => none
      | some golden =>
        if join_size i ≠ golden then some ⟨-1, [(i, join_size i)]⟩
        else threshold_loop join_size max_thres thres_step fuel (i + thres_step)
    else some ⟨0, []⟩

/-- The function `main` of the join test, with `min_thres = 1`, `max_thres = 15` and
`thres_step = 5`. -/
def main (ted_join_algorithm_name : String) (sizes : JoinSizes) : Option MainRun :=
  if ted_join_algorithm_name = "naive" then threshold_loop sizes.naive 15 5 16 1
  else if ted_join_algorithm_name = "tjoin" then threshold_loop sizes.tjoin 15 5 16 1
  else if ted_join_algorithm_name = "tang" then threshold_loop sizes.tang 15 5 16 1
  else if ted_join_algorithm_name = "guha" then threshold_loop sizes.guha 3 5 16 3
  else some ⟨0, []⟩

/-- Result sizes for the worked instances: every join returns the golden count for every
threshold, except the naive join at the threshold `wrong`, which returns nothing. -/
def golden_sizes_but (wrong : Nat) : JoinSizes where
  naive := fun i => if i = wrong then 0 else results.getD (i - 1) 0
  tjoin := fun i => results.getD (i - 1) 0
  tang := fun i => results.getD (i - 1) 0
  guha := fun i => results.getD (i - 1) 0

/-! ## Leaves and the lld values of the keyroots -/

/-- The 1-based postorder ids of the leaves of a tree, in increasing order: one entry for each
node of the postorder that has no children. -/
def leaf_ids (t : Node Label) : List Nat :=
  ((postorder t).filter (fun e => e.2.is_leaf)).map (fun e => postorder_id t e.1)

mutual
/-- The postorder ids of the leaves of a subtree that starts after `k` nodes. -/
def leaves_from : Nat → Node Label → List Nat
  | k, .mk _ [] => [k + 1]
  | k, .mk _ (c :: rest) => leaves_from k c ++ leaves_forest (k + c.get_tree_size) rest
/-- The postorder ids of the leaves of consecutive sibling subtrees. -/
def leaves_forest : Nat → List (Node Label) → List Nat
  | _, [] => []
  | k, c :: rest => leaves_from k c ++ leaves_forest (k + c.get_tree_size) rest
end

mutual
/-- The kr entries pushed inside the recursion for a subtree that starts after `k` nodes, each
paired with the lld entry of that node. -/
def kr_lld_from : Nat → Node Label → List (Nat × Nat)
  | _, .mk _ [] => []
  | k, .mk _ (c :: rest) => kr_lld_from k c ++ kr_lld_while (k + c.get_tree_size) rest
/-- The kr entries pushed by the `while` loop over the later siblings, each paired with the lld
entry of that node. -/
def kr_lld_while : Nat → List (Node Label) → List (Nat × Nat)
  | _, [] => []
  | k, c :: rest =>
    kr_lld_from k c ++ (k + c.get_tree_size, k + 1) :: kr_lld_while (k + c.get_tree_size) rest
end

/-! ## The reads of `lld` made by the indexer -/

/-- One execution of `lld.at(first_child_postorder - 1)`: the value of `start_postorder` (the
postorder id of the node for which the read is made), the value of `first_child_postorder`,
`lld.size()` at that point and the entry read. -/
structure LldRead where
  node_postorder : Int
  first_child_postorder : Int
  lld_size : Nat
  value : Int
deriving DecidableEq, Repr

/-- The read made by lines 60-75 of `index_nodes_recursion` in the state `s`: none for a leaf,
one for an internal node (none as well when `at` throws). -/
def index_nodes_lld_read (is_leaf : Bool) (first_child_postorder : Int) (s : IndexState) :
    List LldRead :=
  if is_leaf then []
  else
    match vector_at s.lld (first_child_postorder - 1) with
    | none => []
    | some x => [⟨s.start_postorder, first_child_postorder, s.lld.length, x⟩]

mutual
/-- The function `Algorithm::index_nodes_recursion`, returning next to the final state the reads
of `lld` it made, in order. -/
def index_nodes_recursion_reads : Node Label → IndexState → Option (IndexState × List LldRead)
  | .mk label children, s0 =>
    let s1 := { s0 with start_preorder := s0.start_preorder + 1 }
    let visited : Option (Int × IndexState × List LldRead) :=
      match children with
      | [] => some (-1, s1, [])
      | c :: rest =>
        match index_nodes_recursion_reads c s1 with
        | none => none
        | some (s2, r2) =>
          match index_nodes_while_reads rest s2 with
          | none => none
          | some (s3, r3) => some (s2.start_postorder - 1, s3, r2 ++ r3)
    match visited with
    | none => none
    | some (first_child_postorder, s, reads) =>
      match index_nodes_push_lld (Node.mk label children).is_leaf first_child_postorder s with
      | none => none
      | some s4 =>
        some (s4, reads ++ index_nodes_lld_read (Node.mk label children).is_leaf
          first_child_postorder s)
/-- The `while` loop of `index_nodes_recursion`, returning the reads of `lld` as well. -/
def index_nodes_while_reads : List (Node Label) → IndexState →
    Option (IndexState × List LldRead)
  | [], s => some (s, [])
  | c :: rest, s =>
    match index_nodes_recursion_reads c s with
    | none => none
    | some (s1, r1) =>
      match index_nodes_while_reads rest { s1 with kr := s1.kr ++ [s1.start_postorder - 1] } with
      | none => none
      | some (s2, r2) => some (s2, r1 ++ r2)
end

mutual
/-- The reads made while indexing a subtree that starts after `k` nodes. -/
def reads_from : Nat → Node Label → List LldRead
  | _, .mk _ [] => []
  | k, .mk _ (c :: rest) =>
    reads_from k c ++ reads_forest (k + c.get_tree_size) rest
      ++ [⟨((k + c.get_tree_size + forest_size rest + 1 : Nat) : Int),
           ((k + c.get_tree_size : Nat) : Int),
           k + c.get_tree_size + forest_size rest,
           ((k + 1 : Nat) : Int)⟩]
/-- The reads made while indexing consecutive sibling subtrees. -/
def reads_forest : Nat → List (Node Label) → List LldRead
  | _, [] => []
  | k, c :: rest => reads_from k c ++ reads_forest (k + c.get_tree_size) rest
end

/-- The read the indexer is expected to make for the entry `e` of a postorder whose addresses
are `Q`, ids being counted after `k` earlier nodes: none for a leaf; for an internal node at
address `a` with first child `c`, the node's own id, the id of the first child (address
`a ++ [0]`), an `lld` that holds the entries of all earlier nodes, and as value the id of the
leftmost leaf descendant of the first child (address `a ++ [0] ++ leftmost_leaf c`). -/
def first_child_read (k : Nat) (Q : List Path) (e : Path × Node Label) : Option LldRead :=
  match e.2 with
  | .mk _ [] => none
  | .mk _ (c :: _) =>
    some ⟨((k + (index_of e.1 Q + 1) : Nat) : Int),
          ((k + (index_of (e.1 ++ [0]) Q + 1) : Nat) : Int),
          k + index_of e.1 Q,
          ((k + (index_of (e.1 ++ [0] ++ leftmost_leaf c) Q + 1) : Nat) : Int)⟩

/-- The reads of `lld` expected for a tree: one for each internal node, in postorder, reading
the lld of the first child. -/
def expected_reads (t : Node Label) : List LldRead :=
  (postorder t).filterMap (first_child_read 0 (postorder_paths t))

/-! # Theorems -/

mutual
theorem lld_from_length : ∀ (t : Node Label) (k : Nat), (lld_from k t).length = t.get_tree_size
  | .mk _ cs, k => by
    simp [lld_from, Node.get_tree_size, lld_forest_length cs k]
theorem lld_forest_length : ∀ (cs : List (Node Label)) (k : Nat),
    (lld_forest k cs).length = forest_size cs
  | [], _ => by simp [lld_forest, forest_size]
  | c :: cs, k => by
    simp [lld_forest, forest_size, lld_from_length c k, lld_forest_length cs (k + c.get_tree_size)]
end

theorem vector_at_first_child (c : Node Label) (L R : List Int) (k : Nat) (hL : L.length = k) :
    vector_at (L ++ to_ints (lld_from k c) ++ R)
      (((k : Int) + 1 + (c.get_tree_size : Nat)) - 1 - 1) = some ((k : Int) + 1) := by
  obtain ⟨l, cs⟩ := c
  have hidx : (((k : Int) + 1 + ((Node.mk l cs).get_tree_size : Nat)) - 1 - 1)
      = ((k + forest_size cs : Nat) : Int) := by
    simp [Node.get_tree_size]; ring
  rw [hidx]
  unfold vector_at
  have hlen : (L ++ to_ints (lld_forest k cs)).length = k + forest_size cs := by
    simp [to_ints, hL, lld_forest_length]
  simp only [lld_from, to_ints, List.map_append, List.map_cons, List.map_nil]
  have : ¬ (((k + forest_size cs : Nat) : Int) < 0) := by omega
  rw [if_neg this, Int.toNat_ofNat]
  have e : L ++ (List.map Int.ofNat (lld_forest k cs) ++ [Int.ofNat (k + 1)]) ++ R
      = (L ++ to_ints (lld_forest k cs)) ++ (Int.ofNat (k + 1) :: R) := by
    simp [to_ints]
  rw [e, List.getElem?_append_right (by omega)]
  simp [hlen]

mutual
theorem index_nodes_recursion_eq : ∀ (t : Node Label) (L K : List Int) (sp pre : Int) (k : Nat),
    L.length = k → sp = (k : Int) + 1 →
    index_nodes_recursion t ⟨L, K, sp, pre⟩
      = some ⟨L ++ to_ints (lld_from k t), K ++ to_ints (kr_from k t),
              sp + (t.get_tree_size : Nat), pre + (t.get_tree_size : Nat)⟩
  | .mk l [], L, K, sp, pre, k, hL, hsp => by
    subst hsp
    simp [index_nodes_recursion, index_nodes_push_lld, Node.is_leaf, Node.get_children,
      lld_from, lld_forest, kr_from, Node.get_tree_size, forest_size, to_ints]
  | .mk l (c :: rest), L, K, sp, pre, k, hL, hsp => by
    subst hsp
    have h1 := index_nodes_recursion_eq c L K ((k : Int) + 1) (pre + 1) k hL rfl
    have h2 := index_nodes_while_eq rest (L ++ to_ints (lld_from k c))
      (K ++ to_ints (kr_from k c)) ((k : Int) + 1 + (c.get_tree_size : Nat))
      (pre + 1 + (c.get_tree_size : Nat)) (k + c.get_tree_size)
      (by simp [to_ints, hL, lld_from_length]) (by push_cast; ring)
    have h3 := vector_at_first_child c L (to_ints (lld_forest (k + c.get_tree_size) rest)) k hL
    simp only [index_nodes_recursion, h1, h2, index_nodes_push_lld, Node.is_leaf,
      Node.get_children, List.isEmpty_cons, h3]
    simp [lld_from, lld_forest, kr_from, Node.get_tree_size, forest_size, to_ints]
    omega
theorem index_nodes_while_eq : ∀ (cs : List (Node Label)) (L K : List Int) (sp pre : Int)
    (k : Nat), L.length = k → sp = (k : Int) + 1 →
    index_nodes_while cs ⟨L, K, sp, pre⟩
      = some ⟨L ++ to_ints (lld_forest k cs), K ++ to_ints (kr_while k cs),
              sp + (forest_size cs : Nat), pre + (forest_size cs : Nat)⟩
  | [], L, K, sp, pre, k, _, _ => by
    simp [index_nodes_while, lld_forest, kr_while, forest_size, to_ints]
  | c :: rest, L, K, sp, pre, k, hL, hsp => by
    subst hsp
    have h1 := index_nodes_recursion_eq c L K ((k : Int) + 1) pre k hL rfl
    have h2 := index_nodes_while_eq rest (L ++ to_ints (lld_from k c))
      (K ++ to_ints (kr_from k c) ++ [(k : Int) + 1 + (c.get_tree_size : Nat) - 1])
      ((k : Int) + 1 + (c.get_tree_size : Nat))
      (pre + (c.get_tree_size : Nat)) (k + c.get_tree_size)
      (by simp [to_ints, hL, lld_from_length]) (by push_cast; ring)
    simp only [index_nodes_while, h1, h2]
    simp [lld_forest, kr_while, forest_size, to_ints]
    omega
end


/-! ## Postorder addresses -/

theorem postorder_forest_head (cs : List (Node Label)) : ∀ (i : Nat) (e : Path × Node Label),
    e ∈ postorder_forest i cs → ∃ j a, e.1 = j :: a ∧ i ≤ j := by
  induction cs with
  | nil => intro i e h; simp [postorder_forest] at h
  | cons c rest ih =>
    intro i e h
    simp only [postorder_forest, List.mem_append, List.mem_map] at h
    rcases h with ⟨e0, _, rfl⟩ | h
    · exact ⟨i, e0.1, rfl, le_refl _⟩
    · obtain ⟨j, a, h1, h2⟩ := ih (i + 1) e h
      exact ⟨j, a, h1, by omega⟩

theorem postorder_forest_paths_head (cs : List (Node Label)) (i : Nat) (a : Path)
    (h : a ∈ (postorder_forest i cs).map Prod.fst) : ∃ j b, a = j :: b ∧ i ≤ j := by
  obtain ⟨e, he, rfl⟩ := List.mem_map.1 h
  exact postorder_forest_head cs i e he

theorem postorder_paths_mk (l : Label) (cs : List (Node Label)) :
    postorder_paths (Node.mk l cs) = (postorder_forest 0 cs).map Prod.fst ++ [[]] := by
  simp [postorder_paths, postorder]

theorem postorder_forest_paths_cons (i : Nat) (c : Node Label) (rest : List (Node Label)) :
    (postorder_forest i (c :: rest)).map Prod.fst
      = (postorder_paths c).map (fun a => i :: a)
        ++ (postorder_forest (i + 1) rest).map Prod.fst := by
  simp [postorder_paths, postorder_forest, Function.comp_def]

mutual
theorem postorder_length : ∀ (t : Node Label), (postorder t).length = t.get_tree_size
  | .mk _ cs => by
    simp [postorder, Node.get_tree_size, postorder_forest_length cs 0]
theorem postorder_forest_length : ∀ (cs : List (Node Label)) (i : Nat),
    (postorder_forest i cs).length = forest_size cs
  | [], _ => by simp [postorder_forest, forest_size]
  | c :: cs, i => by
    simp [postorder_forest, forest_size, postorder_length c, postorder_forest_length cs (i + 1)]
end

theorem postorder_paths_length (t : Node Label) :
    (postorder_paths t).length = t.get_tree_size := by
  simp [postorder_paths, postorder_length]

mutual
theorem postorder_paths_nodup : ∀ (t : Node Label), (postorder_paths t).Nodup
  | .mk l cs => by
    rw [postorder_paths_mk, List.nodup_append]
    refine ⟨postorder_forest_paths_nodup cs 0, List.nodup_singleton _, ?_⟩
    intro a ha hb
    obtain ⟨j, b, h1, _⟩ := postorder_forest_paths_head cs 0 a ha
    simp [h1] at hb
theorem postorder_forest_paths_nodup : ∀ (cs : List (Node Label)) (i : Nat),
    ((postorder_forest i cs).map Prod.fst).Nodup
  | [], _ => by simp [postorder_forest]
  | c :: rest, i => by
    rw [postorder_forest_paths_cons, List.nodup_append]
    refine ⟨?_, postorder_forest_paths_nodup rest (i + 1), ?_⟩
    · exact (postorder_paths_nodup c).map (fun x y h => by simpa using h)
    · intro a ha hb
      obtain ⟨j, b, h1, h2⟩ := postorder_forest_paths_head rest (i + 1) a hb
      obtain ⟨x, _, hx⟩ := List.mem_map.1 ha
      rw [h1] at hx
      simp at hx
      omega
end

theorem postorder_paths_head : ∀ (t : Node Label),
    ∃ tl, postorder_paths t = leftmost_leaf t :: tl
  | .mk l [] => ⟨[], by simp [postorder_paths, postorder, postorder_forest, leftmost_leaf]⟩
  | .mk l (c :: rest) => by
    obtain ⟨tl, h⟩ := postorder_paths_head c
    refine ⟨tl.map (fun a => 0 :: a) ++ (postorder_forest 1 rest).map Prod.fst ++ [[]], ?_⟩
    rw [postorder_paths_mk, postorder_forest_paths_cons, h]
    simp [leftmost_leaf]

theorem leftmost_leaf_mem (t : Node Label) : leftmost_leaf t ∈ postorder_paths t := by
  obtain ⟨tl, h⟩ := postorder_paths_head t
  simp [h]

mutual
theorem lld_path_mem : ∀ (t : Node Label) (a : Path) (v : Node Label),
    (a, v) ∈ postorder t → a ++ leftmost_leaf v ∈ postorder_paths t
  | .mk l cs, a, v, h => by
    simp only [postorder, List.mem_append, List.mem_singleton] at h
    rcases h with h | h
    · rw [postorder_paths_mk]
      exact List.mem_append_left _ (lld_path_mem_forest cs 0 a v h)
    · cases h
      simpa using leftmost_leaf_mem (Node.mk l cs)
theorem lld_path_mem_forest : ∀ (cs : List (Node Label)) (i : Nat) (a : Path) (v : Node Label),
    (a, v) ∈ postorder_forest i cs → a ++ leftmost_leaf v ∈ (postorder_forest i cs).map Prod.fst
  | [], _, _, _, h => by simp [postorder_forest] at h
  | c :: rest, i, a, v, h => by
    rw [postorder_forest_paths_cons]
    simp only [postorder_forest, List.mem_append, List.mem_map] at h
    rcases h with ⟨e0, he0, he⟩ | h
    · cases he
      refine List.mem_append_left _ (List.mem_map.2 ⟨e0.1 ++ leftmost_leaf e0.2, ?_, by simp⟩)
      exact lld_path_mem c e0.1 e0.2 he0
    · exact List.mem_append_right _ (lld_path_mem_forest rest (i + 1) a v h)
end

theorem leftmost_leaf_entry : ∀ (t : Node Label),
    ∃ w, (leftmost_leaf t, w) ∈ postorder t ∧ w.is_leaf = true
  | .mk l [] => ⟨Node.mk l [], by simp [postorder, postorder_forest, leftmost_leaf], rfl⟩
  | .mk l (c :: rest) => by
    obtain ⟨w, hw, hl⟩ := leftmost_leaf_entry c
    refine ⟨w, ?_, hl⟩
    simp only [postorder, postorder_forest, leftmost_leaf, List.mem_append, List.mem_map]
    exact Or.inl (Or.inl ⟨(leftmost_leaf c, w), hw, rfl⟩)

mutual
theorem lld_entry_mem : ∀ (t : Node Label) (a : Path) (v : Node Label),
    (a, v) ∈ postorder t →
    ∃ w, (a ++ leftmost_leaf v, w) ∈ postorder t ∧ w.is_leaf = true
  | .mk l cs, a, v, h => by
    simp only [postorder, List.mem_append, List.mem_singleton] at h
    rcases h with h | h
    · obtain ⟨w, hw, hl⟩ := lld_entry_mem_forest cs 0 a v h
      exact ⟨w, by rw [postorder]; exact List.mem_append_left _ hw, hl⟩
    · cases h
      simpa using leftmost_leaf_entry (Node.mk l cs)
theorem lld_entry_mem_forest : ∀ (cs : List (Node Label)) (i : Nat) (a : Path)
    (v : Node Label), (a, v) ∈ postorder_forest i cs →
    ∃ w, (a ++ leftmost_leaf v, w) ∈ postorder_forest i cs ∧ w.is_leaf = true
  | [], _, _, _, h => by simp [postorder_forest] at h
  | c :: rest, i, a, v, h => by
    simp only [postorder_forest, List.mem_append, List.mem_map] at h
    rcases h with ⟨e0, he0, he⟩ | h
    · cases he
      obtain ⟨w, hw, hl⟩ := lld_entry_mem c e0.1 e0.2 he0
      refine ⟨w, ?_, hl⟩
      rw [postorder_forest]
      exact List.mem_append_left _ (List.mem_map.2 ⟨_, hw, by simp⟩)
    · obtain ⟨w, hw, hl⟩ := lld_entry_mem_forest rest (i + 1) a v h
      exact ⟨w, by rw [postorder_forest]; exact List.mem_append_right _ hw, hl⟩
end

theorem index_of_append_of_mem (a : Path) (l₁ l₂ : List Path) (h : a ∈ l₁) :
    index_of a (l₁ ++ l₂) = index_of a l₁ := by
  induction l₁ with
  | nil => simp at h
  | cons b l ih =>
    by_cases hb : b = a
    · simp [index_of, hb]
    · have : a ∈ l := by
        rcases List.mem_cons.1 h with h | h
        · exact absurd h.symm hb
        · exact h
      simp [index_of, hb, ih this]

theorem index_of_append_of_not_mem (a : Path) (l₁ l₂ : List Path) (h : a ∉ l₁) :
    index_of a (l₁ ++ l₂) = l₁.length + index_of a l₂ := by
  induction l₁ with
  | nil => simp
  | cons b l ih =>
    have hb : b ≠ a := fun e => h (by simp [e])
    have hl : a ∉ l := fun e => h (List.mem_cons_of_mem _ e)
    simp [index_of, hb, ih hl]
    omega

theorem index_of_map_cons (i : Nat) (a : Path) (Q : List Path) :
    index_of (i :: a) (Q.map (fun b => i :: b)) = index_of a Q := by
  induction Q with
  | nil => simp [index_of]
  | cons q Q ih => simp [index_of, ih]

theorem index_of_lt_length (a : Path) (l : List Path) (h : a ∈ l) :
    index_of a l < l.length := by
  induction l with
  | nil => simp at h
  | cons b l ih =>
    by_cases hb : b = a
    · simp [index_of, hb]
    · have : a ∈ l := by
        rcases List.mem_cons.1 h with h | h
        · exact absurd h.symm hb
        · exact h
      simp [index_of, hb, ih this]

theorem getElem?_index_of (a : Path) (l : List Path) (h : a ∈ l) :
    l[index_of a l]? = some a := by
  induction l with
  | nil => simp at h
  | cons b l ih =>
    by_cases hb : b = a
    · simp [index_of, hb]
    · have : a ∈ l := by
        rcases List.mem_cons.1 h with h | h
        · exact absurd h.symm hb
        · exact h
      simp [index_of, hb, ih this]

theorem index_of_getElem? (l : List Path) (hl : l.Nodup) (p : Nat) (a : Path)
    (h : l[p]? = some a) : index_of a l = p := by
  induction l generalizing p with
  | nil => simp at h
  | cons b l ih =>
    cases p with
    | zero =>
      simp at h
      simp [index_of, h]
    | succ p =>
      simp at h
      have hmem : a ∈ l := List.getElem?_mem h
      have hb : b ≠ a := by
        intro e
        subst e
        exact (List.nodup_cons.1 hl).1 hmem
      simp [index_of, hb, ih (List.nodup_cons.1 hl).2 p h]

theorem index_of_forest_cons_left (i : Nat) (c : Node Label) (rest : List (Node Label))
    (a : Path) (ha : a ∈ postorder_paths c) :
    index_of (i :: a) ((postorder_forest i (c :: rest)).map Prod.fst)
      = index_of a (postorder_paths c) := by
  rw [postorder_forest_paths_cons, index_of_append_of_mem, index_of_map_cons]
  exact List.mem_map.2 ⟨a, ha, rfl⟩

theorem index_of_forest_cons_right (i : Nat) (c : Node Label) (rest : List (Node Label))
    (a : Path) (ha : a ∈ (postorder_forest (i + 1) rest).map Prod.fst) :
    index_of a ((postorder_forest i (c :: rest)).map Prod.fst)
      = c.get_tree_size + index_of a ((postorder_forest (i + 1) rest).map Prod.fst) := by
  rw [postorder_forest_paths_cons, index_of_append_of_not_mem]
  · simp [postorder_paths_length]
  · intro hb
    obtain ⟨j, b, h1, h2⟩ := postorder_forest_paths_head rest (i + 1) a ha
    obtain ⟨x, _, hx⟩ := List.mem_map.1 hb
    rw [h1] at hx
    simp at hx
    omega

mutual
theorem lld_from_eq_spec : ∀ (t : Node Label) (k : Nat),
    lld_from k t = (postorder t).map
      (fun e => k + (index_of (e.1 ++ leftmost_leaf e.2) (postorder_paths t) + 1))
  | .mk l cs, k => by
    rw [lld_from, lld_forest_eq_spec cs 0 k]
    conv_rhs => rw [postorder, List.map_append]
    congr 1
    · apply List.map_congr_left
      intro e he
      rw [postorder_paths_mk,
        index_of_append_of_mem _ _ _ (lld_path_mem_forest cs 0 e.1 e.2 he)]
    · obtain ⟨tl, h⟩ := postorder_paths_head (Node.mk l cs)
      simp [h, index_of]
theorem lld_forest_eq_spec : ∀ (cs : List (Node Label)) (i k : Nat),
    lld_forest k cs = (postorder_forest i cs).map
      (fun e => k + (index_of (e.1 ++ leftmost_leaf e.2)
        ((postorder_forest i cs).map Prod.fst) + 1))
  | [], _, _ => by simp [lld_forest, postorder_forest]
  | c :: rest, i, k => by
    rw [lld_forest, lld_from_eq_spec c k, lld_forest_eq_spec rest (i + 1) (k + c.get_tree_size)]
    conv_rhs => rw [postorder_forest, List.map_append, List.map_map]
    congr 1
    · apply List.map_congr_left
      intro e he
      simp only [Function.comp, List.cons_append]
      rw [← postorder_forest, index_of_forest_cons_left i c rest _ (lld_path_mem c e.1 e.2 he)]
    · apply List.map_congr_left
      intro e he
      rw [← postorder_forest,
        index_of_forest_cons_right i c rest _ (lld_path_mem_forest rest (i + 1) e.1 e.2 he)]
      omega
end

/-- What `index_nodes` returns when it starts from an empty `lld`. -/
theorem index_nodes_eq (t : Node Label) (K : List Int) :
    index_nodes t [] K
      = some (to_ints (lld_from 0 t),
              K ++ to_ints (kr_from 0 t) ++ [((t.get_tree_size : Nat) : Int)]) := by
  have h := index_nodes_recursion_eq t [] K 1 1 0 rfl (by simp)
  simp [index_nodes, h]

/-! ## Keyroots as a filter of the postorder -/

theorem is_keyroot_path_cons (i : Nat) (a : Path) (h : a ≠ []) :
    is_keyroot_path (i :: a) = is_keyroot_path a := by
  cases a with
  | nil => exact absurd rfl h
  | cons b a => simp [is_keyroot_path, List.getLast?_cons_cons]

theorem pos_filter_append (f : Path → Bool) (A B : List Path) (k : Nat) :
    pos_filter f k (A ++ B) = pos_filter f k A ++ pos_filter f (k + A.length) B := by
  induction A generalizing k with
  | nil => simp [pos_filter]
  | cons a A ih =>
    have e : k + 1 + A.length = k + (A.length + 1) := by omega
    by_cases h : f a = true <;> simp [pos_filter, h, ih, e]

theorem pos_filter_map (f : Path → Bool) (g : Path → Path) (Q : List Path) (k : Nat) :
    pos_filter f k (Q.map g) = pos_filter (fun a => f (g a)) k Q := by
  induction Q generalizing k with
  | nil => simp [pos_filter]
  | cons a A ih => simp [pos_filter, ih]

theorem pos_filter_congr (f g : Path → Bool) (Q : List Path) (k : Nat)
    (h : ∀ a ∈ Q, f a = g a) : pos_filter f k Q = pos_filter g k Q := by
  induction Q generalizing k with
  | nil => simp [pos_filter]
  | cons a A ih =>
    have h1 : f a = g a := h a (by simp)
    have h2 : ∀ b ∈ A, f b = g b := fun b hb => h b (List.mem_cons_of_mem _ hb)
    simp [pos_filter, h1, ih _ h2]

theorem pos_filter_eq_filter_map (f : Path → Bool) (Q : List Path) :
    ∀ (A : List Path), (A ++ Q).Nodup →
      (Q.filter f).map (fun a => index_of a (A ++ Q) + 1) = pos_filter f A.length Q := by
  induction Q with
  | nil => intro A _; simp [pos_filter]
  | cons q Q ih =>
    intro A hnd
    have hq : q ∉ A := by
      intro hA
      have := (List.nodup_append.1 hnd).2.2 hA
      simp at this
    have hidx : index_of q (A ++ q :: Q) = A.length := by
      rw [index_of_append_of_not_mem _ _ _ hq]
      simp [index_of]
    have e : A ++ q :: Q = (A ++ [q]) ++ Q := by simp
    have ih2 := ih (A ++ [q]) (by rw [← e]; exact hnd)
    rw [← e] at ih2
    by_cases h : f q = true
    · simp [List.filter_cons, h, pos_filter, hidx, ih2]
    · simp [List.filter_cons, h, pos_filter, ih2]

theorem pos_filter_child (i k : Nat) (l : Label) (cs : List (Node Label))
    (h : pos_filter is_keyroot_path k ((postorder_forest 0 cs).map Prod.fst)
      = kr_from k (Node.mk l cs)) :
    pos_filter is_keyroot_path k ((postorder_paths (Node.mk l cs)).map (fun a => i :: a))
      = kr_from k (Node.mk l cs)
        ++ (if i = 0 then [] else [k + (Node.mk l cs).get_tree_size]) := by
  rw [pos_filter_map, postorder_paths_mk, pos_filter_append]
  have h1 : pos_filter (fun a => is_keyroot_path (i :: a)) k
      ((postorder_forest 0 cs).map Prod.fst)
      = pos_filter is_keyroot_path k ((postorder_forest 0 cs).map Prod.fst) := by
    apply pos_filter_congr
    intro a ha
    obtain ⟨j, b, hb, _⟩ := postorder_forest_paths_head cs 0 a ha
    exact is_keyroot_path_cons i a (by simp [hb])
  rw [h1, h]
  by_cases hi : i = 0
  · simp [hi, pos_filter, is_keyroot_path]
  · simp [hi, pos_filter, is_keyroot_path, Node.get_tree_size, postorder_forest_length]
    omega

mutual
theorem pos_filter_tree : ∀ (t : Node Label) (k : Nat),
    pos_filter is_keyroot_path k ((postorder_forest 0 t.get_children).map Prod.fst)
      = kr_from k t
  | .mk _ [], k => by simp [Node.get_children, postorder_forest, pos_filter, kr_from]
  | .mk _ (.mk l cs :: rest), k => by
    have h1 := pos_filter_child 0 k l cs (pos_filter_tree (Node.mk l cs) k)
    have h2 := pos_filter_forest rest 0 (k + (Node.mk l cs).get_tree_size)
    simp only [Node.get_children]
    rw [postorder_forest_paths_cons, pos_filter_append, h1]
    simp [kr_from, postorder_paths_length, h2]
theorem pos_filter_forest : ∀ (cs : List (Node Label)) (i k : Nat),
    pos_filter is_keyroot_path k ((postorder_forest (i + 1) cs).map Prod.fst)
      = kr_while k cs
  | [], _, _ => by simp [postorder_forest, pos_filter, kr_while]
  | .mk l cs :: rest, i, k => by
    have h1 := pos_filter_child (i + 1) k l cs (pos_filter_tree (Node.mk l cs) k)
    have h2 := pos_filter_forest rest (i + 1) (k + (Node.mk l cs).get_tree_size)
    rw [postorder_forest_paths_cons, pos_filter_append, h1]
    simp [kr_while, postorder_paths_length, h2]
end

/-- The keyroot vector in closed form is the keyroot filter of the postorder. -/
theorem kr_from_eq_spec (t : Node Label) :
    kr_from 0 t ++ [t.get_tree_size]
      = ((postorder_paths t).filter is_keyroot_path).map (postorder_id t) := by
  have h := pos_filter_eq_filter_map is_keyroot_path (postorder_paths t) []
    (by simpa using postorder_paths_nodup t)
  simp only [List.nil_append, List.length_nil] at h
  obtain ⟨l, cs⟩ := t
  have h2 := pos_filter_tree (Node.mk l cs) 0
  simp only [Node.get_children] at h2
  unfold postorder_id
  rw [h, postorder_paths_mk, pos_filter_append, h2]
  simp [pos_filter, is_keyroot_path, Node.get_tree_size, postorder_forest_length]

/-! ## The keyroot vector does not depend on the contents of `lld` -/

theorem vector_at_some (L : List Int) (i : Int) (h0 : 0 ≤ i) (h1 : i < L.length) :
    ∃ x, vector_at L i = some x := by
  unfold vector_at
  rw [if_neg (by omega)]
  have : i.toNat < L.length := by omega
  exact ⟨L[i.toNat], List.getElem?_eq_getElem this⟩

mutual
theorem index_nodes_recursion_kr : ∀ (t : Node Label) (L K : List Int) (sp pre : Int) (k : Nat),
    k ≤ L.length → sp = (k : Int) + 1 →
    ∃ L', L'.length = L.length + t.get_tree_size ∧
      index_nodes_recursion t ⟨L, K, sp, pre⟩
        = some ⟨L', K ++ to_ints (kr_from k t),
                sp + (t.get_tree_size : Nat), pre + (t.get_tree_size : Nat)⟩
  | .mk l [], L, K, sp, pre, k, hL, hsp => by
    subst hsp
    refine ⟨L ++ [(k : Int) + 1], ?_, ?_⟩
    · simp [Node.get_tree_size, forest_size]
    · simp [index_nodes_recursion, index_nodes_push_lld, Node.is_leaf, Node.get_children,
        kr_from, Node.get_tree_size, forest_size, to_ints]
  | .mk l (c :: rest), L, K, sp, pre, k, hL, hsp => by
    subst hsp
    obtain ⟨L1, hL1, h1⟩ := index_nodes_recursion_kr c L K ((k : Int) + 1) (pre + 1) k hL rfl
    obtain ⟨L2, hL2, h2⟩ := index_nodes_while_kr rest L1
      (K ++ to_ints (kr_from k c)) ((k : Int) + 1 + (c.get_tree_size : Nat))
      (pre + 1 + (c.get_tree_size : Nat)) (k + c.get_tree_size)
      (by omega) (by push_cast; ring)
    have hc : 1 ≤ c.get_tree_size := by cases c; simp [Node.get_tree_size]
    obtain ⟨x, hx⟩ := vector_at_some L2 ((k : Int) + 1 + (c.get_tree_size : Nat) - 1 - 1)
      (by omega) (by omega)
    refine ⟨L2 ++ [x], ?_, ?_⟩
    · simp [Node.get_tree_size, forest_size, hL2, hL1]; omega
    · simp only [index_nodes_recursion, h1, h2, index_nodes_push_lld, Node.is_leaf,
        Node.get_children, List.isEmpty_cons, hx]
      simp [kr_from, Node.get_tree_size, forest_size, to_ints]
      omega
theorem index_nodes_while_kr : ∀ (cs : List (Node Label)) (L K : List Int) (sp pre : Int)
    (k : Nat), k ≤ L.length → sp = (k : Int) + 1 →
    ∃ L', L'.length = L.length + forest_size cs ∧
      index_nodes_while cs ⟨L, K, sp, pre⟩
        = some ⟨L', K ++ to_ints (kr_while k cs),
                sp + (forest_size cs : Nat), pre + (forest_size cs : Nat)⟩
  | [], L, K, sp, pre, k, _, _ => by
    exact ⟨L, by simp [forest_size], by simp [index_nodes_while, kr_while, forest_size, to_ints]⟩
  | c :: rest, L, K, sp, pre, k, hL, hsp => by
    subst hsp
    obtain ⟨L1, hL1, h1⟩ := index_nodes_recursion_kr c L K ((k : Int) + 1) pre k hL rfl
    obtain ⟨L2, hL2, h2⟩ := index_nodes_while_kr rest L1
      (K ++ to_ints (kr_from k c) ++ [(k : Int) + 1 + (c.get_tree_size : Nat) - 1])
      ((k : Int) + 1 + (c.get_tree_size : Nat))
      (pre + (c.get_tree_size : Nat)) (k + c.get_tree_size)
      (by omega) (by push_cast; ring)
    refine ⟨L2, ?_, ?_⟩
    · simp [forest_size, hL2, hL1]; omega
    · simp only [index_nodes_while, h1, h2]
      simp [kr_while, forest_size, to_ints]
      omega
end

/-- The keyroot vector returned by `index_nodes`, whatever `lld` holds at the call. -/
theorem index_nodes_kr_eq (t : Node Label) (L K : List Int) :
    ∃ L', L'.length = L.length + t.get_tree_size ∧
      index_nodes t L K
        = some (L', K ++ to_ints (kr_from 0 t ++ [t.get_tree_size])) := by
  obtain ⟨L', hL', h⟩ := index_nodes_recursion_kr t L K 1 1 0 (Nat.zero_le _) (by simp)
  exact ⟨L', hL', by simp [index_nodes, h, to_ints]⟩

theorem pos_filter_gt (f : Path → Bool) (Q : List Path) :
    ∀ (k x : Nat), x ∈ pos_filter f k Q → k < x := by
  induction Q with
  | nil => intro k x h; simp [pos_filter] at h
  | cons a Q ih =>
    intro k x h
    by_cases hf : f a = true
    · simp only [pos_filter, hf, if_true, List.mem_cons] at h
      rcases h with h | h
      · omega
      · have := ih (k + 1) x h; omega
    · simp only [pos_filter, hf] at h
      have := ih (k + 1) x h; omega

theorem pos_filter_sorted (f : Path → Bool) (Q : List Path) :
    ∀ (k : Nat), (pos_filter f k Q).Pairwise (· < ·) := by
  induction Q with
  | nil => intro k; simp [pos_filter]
  | cons a Q ih =>
    intro k
    by_cases hf : f a = true
    · simp only [pos_filter, hf, if_true, List.pairwise_cons]
      exact ⟨fun x hx => pos_filter_gt f Q (k + 1) x hx, ih (k + 1)⟩
    · simp only [pos_filter, hf]
      exact ih (k + 1)

/-- The keyroot vector as a list of postorder ids. -/
theorem kr_eq_filter (t : Node Label) :
    to_ints (kr_from 0 t ++ [t.get_tree_size])
      = ((postorder_paths t).filter is_keyroot_path).map
          (fun a => ((postorder_id t a : Nat) : Int)) := by
  rw [kr_from_eq_spec, to_ints, List.map_map]
  rfl

theorem postorder_id_eq (t : Node Label) (p : Nat) (a : Path) (v : Node Label)
    (h : (postorder t)[p]? = some (a, v)) : postorder_id t a = p + 1 := by
  have h2 : (postorder_paths t)[p]? = some a := by simp [postorder_paths, h]
  simp [postorder_id, index_of_getElem? _ (postorder_paths_nodup t) p a h2]

/-! ## The indexer meets its specification -/

/-- C1: for every tree (it has `N ≥ 1` nodes), `index_nodes` called with an empty `lld` returns
with `lld` of exactly `N` entries, and for the node `v` at address `a` that is number `p + 1` in
postorder, entry `lld[p]` is the postorder id of the leftmost leaf descendant of `v`: the
node at address `a ++ leftmost_leaf v`, which is a leaf `w` of the tree and stands at that
position of the postorder. -/
theorem index_nodes_lld_leftmost_leaf (t : Node Label) (kr0 : List Int) :
    ∃ lld kr, index_nodes t [] kr0 = some (lld, kr) ∧
      1 ≤ t.get_tree_size ∧ lld.length = t.get_tree_size ∧
      ∀ (p : Nat) (a : Path) (v : Node Label), (postorder t)[p]? = some (a, v) →
        postorder_id t a = p + 1 ∧
        lld[p]? = some ((postorder_id t (a ++ leftmost_leaf v) : Nat) : Int) ∧
        ∃ w, w.is_leaf = true ∧
          (postorder t)[postorder_id t (a ++ leftmost_leaf v) - 1]?
            = some (a ++ leftmost_leaf v, w) := by
  refine ⟨_, _, index_nodes_eq t kr0, ?_, ?_, ?_⟩
  · cases t; simp [Node.get_tree_size]
  · simp [to_ints, lld_from_length]
  · intro p a v h
    refine ⟨postorder_id_eq t p a v h, ?_, ?_⟩
    · simp [to_ints, lld_from_eq_spec t 0, h, postorder_id]
    · have hm : (a, v) ∈ postorder t := List.getElem?_mem h
      obtain ⟨w, hw, hl⟩ := lld_entry_mem t a v hm
      obtain ⟨q, hq⟩ := List.mem_iff_getElem?.1 hw
      refine ⟨w, hl, ?_⟩
      rw [postorder_id_eq t q _ w hq]
      simpa using hq

/-- C2: `index_nodes` called with an empty `kr` returns with `kr` free of duplicates and
holding exactly the postorder ids of the nodes that are the root or a non-first child. -/
theorem index_nodes_kr_keyroots (t : Node Label) (lld0 : List Int) :
    ∃ lld kr, index_nodes t lld0 [] = some (lld, kr) ∧ kr.Nodup ∧
      ∀ x : Int, x ∈ kr ↔
        ∃ a v, (a, v) ∈ postorder t ∧ is_keyroot_path a = true ∧
          x = ((postorder_id t a : Nat) : Int) := by
  obtain ⟨L', _, h⟩ := index_nodes_kr_eq t lld0 []
  refine ⟨L', _, h, ?_, ?_⟩
  · rw [List.nil_append, kr_from_eq_spec]
    have hs := pos_filter_sorted is_keyroot_path (postorder_paths t) 0
    have e := pos_filter_eq_filter_map is_keyroot_path (postorder_paths t) []
      (by simpa using postorder_paths_nodup t)
    simp only [List.nil_append, List.length_nil] at e
    unfold postorder_id
    rw [e]
    refine List.Nodup.map ?_ (hs.imp (fun h => Nat.ne_of_lt h))
    intro x y hxy
    exact Int.ofNat.inj hxy
  · intro x
    rw [List.nil_append, kr_eq_filter]
    simp only [List.mem_map, List.mem_filter, postorder_paths]
    constructor
    · rintro ⟨a, ⟨⟨e, he, rfl⟩, hk⟩, rfl⟩
      exact ⟨e.1, e.2, he, hk, rfl⟩
    · rintro ⟨a, v, he, hk, rfl⟩
      exact ⟨a, ⟨⟨(a, v), he, rfl⟩, hk⟩, rfl⟩

/-- C3: the `kr` vector produced by `index_nodes` from an empty `kr` is strictly increasing
and its last element is `N`, the number of nodes and postorder id of the root. -/
theorem index_nodes_kr_increasing (t : Node Label) (lld0 : List Int) :
    ∃ lld kr, index_nodes t lld0 [] = some (lld, kr) ∧
      kr.Pairwise (· < ·) ∧ kr.getLast? = some ((t.get_tree_size : Nat) : Int) ∧
      postorder_id t [] = t.get_tree_size := by
  obtain ⟨L', _, h⟩ := index_nodes_kr_eq t lld0 []
  refine ⟨L', _, h, ?_, ?_, ?_⟩
  · rw [List.nil_append, kr_from_eq_spec]
    have hs := pos_filter_sorted is_keyroot_path (postorder_paths t) 0
    have e := pos_filter_eq_filter_map is_keyroot_path (postorder_paths t) []
      (by simpa using postorder_paths_nodup t)
    simp only [List.nil_append, List.length_nil] at e
    unfold postorder_id
    rw [e, to_ints, List.pairwise_map]
    exact hs.imp (fun h => by simpa using h)
  · simp [to_ints]
  · obtain ⟨l, cs⟩ := t
    have hp : (postorder (Node.mk l cs))[forest_size cs]? = some ([], Node.mk l cs) := by
      rw [postorder, List.getElem?_append_right (by simp [postorder_forest_length])]
      simp [postorder_forest_length]
    simpa [Node.get_tree_size] using postorder_id_eq _ _ _ _ hp

/-! ## Keyroots and shared lld values -/

theorem mem_indexed (L : List Nat) : ∀ (k v x : Nat),
    (v, x) ∈ indexed k L ↔ ∃ p, v = k + p + 1 ∧ L[p]? = some x := by
  induction L with
  | nil => intro k v x; simp [indexed]
  | cons y L ih =>
    intro k v x
    simp only [indexed, List.mem_cons, Prod.mk.injEq, ih]
    constructor
    · rintro (⟨rfl, rfl⟩ | ⟨p, rfl, hp⟩)
      · exact ⟨0, rfl, by simp⟩
      · exact ⟨p + 1, by omega, by simpa using hp⟩
    · rintro ⟨p, rfl, hp⟩
      cases p with
      | zero => left; simpa [eq_comm] using hp
      | succ p => right; exact ⟨p, by omega, by simpa using hp⟩

theorem indexed_append (A B : List Nat) : ∀ (k : Nat),
    indexed k (A ++ B) = indexed k A ++ indexed (k + A.length) B := by
  induction A with
  | nil => intro k; simp [indexed]
  | cons a A ih =>
    intro k
    have e : k + 1 + A.length = k + (A.length + 1) := by omega
    simp [indexed, ih, e]

theorem indexed_range (L : List Nat) (k v x : Nat) (h : (v, x) ∈ indexed k L) :
    k < v ∧ v ≤ k + L.length := by
  obtain ⟨p, rfl, hp⟩ := (mem_indexed L k v x).1 h
  have := (List.getElem?_eq_some.1 hp).1
  omega

theorem indexed_functional (L : List Nat) (k v x y : Nat) (h1 : (v, x) ∈ indexed k L)
    (h2 : (v, y) ∈ indexed k L) : x = y := by
  obtain ⟨p, hv, hp⟩ := (mem_indexed L k v x).1 h1
  obtain ⟨q, hw, hq⟩ := (mem_indexed L k v y).1 h2
  have : p = q := by omega
  subst this
  rw [hp] at hq
  exact Option.some.inj hq

theorem lld_bounded_append (k : Nat) (L1 L2 : List Nat) (h1 : lld_bounded k L1)
    (h2 : lld_bounded (k + L1.length) L2) : lld_bounded k (L1 ++ L2) := by
  intro v x hv
  rw [indexed_append, List.mem_append] at hv
  rcases hv with hv | hv
  · exact h1 v x hv
  · have := h2 v x hv
    omega

theorem kr_char_append (k : Nat) (L1 L2 K1 K2 : List Nat)
    (hb1 : lld_bounded k L1) (hb2 : lld_bounded (k + L1.length) L2)
    (hc1 : kr_char k L1 K1) (hc2 : kr_char (k + L1.length) L2 K2)
    (hK1 : ∀ x ∈ K1, x ≤ k + L1.length) (hK2 : ∀ x ∈ K2, k + L1.length < x) :
    kr_char k (L1 ++ L2) (K1 ++ K2) := by
  intro v x hv
  rw [indexed_append, List.mem_append] at hv
  rcases hv with hv | hv
  · have hr := indexed_range L1 k v x hv
    have hb := hb1 v x hv
    have hnK2 : v ∉ K2 := fun h => by have := hK2 v h; omega
    rw [List.mem_append, or_iff_left hnK2, hc1 v x hv]
    constructor
    · intro h w y hw hvw
      rw [indexed_append, List.mem_append] at hw
      rcases hw with hw | hw
      · exact h w y hw hvw
      · have := hb2 w y hw
        omega
    · intro h w y hw hvw
      exact h w y (by rw [indexed_append]; exact List.mem_append_left _ hw) hvw
  · have hr := indexed_range L2 (k + L1.length) v x hv
    have hnK1 : v ∉ K1 := fun h => by have := hK1 v h; omega
    rw [List.mem_append, or_iff_right hnK1, hc2 v x hv]
    constructor
    · intro h w y hw hvw
      rw [indexed_append, List.mem_append] at hw
      rcases hw with hw | hw
      · have := indexed_range L1 k w y hw
        omega
      · exact h w y hw hvw
    · intro h w y hw hvw
      exact h w y (by rw [indexed_append]; exact List.mem_append_right _ hw) hvw

theorem kr_char_close (k sc : Nat) (M Kc KW : List Nat)
    (hc : kr_char k M (Kc ++ (k + sc) :: KW))
    (hroot : (k + sc, k + 1) ∈ indexed k M)
    (hfirst : ∀ v x, (v, x) ∈ indexed k M → x = k + 1 → v ≤ k + sc)
    (hKc : ∀ x ∈ Kc, x < k + sc) (hKW : ∀ x ∈ KW, k + sc < x) :
    kr_char k (M ++ [k + 1]) (Kc ++ KW ++ [k + M.length + 1]) := by
  intro v x hv
  rw [indexed_append, List.mem_append] at hv
  rcases hv with hv | hv
  · have hr := indexed_range M k v x hv
    have hold := hc v x hv
    have hlast : v ≠ k + M.length + 1 := by omega
    simp only [List.mem_append, List.mem_singleton, hlast, or_false]
    simp only [List.mem_append, List.mem_cons] at hold
    constructor
    · intro h w y hw hvw
      have hne : v ≠ k + sc := by
        rcases h with h | h
        · have := hKc v h; omega
        · have := hKW v h; omega
      have hR := hold.1 (by tauto)
      rw [indexed_append, List.mem_append] at hw
      rcases hw with hw | hw
      · exact hR w y hw hvw
      · simp only [indexed, List.mem_singleton, Prod.mk.injEq] at hw
        obtain ⟨_, rfl⟩ := hw
        intro hx
        have h1 := hfirst v x hv hx.symm
        exact hR (k + sc) (k + 1) hroot (by omega) hx
    · intro h
      have hR : ∀ w y, (w, y) ∈ indexed k M → v < w → y ≠ x := fun w y hw hvw =>
        h w y (by rw [indexed_append]; exact List.mem_append_left _ hw) hvw
      have hx : k + 1 ≠ x := h (k + M.length + 1) (k + 1)
        (by rw [indexed_append]; exact List.mem_append_right _ (by simp [indexed])) (by omega)
      rcases hold.2 hR with h1 | h1 | h1
      · exact Or.inl h1
      · subst h1
        exact absurd (indexed_functional M k _ _ _ hroot hv) hx
      · exact Or.inr h1
  · simp only [indexed, List.mem_singleton, Prod.mk.injEq] at hv
    obtain ⟨rfl, rfl⟩ := hv
    constructor
    · intro _ w y hw hvw
      have := indexed_range _ k w y hw
      simp at this
      omega
    · intro _
      simp

theorem get_tree_size_pos (t : Node Label) : 1 ≤ t.get_tree_size := by
  cases t; simp [Node.get_tree_size]

theorem lld_from_root_mem (k : Nat) (c : Node Label) (R : List Nat) :
    (k + c.get_tree_size, k + 1) ∈ indexed k (lld_from k c ++ R) := by
  obtain ⟨l, cs⟩ := c
  rw [mem_indexed]
  refine ⟨forest_size cs, by simp [Node.get_tree_size]; omega, ?_⟩
  rw [lld_from, List.append_assoc,
    List.getElem?_append_right (by simp [lld_forest_length])]
  simp [lld_forest_length]

mutual
theorem tree_inv : ∀ (t : Node Label) (k : Nat),
    lld_bounded k (lld_from k t) ∧
    kr_char k (lld_from k t) (kr_from k t ++ [k + t.get_tree_size]) ∧
    ∀ x ∈ kr_from k t, k < x ∧ x < k + t.get_tree_size
  | .mk l [], k => by
    refine ⟨?_, ?_, ?_⟩
    · intro v x hv
      simp [lld_from, lld_forest, indexed] at hv
      omega
    · intro v x hv
      simp [lld_from, lld_forest, indexed] at hv
      obtain ⟨rfl, rfl⟩ := hv
      simp [lld_from, lld_forest, indexed, kr_from, Node.get_tree_size, forest_size]
    · simp [kr_from]
  | .mk l (c :: rest), k => by
    obtain ⟨hb, hc, hK⟩ := forest_inv (c :: rest) k
    obtain ⟨hbc, _, hKc⟩ := tree_inv c k
    obtain ⟨hbr, _, hKr⟩ := forest_inv rest (k + c.get_tree_size)
    have hsc := get_tree_size_pos c
    have hlen : (lld_forest k (c :: rest)).length = c.get_tree_size + forest_size rest := by
      simp [lld_forest_length, forest_size]
    refine ⟨?_, ?_, ?_⟩
    · rw [lld_from]
      intro v x hv
      rw [indexed_append, List.mem_append] at hv
      rcases hv with hv | hv
      · exact hb v x hv
      · simp only [indexed, List.mem_singleton, Prod.mk.injEq] at hv
        omega
    · have h := kr_char_close k c.get_tree_size (lld_forest k (c :: rest)) (kr_from k c)
        (kr_while (k + c.get_tree_size) rest) (by simpa [kr_while] using hc)
        (by rw [lld_forest]; exact lld_from_root_mem k c _)
        (by
          intro v x hv hx
          rw [lld_forest, indexed_append, List.mem_append] at hv
          rcases hv with hv | hv
          · have := indexed_range _ k v x hv
            rw [lld_from_length] at this
            exact this.2
          · rw [lld_from_length] at hv
            have := hbr v x hv
            omega)
        (fun x hx => (hKc x hx).2) (fun x hx => (hKr x hx).1)
      rw [hlen] at h
      have e : k + (c.get_tree_size + forest_size rest) + 1
          = k + (Node.mk l (c :: rest)).get_tree_size := by
        simp [Node.get_tree_size, forest_size]; omega
      rw [e] at h
      simpa [lld_from, kr_from] using h
    · intro x hx
      simp only [kr_from, List.mem_append] at hx
      simp only [Node.get_tree_size, forest_size]
      rcases hx with hx | hx
      · have := hKc x hx; omega
      · have := hKr x hx; omega
theorem forest_inv : ∀ (cs : List (Node Label)) (k : Nat),
    lld_bounded k (lld_forest k cs) ∧
    kr_char k (lld_forest k cs) (kr_while k cs) ∧
    ∀ x ∈ kr_while k cs, k < x ∧ x ≤ k + forest_size cs
  | [], k => by
    refine ⟨?_, ?_, ?_⟩
    · intro v x hv; simp [lld_forest, indexed] at hv
    · intro v x hv; simp [lld_forest, indexed] at hv
    · simp [kr_while]
  | c :: rest, k => by
    obtain ⟨hbc, hcc, hKc⟩ := tree_inv c k
    obtain ⟨hbr, hcr, hKr⟩ := forest_inv rest (k + c.get_tree_size)
    have hsc := get_tree_size_pos c
    have hl := lld_from_length c k
    refine ⟨?_, ?_, ?_⟩
    · rw [lld_forest]
      exact lld_bounded_append k _ _ hbc (by rw [hl]; exact hbr)
    · have h := kr_char_append k (lld_from k c) (lld_forest (k + c.get_tree_size) rest)
        (kr_from k c ++ [k + c.get_tree_size]) (kr_while (k + c.get_tree_size) rest)
        hbc (by rw [hl]; exact hbr) hcc (by rw [hl]; exact hcr)
        (by
          intro x hx
          rw [hl]
          simp only [List.mem_append, List.mem_singleton] at hx
          rcases hx with hx | hx
          · have := hKc x hx; omega
          · omega)
        (by intro x hx; rw [hl]; exact (hKr x hx).1)
      simpa [lld_forest, kr_while] using h
    · intro x hx
      simp only [kr_while, List.mem_append, List.mem_cons] at hx
      simp only [forest_size]
      rcases hx with hx | hx | hx
      · have := hKc x hx; omega
      · omega
      · have := hKr x hx; omega
end

theorem to_ints_getElem? (L : List Nat) (p : Nat) :
    (to_ints L)[p]? = (L[p]?).map Int.ofNat := by
  simp [to_ints]

theorem to_ints_getElem?_eq_iff (L : List Nat) (p q : Nat) :
    (to_ints L)[p]? = (to_ints L)[q]? ↔ L[p]? = L[q]? := by
  rw [to_ints_getElem?, to_ints_getElem?]
  constructor
  · intro h
    exact Option.map_injective (fun a b hab => Int.ofNat.inj hab) h
  · intro h; rw [h]

theorem mem_to_ints (K : List Nat) (v : Nat) : ((v : Nat) : Int) ∈ to_ints K ↔ v ∈ K := by
  simp [to_ints]

theorem kr_char_positions (L K : List Nat) (h : kr_char 0 L K) (v : Nat) (h1 : 1 ≤ v)
    (h2 : v ≤ L.length) :
    v ∈ K ↔ ¬ ∃ w : Nat, v < w ∧ w ≤ L.length ∧ L[w - 1]? = L[v - 1]? := by
  have hv : v - 1 < L.length := by omega
  have hmem : (v, L[v - 1]) ∈ indexed 0 L :=
    (mem_indexed L 0 v _).2 ⟨v - 1, by omega, List.getElem?_eq_getElem hv⟩
  rw [h v _ hmem]
  constructor
  · rintro hR ⟨w, hvw, hw, he⟩
    have hw' : w - 1 < L.length := by omega
    have hmw : (w, L[w - 1]) ∈ indexed 0 L :=
      (mem_indexed L 0 w _).2 ⟨w - 1, by omega, List.getElem?_eq_getElem hw'⟩
    apply hR w _ hmw hvw
    rw [List.getElem?_eq_getElem hw', List.getElem?_eq_getElem hv] at he
    exact Option.some.inj he
  · intro hN w y hw hvw hy
    obtain ⟨q, hq, hq2⟩ := (mem_indexed L 0 w y).1 hw
    have hql := (List.getElem?_eq_some.1 hq2).1
    apply hN
    refine ⟨w, hvw, by omega, ?_⟩
    have e : w - 1 = q := by omega
    rw [e, hq2, hy, List.getElem?_eq_getElem hv]

/-- C4: in the index of a tree, a postorder id `v` is listed in `kr` exactly when no node
`w > v` has `lld[w] = lld[v]`; in particular two different keyroots never share an lld. -/
theorem index_nodes_keyroot_iff (t : Node Label) :
    ∃ lld kr, index_nodes t [] [] = some (lld, kr) ∧
      (∀ v : Nat, 1 ≤ v → v ≤ t.get_tree_size →
        (((v : Nat) : Int) ∈ kr ↔
          ¬ ∃ w : Nat, v < w ∧ w ≤ t.get_tree_size ∧ lld[w - 1]? = lld[v - 1]?)) ∧
      (∀ v w : Nat, 1 ≤ v → v ≤ t.get_tree_size → 1 ≤ w → w ≤ t.get_tree_size →
        ((v : Nat) : Int) ∈ kr → ((w : Nat) : Int) ∈ kr →
        lld[v - 1]? = lld[w - 1]? → v = w) := by
  have hmain : ∀ v : Nat, 1 ≤ v → v ≤ t.get_tree_size →
      (((v : Nat) : Int) ∈ to_ints (kr_from 0 t ++ [t.get_tree_size]) ↔
        ¬ ∃ w : Nat, v < w ∧ w ≤ t.get_tree_size ∧
          (to_ints (lld_from 0 t))[w - 1]? = (to_ints (lld_from 0 t))[v - 1]?) := by
    intro v h1 h2
    have hc := (tree_inv t 0).2.1
    rw [Nat.zero_add] at hc
    have := kr_char_positions _ _ hc v h1 (by rw [lld_from_length]; exact h2)
    rw [lld_from_length] at this
    rw [mem_to_ints, this]
    simp only [to_ints_getElem?_eq_iff]
  have hkr : ([] : List Int) ++ to_ints (kr_from 0 t) ++ [((t.get_tree_size : Nat) : Int)]
      = to_ints (kr_from 0 t ++ [t.get_tree_size]) := by simp [to_ints]
  have hidx := index_nodes_eq t []
  rw [hkr] at hidx
  refine ⟨_, _, hidx, hmain, ?_⟩
  · intro v w hv1 hv2 hw1 hw2 hvk hwk he
    by_contra hne
    rcases Nat.lt_or_gt_of_ne hne with hlt | hlt
    · exact (hmain v hv1 hv2).1 hvk ⟨w, hlt, hw2, he.symm⟩
    · exact (hmain w hw1 hw2).1 hwk ⟨v, hlt, hv2, he⟩

/-- C5: in the index of a tree, every entry satisfies `1 ≤ lld[v] ≤ v`, and `lld[v] = v`
when the node with postorder id `v` is a leaf. -/
theorem index_nodes_lld_bounds (t : Node Label) (kr0 : List Int) :
    ∃ lld kr, index_nodes t [] kr0 = some (lld, kr) ∧
      (∀ v : Nat, 1 ≤ v → v ≤ t.get_tree_size →
        ∃ x : Int, lld[v - 1]? = some x ∧ 1 ≤ x ∧ x ≤ v) ∧
      (∀ (v : Nat) (a : Path) (u : Node Label), 1 ≤ v →
        (postorder t)[v - 1]? = some (a, u) → u.is_leaf = true →
        lld[v - 1]? = some ((v : Nat) : Int)) := by
  refine ⟨_, _, index_nodes_eq t kr0, ?_, ?_⟩
  · intro v h1 h2
    have hv : v - 1 < (lld_from 0 t).length := by rw [lld_from_length]; omega
    have hmem : (v, (lld_from 0 t)[v - 1]) ∈ indexed 0 (lld_from 0 t) :=
      (mem_indexed _ 0 v _).2 ⟨v - 1, by omega, List.getElem?_eq_getElem hv⟩
    have hb := (tree_inv t 0).1 v _ hmem
    refine ⟨(((lld_from 0 t)[v - 1] : Nat) : Int), ?_, ?_, ?_⟩
    · rw [to_ints_getElem?, List.getElem?_eq_getElem hv]; rfl
    · omega
    · omega
  · intro v a u h1 hp hleaf
    obtain ⟨l, cs⟩ := u
    have hcs : cs = [] := by simpa [Node.is_leaf, Node.get_children] using hleaf
    subst hcs
    have hid := postorder_id_eq t (v - 1) a _ hp
    have e : v - 1 + 1 = v := by omega
    unfold postorder_id at hid
    simp [to_ints, lld_from_eq_spec t 0, hp, leftmost_leaf]
    omega

/-! ## The value returned by `zhang_shasha_ted` -/

/-- On a newly constructed object `zhang_shasha_ted` returns, and the value is `5.0` for
every pair of trees. -/
theorem zhang_shasha_ted_init {CostModel : Type} (t1 t2 : Node Label) (c : CostModel) :
    ∃ r, zhang_shasha_ted Algorithm.init t1 t2 c = some r ∧ r.result = 5 := by
  simp [zhang_shasha_ted, Algorithm.init, index_nodes_eq]

/-- C6: on the single-node trees `{a}` and `{b}`, which one relabelling transforms into each
other, `zhang_shasha_ted` returns `5.0`, and `5` is not their tree edit distance. -/
theorem zhang_shasha_ted_not_exact {CostModel : Type} (c : CostModel) :
    ∃ r, zhang_shasha_ted Algorithm.init (Node.mk "a" []) (Node.mk "b" []) c = some r ∧
      r.result = 5 ∧
      ¬ is_tree_edit_distance (Node.mk "a" []) (Node.mk "b" []) r.result := by
  obtain ⟨r, hr, h5⟩ := zhang_shasha_ted_init (Node.mk "a" []) (Node.mk "b" []) c
  refine ⟨r, hr, h5, ?_⟩
  rintro ⟨n, hn, _, hmin⟩
  have hs : EditScript 1 (Node.mk "a" []) (Node.mk "b" []) :=
    EditScript.step 0 _ _ _ (ForestEdit.relabel [] [] [] "a" "b") (EditScript.done _)
  have h1 := hmin 1 hs
  rw [h5] at hn
  have : n = 5 := by exact_mod_cast hn
  omega

/-- C7: for every tree `T` the call `zhang_shasha_ted(T, T, c)` on a newly constructed object
returns `5.0`, which is not `0`, although the empty edit script transforms `T` into itself. -/
theorem zhang_shasha_ted_self {CostModel : Type} (t : Node Label) (c : CostModel) :
    ∃ r, zhang_shasha_ted Algorithm.init t t c = some r ∧ r.result = 5 ∧ r.result ≠ 0 ∧
      is_tree_edit_distance t t 0 := by
  obtain ⟨r, hr, h5⟩ := zhang_shasha_ted_init t t c
  refine ⟨r, hr, h5, by rw [h5]; norm_num, ?_⟩
  exact ⟨0, by simp, EditScript.done t, fun m _ => Nat.zero_le m⟩

/-! ## Verification of the candidates -/

theorem add_wrapping_eq (cs : List Nat) : ∀ (sum : Nat), sum < 2 ^ 64 →
    add_wrapping sum cs = (sum + cs.sum) % 2 ^ 64 := by
  induction cs with
  | nil =>
    intro sum hsum
    have e : (sum + 0) % 2 ^ 64 = sum := Nat.mod_eq_of_lt hsum
    simp only [add_wrapping, List.sum_nil, e]
  | cons c cs ih =>
    intro sum _
    rw [add_wrapping, ih _ (Nat.mod_lt _ (by norm_num)), Nat.mod_add_mod, Nat.add_assoc,
      List.sum_cons]

theorem verify_candidates_loop_eq {D State : Type} (V : VerificationAlgorithm Label D State)
    (le : D → D → Bool) (trees : List (Node Label)) (threshold : D) :
    ∀ (cands : List (Nat × Nat)) (s : State) (jr : List (JoinResultElement D)) (sum : Nat),
      (∀ p ∈ cands, p.1 < trees.length ∧ p.2 < trees.length) →
      ∃ tr, verification_trace V trees threshold cands s = some tr ∧
        tr.map (fun e => (e.tree_id_1, e.tree_id_2)) = cands ∧
        verify_candidates_loop V le trees threshold cands s jr sum
          = some (jr ++ emitted le threshold tr,
                  add_wrapping sum (tr.map (fun e => e.subproblem_count))) := by
  intro cands
  induction cands with
  | nil =>
    intro s jr sum _
    refine ⟨[], rfl, rfl, ?_⟩
    simp only [verify_candidates_loop, emitted, List.filter_nil, List.map_nil,
      List.append_nil, add_wrapping]
  | cons p rest ih =>
    intro s jr sum hin
    have hp := hin p (by simp)
    have h1 : trees[p.1]? = some trees[p.1] := List.getElem?_eq_getElem hp.1
    have h2 : trees[p.2]? = some trees[p.2] := List.getElem?_eq_getElem hp.2
    have hrest : ∀ q ∈ rest, q.1 < trees.length ∧ q.2 < trees.length :=
      fun q hq => hin q (List.mem_cons_of_mem _ hq)
    obtain ⟨tr, htr, hids, hloop⟩ := ih (V.verify s trees[p.1] trees[p.2] threshold).2
      (if le (V.verify s trees[p.1] trees[p.2] threshold).1 threshold then
        jr ++ [⟨p.1, p.2, (V.verify s trees[p.1] trees[p.2] threshold).1⟩] else jr)
      ((sum + V.get_subproblem_count (V.verify s trees[p.1] trees[p.2] threshold).2) % 2 ^ 64)
      hrest
    refine ⟨⟨p.1, p.2, (V.verify s trees[p.1] trees[p.2] threshold).1,
      V.get_subproblem_count (V.verify s trees[p.1] trees[p.2] threshold).2⟩ :: tr, ?_, ?_, ?_⟩
    · simp only [verification_trace, h1, h2, htr]
    · simp [hids]
    · simp only [verify_candidates_loop, h1, h2, hloop, List.map_cons, add_wrapping]
      by_cases hle : le (V.verify s trees[p.1] trees[p.2] threshold).1 threshold = true
      · simp [emitted, List.filter_cons, hle]
      · simp [emitted, List.filter_cons, hle]

theorem emitted_within {D : Type} (le : D → D → Bool) (threshold : D)
    (tr : List (Verification D)) :
    ∀ e ∈ emitted le threshold tr, le e.ted_value threshold = true := by
  intro e he
  simp only [emitted, List.mem_map, List.mem_filter] at he
  obtain ⟨x, ⟨_, hx⟩, rfl⟩ := he
  exact hx

/-- C8: `verify_candidates` verifies the candidates in order, one verification per candidate,
and appends to `join_result` the element `(i, j, d)` of exactly those verifications whose
distance `d` is within the threshold; the entries already present stay in place and every
appended element has `ted_value <= τ`. -/
theorem verify_candidates_appends {D State : Type} (V : VerificationAlgorithm Label D State)
    (le : D → D → Bool) (self : LDHJoin) (trees : List (Node Label))
    (candidates : List (Nat × Nat)) (join_result : List (JoinResultElement D)) (threshold : D)
    (hin : ∀ p ∈ candidates, p.1 < trees.length ∧ p.2 < trees.length) :
    ∃ tr self',
      verification_trace V trees threshold candidates V.init = some tr ∧
      tr.map (fun e => (e.tree_id_1, e.tree_id_2)) = candidates ∧
      self.verify_candidates V le trees candidates join_result threshold
        = some (self', join_result ++ emitted le threshold tr) ∧
      emitted le threshold tr
        = (tr.filter (fun e => le e.ted_value threshold)).map
            (fun e => ⟨e.tree_id_1, e.tree_id_2, e.ted_value⟩) ∧
      ∀ e ∈ emitted le threshold tr, le e.ted_value threshold = true := by
  obtain ⟨tr, htr, hids, hloop⟩ := verify_candidates_loop_eq V le trees threshold candidates
    V.init join_result self.sum_subproblem_counter_ hin
  refine ⟨tr, ⟨self.il_size_, self.pre_candidates_,
    add_wrapping self.sum_subproblem_counter_ (tr.map (fun e => e.subproblem_count)),
    self.il_lookups_⟩,
    htr, hids, ?_, rfl, emitted_within le threshold tr⟩
  simp only [LDHJoin.verify_candidates, hloop]

/-- C10 (as amended): after `verify_candidates` on a newly constructed `LDHJoin`,
`get_subproblem_count()` is the sum, over all verifications (emitted or not), of the reported
subproblem counts, reduced modulo `2^64`. -/
theorem verify_candidates_subproblem_count {D State : Type}
    (V : VerificationAlgorithm Label D State) (le : D → D → Bool) (il_size_ : Nat)
    (trees : List (Node Label)) (candidates : List (Nat × Nat))
    (join_result : List (JoinResultElement D)) (threshold : D)
    (hin : ∀ p ∈ candidates, p.1 < trees.length ∧ p.2 < trees.length) :
    ∃ tr self' jr,
      verification_trace V trees threshold candidates V.init = some tr ∧
      tr.map (fun e => (e.tree_id_1, e.tree_id_2)) = candidates ∧
      (LDHJoin.init il_size_).verify_candidates V le trees candidates join_result threshold
        = some (self', jr) ∧
      self'.get_subproblem_count = (tr.map (fun e => e.subproblem_count)).sum % 2 ^ 64 := by
  obtain ⟨tr, htr, hids, hloop⟩ := verify_candidates_loop_eq V le trees threshold candidates
    V.init join_result 0 hin
  rw [add_wrapping_eq _ 0 (by norm_num), Nat.zero_add] at hloop
  refine ⟨tr, ⟨il_size_, 0, (tr.map (fun e => e.subproblem_count)).sum % 2 ^ 64, 0⟩,
    join_result ++ emitted le threshold tr, htr, hids, ?_, ?_⟩
  · simp only [LDHJoin.verify_candidates, LDHJoin.init, hloop]
  · simp only [LDHJoin.get_subproblem_count]

/-- C10 (as stated) fails: two verifications that report `2^63` subproblems each leave the
counter of a new `LDHJoin` at `0`, not at the sum `2^64`. -/
theorem verify_candidates_subproblem_count_wraps :
    ∃ tr self' jr,
      verification_trace size_verifier [Node.mk "a" [], Node.mk "b" []] 0 [(0, 1), (0, 1)] ()
        = some tr ∧
      (LDHJoin.init 0).verify_candidates size_verifier (fun a b => decide (a ≤ b))
          [Node.mk "a" [], Node.mk "b" []] [(0, 1), (0, 1)] [] 0 = some (self', jr) ∧
      self'.get_subproblem_count = 0 ∧
      (tr.map (fun e => e.subproblem_count)).sum = 2 ^ 64 ∧
      self'.get_subproblem_count ≠ (tr.map (fun e => e.subproblem_count)).sum := by
  refine ⟨_, _, _, rfl, rfl, ?_, ?_, ?_⟩ <;> decide

/-- Instance of C8: one candidate over the collection `{a}`, `{a{b}{c{d}{e}}}` with
threshold `4`; the pair is at distance `4` and is emitted. -/
theorem verify_candidates_appends_witness :
    (∀ p ∈ [((0 : Nat), (1 : Nat))],
        p.1 < [Node.mk "a" [], ex1].length ∧ p.2 < [Node.mk "a" [], ex1].length) ∧
    ∃ tr self',
      verification_trace size_verifier [Node.mk "a" [], ex1] 4 [(0, 1)] size_verifier.init
        = some tr ∧
      tr.map (fun e => (e.tree_id_1, e.tree_id_2)) = [(0, 1)] ∧
      (LDHJoin.init 0).verify_candidates size_verifier (fun a b => decide (a ≤ b))
          [Node.mk "a" [], ex1] [(0, 1)] [] 4
        = some (self', [] ++ emitted (fun a b => decide (a ≤ b)) 4 tr) ∧
      emitted (fun a b => decide (a ≤ b)) 4 tr
        = (tr.filter (fun e => decide (e.ted_value ≤ 4))).map
            (fun e => ⟨e.tree_id_1, e.tree_id_2, e.ted_value⟩) ∧
      ∀ e ∈ emitted (fun a b => decide (a ≤ b)) 4 tr, decide (e.ted_value ≤ 4) = true :=
  ⟨by decide,
   verify_candidates_appends size_verifier (fun a b => decide (a ≤ b)) (LDHJoin.init 0)
     [Node.mk "a" [], ex1] [(0, 1)] [] 4 (by decide)⟩

/-- Instance of the amended C10: two candidates over a collection of two trees. -/
theorem verify_candidates_subproblem_count_witness :
    (∀ p ∈ [((0 : Nat), (1 : Nat)), (0, 1)],
        p.1 < [Node.mk "a" [], ex1].length ∧ p.2 < [Node.mk "a" [], ex1].length) ∧
    ∃ tr self' jr,
      verification_trace size_verifier [Node.mk "a" [], ex1] 3 [(0, 1), (0, 1)]
          size_verifier.init = some tr ∧
      tr.map (fun e => (e.tree_id_1, e.tree_id_2)) = [(0, 1), (0, 1)] ∧
      (LDHJoin.init 7).verify_candidates size_verifier (fun a b => decide (a ≤ b))
          [Node.mk "a" [], ex1] [(0, 1), (0, 1)] [] 3 = some (self', jr) ∧
      self'.get_subproblem_count = (tr.map (fun e => e.subproblem_count)).sum % 2 ^ 64 :=
  ⟨by decide,
   verify_candidates_subproblem_count size_verifier (fun a b => decide (a ≤ b)) 7
     [Node.mk "a" [], ex1] [(0, 1), (0, 1)] [] 3 (by decide)⟩

/-! ## The join with complete candidates and an exact verifier -/

theorem mem_all_pairs (n : Nat) (p : Nat × Nat) :
    p ∈ all_pairs n ↔ p.1 < p.2 ∧ p.2 < n := by
  obtain ⟨i, j⟩ := p
  simp only [all_pairs, List.mem_filter, List.pair_mem_product, List.mem_range,
    decide_eq_true_eq]
  constructor
  · rintro ⟨⟨_, h2⟩, h3⟩; exact ⟨h3, h2⟩
  · rintro ⟨h1, h2⟩; exact ⟨⟨by omega, h2⟩, h1⟩

theorem all_pairs_nodup (n : Nat) : (all_pairs n).Nodup :=
  ((List.nodup_range n).product (List.nodup_range n)).filter _

theorem join_element_eq_some {D : Type} (ted : Node Label → Node Label → D)
    (le : D → D → Bool) (trees : List (Node Label)) (threshold : D) (p : Nat × Nat)
    (e : JoinResultElement D) :
    join_element ted le trees threshold p = some e ↔
      ∃ a b, trees[p.1]? = some a ∧ trees[p.2]? = some b ∧ le (ted a b) threshold = true ∧
        e = ⟨p.1, p.2, ted a b⟩ := by
  unfold join_element
  cases h1 : trees[p.1]? with
  | none => simp
  | some a =>
    cases h2 : trees[p.2]? with
    | none => simp
    | some b =>
      by_cases hle : le (ted a b) threshold = true
      · simp only [hle, if_true]
        constructor
        · intro h
          exact ⟨a, b, rfl, rfl, hle, (Option.some.inj h).symm⟩
        · rintro ⟨a', b', ha, hb, _, rfl⟩
          cases ha; cases hb; rfl
      · simp only [hle]
        constructor
        · intro h; simp at h
        · rintro ⟨a', b', ha, hb, hle', _⟩
          cases ha; cases hb
          exact absurd hle' hle

theorem join_element_injective {D : Type} (ted : Node Label → Node Label → D)
    (le : D → D → Bool) (trees : List (Node Label)) (threshold : D) :
    ∀ (p q : Nat × Nat) (e : JoinResultElement D),
      e ∈ join_element ted le trees threshold p → e ∈ join_element ted le trees threshold q →
      p = q := by
  intro p q e hp hq
  obtain ⟨_, _, _, _, _, rfl⟩ := (join_element_eq_some ted le trees threshold p e).1 hp
  obtain ⟨_, _, _, _, _, h⟩ := (join_element_eq_some ted le trees threshold q _).1 hq
  simp only [JoinResultElement.mk.injEq] at h
  exact Prod.ext h.1 h.2.1

theorem verify_candidates_loop_exact {D State : Type}
    (V : VerificationAlgorithm Label D State) (le : D → D → Bool)
    (ted : Node Label → Node Label → D) (trees : List (Node Label)) (threshold : D)
    (hexact : ∀ s a b, (V.verify s a b threshold).1 = ted a b) :
    ∀ (cands : List (Nat × Nat)) (s : State) (jr : List (JoinResultElement D)) (sum : Nat),
      (∀ p ∈ cands, p.1 < trees.length ∧ p.2 < trees.length) →
      ∃ sum', verify_candidates_loop V le trees threshold cands s jr sum
        = some (jr ++ cands.filterMap (join_element ted le trees threshold), sum') := by
  intro cands
  induction cands with
  | nil => intro s jr sum _; exact ⟨sum, by simp [verify_candidates_loop]⟩
  | cons p rest ih =>
    intro s jr sum hin
    have hp := hin p (by simp)
    have h1 : trees[p.1]? = some trees[p.1] := List.getElem?_eq_getElem hp.1
    have h2 : trees[p.2]? = some trees[p.2] := List.getElem?_eq_getElem hp.2
    have hrest : ∀ q ∈ rest, q.1 < trees.length ∧ q.2 < trees.length :=
      fun q hq => hin q (List.mem_cons_of_mem _ hq)
    obtain ⟨sum', hloop⟩ := ih (V.verify s trees[p.1] trees[p.2] threshold).2
      (if le (V.verify s trees[p.1] trees[p.2] threshold).1 threshold then
        jr ++ [⟨p.1, p.2, (V.verify s trees[p.1] trees[p.2] threshold).1⟩] else jr)
      ((sum + V.get_subproblem_count (V.verify s trees[p.1] trees[p.2] threshold).2) % 2 ^ 64)
      hrest
    refine ⟨sum', ?_⟩
    simp only [hexact] at hloop
    simp only [verify_candidates_loop, h1, h2, hexact]
    by_cases hle : le (ted trees[p.1] trees[p.2]) threshold = true
    · simp only [hle, if_true] at hloop ⊢
      rw [hloop]
      simp [List.filterMap_cons, join_element, h1, h2, hle]
    · simp only [hle] at hloop ⊢
      rw [hloop]
      simp [List.filterMap_cons, join_element, h1, h2, hle]

theorem filterMap_join_perm {D : Type} (ted : Node Label → Node Label → D)
    (le : D → D → Bool) (trees : List (Node Label)) (threshold : D)
    (cands : List (Nat × Nat)) (hnodup : cands.Nodup)
    (hlt : ∀ p ∈ cands, p.1 < p.2 ∧ p.2 < trees.length)
    (hall : ∀ (i j : Nat) (a b : Node Label), i < j → trees[i]? = some a → trees[j]? = some b →
      le (ted a b) threshold = true → (i, j) ∈ cands) :
    (cands.filterMap (join_element ted le trees threshold)).Perm
      (naive_join ted le trees threshold) := by
  have hinj := join_element_injective ted le trees threshold
  unfold naive_join
  refine (List.perm_ext_iff_of_nodup (hnodup.filterMap hinj)
    ((all_pairs_nodup trees.length).filterMap hinj)).2 ?_
  intro e
  simp only [List.mem_filterMap]
  constructor
  · rintro ⟨p, hp, he⟩
    exact ⟨p, (mem_all_pairs _ p).2 (hlt p hp), he⟩
  · rintro ⟨p, hp, he⟩
    refine ⟨p, ?_, he⟩
    obtain ⟨a, b, ha, hb, hle, _⟩ := (join_element_eq_some ted le trees threshold p e).1 he
    exact hall p.1 p.2 a b ((mem_all_pairs _ p).1 hp).1 ha hb hle

/-- C9: when the candidate list handed to `verify_candidates` is free of duplicates, holds
only pairs `i < j` of the collection and holds every such pair whose distance `ted` is within
the threshold, and the verification algorithm returns `ted`, then `execute_join` started with
an empty `join_result` returns each pair `i < j` with `ted(T_i, T_j) <= τ` exactly once, with
that distance, and nothing else; the result is a permutation of the naive all-pairs join and
has its size. -/
theorem execute_join_exact {H D State : Type} (C : Converter Label H)
    (I : CandidateIndex H D) (V : VerificationAlgorithm Label D State) (le : D → D → Bool)
    (ted : Node Label → Node Label → D) (self : LDHJoin) (trees : List (Node Label))
    (histogram_collection : H) (candidates : List (Nat × Nat)) (threshold : D)
    (hexact : ∀ s a b, (V.verify s a b threshold).1 = ted a b)
    (hnodup : (I.lookup (C.create_histogram trees histogram_collection).1 candidates
      (C.create_histogram trees histogram_collection).2 threshold).1.Nodup)
    (hlt : ∀ p ∈ (I.lookup (C.create_histogram trees histogram_collection).1 candidates
      (C.create_histogram trees histogram_collection).2 threshold).1,
      p.1 < p.2 ∧ p.2 < trees.length)
    (hall : ∀ (i j : Nat) (a b : Node Label), i < j → trees[i]? = some a → trees[j]? = some b →
      le (ted a b) threshold = true →
      (i, j) ∈ (I.lookup (C.create_histogram trees histogram_collection).1 candidates
        (C.create_histogram trees histogram_collection).2 threshold).1) :
    ∃ run, self.execute_join C I V le trees histogram_collection candidates [] threshold
        = some run ∧
      run.join_result.Nodup ∧
      (∀ (i j : Nat) (d : D), (⟨i, j, d⟩ : JoinResultElement D) ∈ run.join_result ↔
        i < j ∧ ∃ a b, trees[i]? = some a ∧ trees[j]? = some b ∧ d = ted a b ∧
          le d threshold = true) ∧
      run.join_result.Perm (naive_join ted le trees threshold) ∧
      run.join_result.length = (naive_join ted le trees threshold).length := by
  generalize hcands : (I.lookup (C.create_histogram trees histogram_collection).1 candidates
      (C.create_histogram trees histogram_collection).2 threshold).1 = cands at hnodup hlt hall
  have hin : ∀ p ∈ cands, p.1 < trees.length ∧ p.2 < trees.length := fun p hp => by
    have := hlt p hp; omega
  obtain ⟨sum', hloop⟩ := verify_candidates_loop_exact V le ted trees threshold hexact cands
    V.init [] self.sum_subproblem_counter_ hin
  have hperm := filterMap_join_perm ted le trees threshold cands hnodup hlt hall
  refine ⟨⟨⟨(C.create_histogram trees histogram_collection).2,
      (I.lookup (C.create_histogram trees histogram_collection).1 candidates
        (C.create_histogram trees histogram_collection).2 threshold).2.1, sum',
      (I.lookup (C.create_histogram trees histogram_collection).1 candidates
        (C.create_histogram trees histogram_collection).2 threshold).2.2⟩,
    (C.create_histogram trees histogram_collection).1, cands,
    cands.filterMap (join_element ted le trees threshold)⟩, ?_, ?_, ?_, hperm,
    hperm.length_eq⟩
  · simp only [LDHJoin.execute_join, LDHJoin.convert_trees_to_histograms,
      LDHJoin.retrieve_candidates, LDHJoin.verify_candidates, hcands, hloop, List.nil_append]
  · exact hnodup.filterMap (join_element_injective ted le trees threshold)
  · intro i j d
    simp only [List.mem_filterMap]
    constructor
    · rintro ⟨p, hp, he⟩
      obtain ⟨a, b, ha, hb, hle, h⟩ := (join_element_eq_some ted le trees threshold p _).1 he
      simp only [JoinResultElement.mk.injEq] at h
      obtain ⟨rfl, rfl, rfl⟩ := h
      exact ⟨(hlt p hp).1, a, b, ha, hb, rfl, hle⟩
    · rintro ⟨hij, a, b, ha, hb, rfl, hle⟩
      exact ⟨(i, j), hall i j a b hij ha hb hle,
        (join_element_eq_some ted le trees threshold (i, j) _).2 ⟨a, b, ha, hb, hle, rfl⟩⟩

/-- Instance of C9: three trees, threshold `0`, all three pairs as candidates and the size
difference as distance; the join returns the one pair of equal size. -/
theorem execute_join_exact_witness :
    ∃ run, (LDHJoin.init 0).execute_join unit_converter three_index size_verifier
        (fun a b => decide (a ≤ b)) three_trees () [] [] 0 = some run ∧
      run.join_result.Nodup ∧
      (∀ (i j : Nat) (d : Nat), (⟨i, j, d⟩ : JoinResultElement Nat) ∈ run.join_result ↔
        i < j ∧ ∃ a b, three_trees[i]? = some a ∧ three_trees[j]? = some b ∧
          d = size_distance a b ∧ decide (d ≤ 0) = true) ∧
      run.join_result.Perm
        (naive_join size_distance (fun a b => decide (a ≤ b)) three_trees 0) ∧
      run.join_result.length
        = (naive_join size_distance (fun a b => decide (a ≤ b)) three_trees 0).length :=
  execute_join_exact unit_converter three_index size_verifier (fun a b => decide (a ≤ b))
    size_distance (LDHJoin.init 0) three_trees () [] 0
    (fun _ _ _ => rfl) (by decide) (by decide)
    (by
      intro i j a b hij _ hb _
      have hj : j < 3 := (List.getElem?_eq_some.1 hb).1
      have hcases : (i = 0 ∧ j = 1) ∨ (i = 0 ∧ j = 2) ∨ (i = 1 ∧ j = 2) := by omega
      rcases hcases with ⟨rfl, rfl⟩ | ⟨rfl, rfl⟩ | ⟨rfl, rfl⟩ <;> decide)

/-! ## The counters after the recursion -/

/-- C19 (as amended): started with both counters at `1` on the root of a tree with `N` nodes,
`index_nodes_recursion` returns with `start_postorder` and `start_preorder` both at `N + 1`,
the size of the tree plus one, whatever `lld` and `kr` held at the call. -/
theorem index_nodes_recursion_counters (t : Node Label) (lld kr : List Int) :
    ∃ s, index_nodes_recursion t ⟨lld, kr, 1, 1⟩ = some s ∧
      s.start_postorder = ((t.get_tree_size : Nat) : Int) + 1 ∧
      s.start_preorder = ((t.get_tree_size : Nat) : Int) + 1 := by
  obtain ⟨L', _, h⟩ := index_nodes_recursion_kr t lld kr 1 1 0 (Nat.zero_le _) (by simp)
  exact ⟨_, h, by simp [add_comm], by simp [add_comm]⟩

/-- C19 (as stated) fails: on the single-node tree `{a}` both counters end at `2`, not at
`N - 1 = 0`. -/
theorem index_nodes_recursion_counters_single :
    ∃ s, index_nodes_recursion (Node.mk "a" []) ⟨[], [], 1, 1⟩ = some s ∧
      s.start_postorder = 2 ∧ s.start_preorder = 2 ∧
      s.start_postorder ≠ (((Node.mk "a" []).get_tree_size : Nat) : Int) - 1 ∧
      s.start_preorder ≠ (((Node.mk "a" []).get_tree_size : Nat) : Int) - 1 := by
  refine ⟨_, rfl, ?_, ?_, ?_, ?_⟩ <;> decide

/-! ## Calling `zhang_shasha_ted` again on the same object -/

/-- The run of `zhang_shasha_ted` in terms of the two `index_nodes` calls. -/
theorem zhang_shasha_ted_eq {CostModel : Type} (alg : Algorithm) (t1 t2 : Node Label)
    (c : CostModel) (lld1 kr1 lld2 kr2 : List Int)
    (h1 : index_nodes t1 alg.lld1_ alg.kr1_ = some (lld1, kr1))
    (h2 : index_nodes t2 alg.lld2_ alg.kr2_ = some (lld2, kr2)) :
    zhang_shasha_ted alg t1 t2 c = some
      { result := 5
        alg := ⟨lld1, kr1, lld2, kr2⟩
        td_rows := t1.get_tree_size
        td_columns := t2.get_tree_size
        td_writes := kr1.flatMap (fun k1 => kr2.map (fun k2 => (k1, k2))) } := by
  simp only [zhang_shasha_ted, h1, h2]

/-- C20: a second call of `zhang_shasha_ted` on the same object appends to the member
vectors: `kr1_` is the keyroot vector of the first call followed by the keyroots of the new
tree, and `lld1_` has the entries of both calls, so neither is the index of the new tree. -/
theorem zhang_shasha_ted_keeps_old_index {CostModel : Type} (t1 t2 u1 u2 : Node Label)
    (c : CostModel) :
    ∃ r1 r2 lld kr,
      zhang_shasha_ted Algorithm.init t1 t2 c = some r1 ∧
      zhang_shasha_ted r1.alg u1 u2 c = some r2 ∧
      index_nodes u1 [] [] = some (lld, kr) ∧
      r2.alg.kr1_ = r1.alg.kr1_ ++ kr ∧ r2.alg.kr1_ ≠ kr ∧
      r2.alg.lld1_.length = r1.alg.lld1_.length + lld.length ∧ r2.alg.lld1_ ≠ lld := by
  obtain ⟨A1, hA1, ht1⟩ := index_nodes_kr_eq t1 [] []
  obtain ⟨A2, _, ht2⟩ := index_nodes_kr_eq t2 [] []
  have hr1 := zhang_shasha_ted_eq Algorithm.init t1 t2 c _ _ _ _ ht1 ht2
  obtain ⟨L1, hL1, hu1⟩ := index_nodes_kr_eq u1 A1
    ([] ++ to_ints (kr_from 0 t1 ++ [t1.get_tree_size]))
  obtain ⟨L2, _, hu2⟩ := index_nodes_kr_eq u2 A2
    ([] ++ to_ints (kr_from 0 t2 ++ [t2.get_tree_size]))
  have hr2 := zhang_shasha_ted_eq
    ⟨A1, [] ++ to_ints (kr_from 0 t1 ++ [t1.get_tree_size]),
     A2, [] ++ to_ints (kr_from 0 t2 ++ [t2.get_tree_size])⟩ u1 u2 c _ _ _ _ hu1 hu2
  obtain ⟨L0, hL0, hu0⟩ := index_nodes_kr_eq u1 [] []
  have hpos := get_tree_size_pos t1
  refine ⟨_, _, L0, _, hr1, hr2, hu0, ?_, ?_, ?_, ?_⟩
  · simp
  · intro h
    have := congrArg List.length h
    simp [to_ints] at this
    omega
  · simp only [hL1, hL0, hA1, List.length_nil]
    omega
  · intro h
    have := congrArg List.length h
    simp only [hL1, hL0, hA1, List.length_nil] at this
    omega

/-- An instance of the appended vectors: after `zhang_shasha_ted({a{b{c}}}, {a})` the call
`zhang_shasha_ted({x{y}{z{w}}}, {a})` leaves `lld1_ = [1, 1, 1, 1, 2, 1, 1]`; the entry pushed
for `z` is read from the entries of the first tree and is `1`, where the index of
`{x{y}{z{w}}}` is `lld = [1, 2, 2, 1]`, `kr = [3, 4]`. -/
theorem zhang_shasha_ted_stale_read :
    (zhang_shasha_ted Algorithm.init
        (Node.mk "a" [Node.mk "b" [Node.mk "c" []]]) (Node.mk "a" []) ()).map (fun r => r.alg)
      = some ⟨[1, 1, 1], [3], [1], [1]⟩ ∧
    (zhang_shasha_ted ⟨[1, 1, 1], [3], [1], [1]⟩
        (Node.mk "x" [Node.mk "y" [], Node.mk "z" [Node.mk "w" []]]) (Node.mk "a" [])
        ()).map (fun r => r.alg)
      = some ⟨[1, 1, 1, 1, 2, 1, 1], [3, 3, 4], [1, 1], [1, 1]⟩ ∧
    index_nodes (Node.mk "x" [Node.mk "y" [], Node.mk "z" [Node.mk "w" []]]) [] []
      = some ([1, 2, 2, 1], [3, 4]) := by
  refine ⟨?_, ?_, ?_⟩ <;> decide

/-! ## The subproblem counter on overflow and on a second run -/

theorem emitted_length_le {D : Type} (le : D → D → Bool) (threshold : D)
    (tr : List (Verification D)) : (emitted le threshold tr).length ≤ tr.length := by
  simp only [emitted, List.length_map]
  exact List.length_filter_le _ _

/-- C13 (as amended): `verify_candidates` adds each reported subproblem count to the 64-bit
counter with wrap-around (modulo `2^64`), it does not saturate; the elements appended to
`join_result` are those of the verifications within the threshold whatever the counter
holds. -/
theorem verify_candidates_counter_wraps {D State : Type}
    (V : VerificationAlgorithm Label D State) (le : D → D → Bool) (self : LDHJoin)
    (trees : List (Node Label)) (candidates : List (Nat × Nat))
    (join_result : List (JoinResultElement D)) (threshold : D)
    (hin : ∀ p ∈ candidates, p.1 < trees.length ∧ p.2 < trees.length) :
    ∃ tr self',
      verification_trace V trees threshold candidates V.init = some tr ∧
      self.verify_candidates V le trees candidates join_result threshold
        = some (self', join_result ++ emitted le threshold tr) ∧
      self'.get_subproblem_count
        = add_wrapping self.sum_subproblem_counter_ (tr.map (fun e => e.subproblem_count)) ∧
      (self.sum_subproblem_counter_ < 2 ^ 64 →
        self'.get_subproblem_count
          = (self.sum_subproblem_counter_ + (tr.map (fun e => e.subproblem_count)).sum)
              % 2 ^ 64) := by
  obtain ⟨tr, htr, _, hloop⟩ := verify_candidates_loop_eq V le trees threshold candidates
    V.init join_result self.sum_subproblem_counter_ hin
  refine ⟨tr, ⟨self.il_size_, self.pre_candidates_,
    add_wrapping self.sum_subproblem_counter_
      (tr.map (fun e : Verification D => e.subproblem_count)),
    self.il_lookups_⟩, htr, ?_, ?_, ?_⟩
  · simp only [LDHJoin.verify_candidates, hloop]
  · rfl
  · intro hsum
    simp only [LDHJoin.get_subproblem_count]
    exact add_wrapping_eq _ _ hsum

/-- Instance of the amended C13: three verifications that report `2^63` subproblems each. -/
theorem verify_candidates_counter_wraps_witness :
    ∃ tr self',
      verification_trace size_verifier three_trees 0 [(0, 1), (0, 2), (1, 2)]
          size_verifier.init = some tr ∧
      (LDHJoin.init 0).verify_candidates size_verifier (fun a b => decide (a ≤ b))
          three_trees [(0, 1), (0, 2), (1, 2)] [] 0
        = some (self', [] ++ emitted (fun a b => decide (a ≤ b)) 0 tr) ∧
      self'.get_subproblem_count
        = add_wrapping (LDHJoin.init 0).sum_subproblem_counter_
            (tr.map (fun e => e.subproblem_count)) ∧
      ((LDHJoin.init 0).sum_subproblem_counter_ < 2 ^ 64 →
        self'.get_subproblem_count
          = ((LDHJoin.init 0).sum_subproblem_counter_
              + (tr.map (fun e => e.subproblem_count)).sum) % 2 ^ 64) :=
  verify_candidates_counter_wraps size_verifier (fun a b => decide (a ≤ b)) (LDHJoin.init 0)
    three_trees [(0, 1), (0, 2), (1, 2)] [] 0 (by decide)

/-- C13 (as stated) fails: after three verifications that report `2^63` subproblems each the
counter of a new `LDHJoin` holds `2^63`; a saturating counter would hold `2^64 - 1`. -/
theorem verify_candidates_counter_not_saturating :
    ∃ tr self' jr,
      verification_trace size_verifier three_trees 0 [(0, 1), (0, 2), (1, 2)] ()
        = some tr ∧
      (LDHJoin.init 0).verify_candidates size_verifier (fun a b => decide (a ≤ b))
          three_trees [(0, 1), (0, 2), (1, 2)] [] 0 = some (self', jr) ∧
      self'.get_subproblem_count = 2 ^ 63 ∧
      add_saturating 0 (tr.map (fun e => e.subproblem_count)) = 2 ^ 64 - 1 ∧
      self'.get_subproblem_count ≠ add_saturating 0 (tr.map (fun e => e.subproblem_count)) := by
  refine ⟨_, _, _, rfl, rfl, ?_, ?_, ?_⟩ <;> decide

/-- The run of `execute_join` in terms of the verification loop. -/
theorem execute_join_eq {H D State : Type} (C : Converter Label H) (I : CandidateIndex H D)
    (V : VerificationAlgorithm Label D State) (le : D → D → Bool) (self : LDHJoin)
    (trees : List (Node Label)) (h0 : H) (cands0 : List (Nat × Nat))
    (jr0 : List (JoinResultElement D)) (threshold : D) :
    self.execute_join C I V le trees h0 cands0 jr0 threshold
      = (verify_candidates_loop V le trees threshold
          (handed_candidates C I trees h0 cands0 threshold) V.init jr0
          self.sum_subproblem_counter_).map
        (fun r =>
          { self := ⟨(C.create_histogram trees h0).2,
              (I.lookup (C.create_histogram trees h0).1 cands0
                (C.create_histogram trees h0).2 threshold).2.1, r.2,
              (I.lookup (C.create_histogram trees h0).1 cands0
                (C.create_histogram trees h0).2 threshold).2.2⟩
            histogram_collection := (C.create_histogram trees h0).1
            candidates := handed_candidates C I trees h0 cands0 threshold
            join_result := r.1 }) := by
  simp only [LDHJoin.execute_join, LDHJoin.convert_trees_to_histograms,
    LDHJoin.retrieve_candidates, LDHJoin.verify_candidates, handed_candidates]
  cases verify_candidates_loop V le trees threshold
    (I.lookup (C.create_histogram trees h0).1 cands0 (C.create_histogram trees h0).2
      threshold).1 V.init jr0 self.sum_subproblem_counter_ <;> rfl

/-- C14 (as amended): a second run of `execute_join` on the same object with the same inputs
returns the same `join_result`, candidates and histograms and the same numbers of
pre-candidates and inverted list lookups; the subproblem counter is not reset between the runs,
after the second run it holds the value after the first run plus, again, the subproblem
counts of all verifications (modulo `2^64`). -/
theorem execute_join_twice {H D State : Type} (C : Converter Label H)
    (I : CandidateIndex H D) (V : VerificationAlgorithm Label D State) (le : D → D → Bool)
    (self : LDHJoin) (trees : List (Node Label)) (h0 : H) (cands0 : List (Nat × Nat))
    (jr0 : List (JoinResultElement D)) (threshold : D)
    (hin : ∀ p ∈ handed_candidates C I trees h0 cands0 threshold,
      p.1 < trees.length ∧ p.2 < trees.length) :
    ∃ tr r1 r2,
      verification_trace V trees threshold (handed_candidates C I trees h0 cands0 threshold)
        V.init = some tr ∧
      self.execute_join C I V le trees h0 cands0 jr0 threshold = some r1 ∧
      r1.self.execute_join C I V le trees h0 cands0 jr0 threshold = some r2 ∧
      r2.join_result = r1.join_result ∧ r2.candidates = r1.candidates ∧
      r2.histogram_collection = r1.histogram_collection ∧
      r2.self.get_number_of_pre_candidates = r1.self.get_number_of_pre_candidates ∧
      r2.self.get_number_of_il_lookups = r1.self.get_number_of_il_lookups ∧
      r1.self.get_subproblem_count
        = add_wrapping self.sum_subproblem_counter_ (tr.map (fun e => e.subproblem_count)) ∧
      r2.self.get_subproblem_count
        = add_wrapping r1.self.get_subproblem_count (tr.map (fun e => e.subproblem_count)) ∧
      (r1.self.get_subproblem_count < 2 ^ 64 →
        r2.self.get_subproblem_count
          = (r1.self.get_subproblem_count + (tr.map (fun e => e.subproblem_count)).sum)
              % 2 ^ 64) := by
  obtain ⟨tr, htr, _, hloop1⟩ := verify_candidates_loop_eq V le trees threshold
    (handed_candidates C I trees h0 cands0 threshold) V.init jr0
    self.sum_subproblem_counter_ hin
  obtain ⟨tr2, htr2, _, hloop2⟩ := verify_candidates_loop_eq V le trees threshold
    (handed_candidates C I trees h0 cands0 threshold) V.init jr0
    (add_wrapping self.sum_subproblem_counter_
      (tr.map (fun e : Verification D => e.subproblem_count))) hin
  have htr12 : tr2 = tr := Option.some.inj (htr2.symm.trans htr)
  subst htr12
  have h1 := execute_join_eq C I V le self trees h0 cands0 jr0 threshold
  simp only [hloop1, Option.map_some'] at h1
  have h2 := execute_join_eq C I V le
    ⟨(C.create_histogram trees h0).2,
      (I.lookup (C.create_histogram trees h0).1 cands0
        (C.create_histogram trees h0).2 threshold).2.1,
      add_wrapping self.sum_subproblem_counter_
        (tr2.map (fun e : Verification D => e.subproblem_count)),
      (I.lookup (C.create_histogram trees h0).1 cands0
        (C.create_histogram trees h0).2 threshold).2.2⟩ trees h0 cands0 jr0 threshold
  simp only [hloop2, Option.map_some'] at h2
  refine ⟨tr2, _, _, htr, h1, h2, ?_, ?_, ?_, ?_, ?_, ?_, ?_, ?_⟩
  · rfl
  · rfl
  · rfl
  · rfl
  · rfl
  · rfl
  · rfl
  · intro hlt
    exact add_wrapping_eq _ _ hlt

/-- Instance of the amended C14: two runs over three trees with all pairs as candidates. -/
theorem execute_join_twice_witness :
    ∃ tr r1 r2,
      verification_trace product_verifier three_trees 0
        (handed_candidates unit_converter three_index three_trees () [] 0)
        product_verifier.init = some tr ∧
      (LDHJoin.init 0).execute_join unit_converter three_index product_verifier
        (fun a b => decide (a ≤ b)) three_trees () [] [] 0 = some r1 ∧
      r1.self.execute_join unit_converter three_index product_verifier
        (fun a b => decide (a ≤ b)) three_trees () [] [] 0 = some r2 ∧
      r2.join_result = r1.join_result ∧ r2.candidates = r1.candidates ∧
      r2.histogram_collection = r1.histogram_collection ∧
      r2.self.get_number_of_pre_candidates = r1.self.get_number_of_pre_candidates ∧
      r2.self.get_number_of_il_lookups = r1.self.get_number_of_il_lookups ∧
      r1.self.get_subproblem_count
        = add_wrapping (LDHJoin.init 0).sum_subproblem_counter_
            (tr.map (fun e => e.subproblem_count)) ∧
      r2.self.get_subproblem_count
        = add_wrapping r1.self.get_subproblem_count (tr.map (fun e => e.subproblem_count)) ∧
      (r1.self.get_subproblem_count < 2 ^ 64 →
        r2.self.get_subproblem_count
          = (r1.self.get_subproblem_count + (tr.map (fun e => e.subproblem_count)).sum)
              % 2 ^ 64) :=
  execute_join_twice unit_converter three_index product_verifier (fun a b => decide (a ≤ b))
    (LDHJoin.init 0) three_trees () [] [] 0 (by decide)

/-- C14 (as stated) fails: over three trees with all pairs as candidates and a verifier that
reports the product of the tree sizes, `get_subproblem_count()` is `11` after the first run on
a new object and `22` after the second run with the same inputs. -/
theorem execute_join_twice_counter_differs :
    ∃ r1 r2,
      (LDHJoin.init 0).execute_join unit_converter three_index product_verifier
        (fun a b => decide (a ≤ b)) three_trees () [] [] 0 = some r1 ∧
      r1.self.execute_join unit_converter three_index product_verifier
        (fun a b => decide (a ≤ b)) three_trees () [] [] 0 = some r2 ∧
      r1.self.get_subproblem_count = 11 ∧ r2.self.get_subproblem_count = 22 ∧
      r2.self.get_subproblem_count ≠ r1.self.get_subproblem_count ∧
      r2.join_result = r1.join_result := by
  refine ⟨_, _, rfl, rfl, ?_, ?_, ?_, ?_⟩ <;> decide

/-! ## A negative threshold -/

theorem emitted_eq_nil {D : Type} (le : D → D → Bool) (threshold : D)
    (tr : List (Verification D)) (h : ∀ e ∈ tr, le e.ted_value threshold = false) :
    emitted le threshold tr = [] := by
  simp only [emitted, List.map_eq_nil_iff, List.filter_eq_nil_iff]
  intro e he
  simp [h e he]

theorem verification_trace_values {D State : Type} (V : VerificationAlgorithm Label D State)
    (trees : List (Node Label)) (threshold : D) :
    ∀ (cands : List (Nat × Nat)) (s : State) (tr : List (Verification D)),
      verification_trace V trees threshold cands s = some tr →
      ∀ e ∈ tr, ∃ s' a b, e.ted_value = (V.verify s' a b threshold).1 := by
  intro cands
  induction cands with
  | nil =>
    intro s tr h e he
    simp only [verification_trace, Option.some.injEq] at h
    subst h
    simp at he
  | cons p rest ih =>
    intro s tr h e he
    simp only [verification_trace] at h
    cases h1 : trees[p.1]? with
    | none => simp [h1] at h
    | some a =>
      cases h2 : trees[p.2]? with
      | none => simp [h1, h2] at h
      | some b =>
        simp only [h1, h2] at h
        cases h3 : verification_trace V trees threshold rest (V.verify s a b threshold).2 with
        | none => simp [h3] at h
        | some tr' =>
          simp only [h3, Option.some.injEq] at h
          subst h
          rcases List.mem_cons.1 he with rfl | he'
          · exact ⟨s, a, b, rfl⟩
          · exact ih _ tr' h3 e he'

/-- C12 (as amended): `execute_join` does not check the threshold.  Called with `τ < 0` it runs
the pipeline as for any threshold (histograms, candidates, one verification per candidate,
counters) and returns; when the verification algorithm returns only distances `≥ 0`, no
element is added to `join_result`. -/
theorem execute_join_negative_threshold {H State : Type} (C : Converter Label H)
    (I : CandidateIndex H ℚ) (V : VerificationAlgorithm Label ℚ State) (self : LDHJoin)
    (trees : List (Node Label)) (h0 : H) (cands0 : List (Nat × Nat))
    (jr0 : List (JoinResultElement ℚ)) (threshold : ℚ) (hneg : threshold < 0)
    (hdist : ∀ s a b, 0 ≤ (V.verify s a b threshold).1)
    (hin : ∀ p ∈ handed_candidates C I trees h0 cands0 threshold,
      p.1 < trees.length ∧ p.2 < trees.length) :
    ∃ tr run,
      verification_trace V trees threshold (handed_candidates C I trees h0 cands0 threshold)
        V.init = some tr ∧
      tr.length = (handed_candidates C I trees h0 cands0 threshold).length ∧
      self.execute_join C I V (fun a b => decide (a ≤ b)) trees h0 cands0 jr0 threshold
        = some run ∧
      run.join_result = jr0 ∧
      run.candidates = handed_candidates C I trees h0 cands0 threshold ∧
      run.self.get_subproblem_count
        = add_wrapping self.sum_subproblem_counter_ (tr.map (fun e => e.subproblem_count)) := by
  obtain ⟨tr, htr, hids, hloop⟩ := verify_candidates_loop_eq V (fun a b => decide (a ≤ b))
    trees threshold (handed_candidates C I trees h0 cands0 threshold) V.init jr0
    self.sum_subproblem_counter_ hin
  have hnone : emitted (fun a b => decide (a ≤ b)) threshold tr = [] := by
    apply emitted_eq_nil
    intro e he
    obtain ⟨s', a, b, hv⟩ := verification_trace_values V trees threshold _ _ tr htr e he
    have := hdist s' a b
    rw [← hv] at this
    simp only [decide_eq_false_iff_not, not_le]
    exact lt_of_lt_of_le hneg this
  have h1 := execute_join_eq C I V (fun a b => decide (a ≤ b)) self trees h0 cands0 jr0
    threshold
  simp only [hloop, Option.map_some', hnone, List.append_nil] at h1
  refine ⟨tr, _, htr, ?_, h1, ?_, ?_, ?_⟩
  · rw [← hids, List.length_map]
  · rfl
  · rfl
  · rfl

/-- Instance of the amended C12: three trees, all pairs as candidates, threshold `-1`. -/
theorem execute_join_negative_threshold_witness :
    ∃ tr run,
      verification_trace rat_verifier three_trees (-1)
        (handed_candidates unit_converter (pairs_index [(0, 1), (0, 2), (1, 2)] 3 5)
          three_trees () [] (-1)) rat_verifier.init = some tr ∧
      tr.length = (handed_candidates unit_converter
        (pairs_index [(0, 1), (0, 2), (1, 2)] 3 5) three_trees () [] (-1 : ℚ)).length ∧
      (LDHJoin.init 0).execute_join unit_converter (pairs_index [(0, 1), (0, 2), (1, 2)] 3 5)
        rat_verifier (fun a b => decide (a ≤ b)) three_trees () [] [] (-1) = some run ∧
      run.join_result = [] ∧
      run.candidates = handed_candidates unit_converter
        (pairs_index [(0, 1), (0, 2), (1, 2)] 3 5) three_trees () [] (-1 : ℚ) ∧
      run.self.get_subproblem_count
        = add_wrapping (LDHJoin.init 0).sum_subproblem_counter_
            (tr.map (fun e => e.subproblem_count)) :=
  execute_join_negative_threshold unit_converter (pairs_index [(0, 1), (0, 2), (1, 2)] 3 5)
    rat_verifier (LDHJoin.init 0) three_trees () [] [] (-1) (by norm_num)
    (fun _ a b => Nat.cast_nonneg (size_distance a b)) (by decide)

/-- C12 (as stated) fails: called with the threshold `-1` on three trees, `execute_join` is
not rejected; it returns after retrieving three candidates and verifying each of them
(`11` subproblems), with an empty `join_result`. -/
theorem execute_join_negative_threshold_runs :
    ∃ run,
      (LDHJoin.init 0).execute_join unit_converter
        (pairs_index [(0, 1), (0, 2), (1, 2)] 3 5) rat_verifier
        (fun a b => decide (a ≤ b)) three_trees () [] [] (-1) = some run ∧
      run.candidates = [(0, 1), (0, 2), (1, 2)] ∧ run.join_result = [] ∧
      run.self.get_number_of_pre_candidates = 3 ∧ run.self.get_subproblem_count = 11 := by
  refine ⟨_, rfl, ?_, ?_, ?_, ?_⟩ <;> decide

/-! ## Counter monotonicity -/

theorem verify_candidates_loop_length {D State : Type}
    (V : VerificationAlgorithm Label D State) (le : D → D → Bool) (trees : List (Node Label))
    (threshold : D) :
    ∀ (cands : List (Nat × Nat)) (s : State) (jr : List (JoinResultElement D)) (sum : Nat)
      (r : List (JoinResultElement D) × Nat),
      verify_candidates_loop V le trees threshold cands s jr sum = some r →
      r.1.length ≤ jr.length + cands.length := by
  intro cands
  induction cands with
  | nil =>
    intro s jr sum r h
    simp only [verify_candidates_loop, Option.some.injEq] at h
    subst h
    simp
  | cons p rest ih =>
    intro s jr sum r h
    simp only [verify_candidates_loop] at h
    cases h1 : trees[p.1]? with
    | none => simp [h1] at h
    | some a =>
      cases h2 : trees[p.2]? with
      | none => simp [h1, h2] at h
      | some b =>
        simp only [h1, h2] at h
        have := ih _ _ _ r h
        by_cases hle : le (V.verify s a b threshold).1 threshold = true
        · simp only [hle, if_true, List.length_append, List.length_singleton] at this
          simp only [List.length_cons]
          omega
        · simp only [hle, Bool.false_eq_true, if_false] at this
          simp only [List.length_cons]
          omega

/-- C11: with the converter and the candidate index of the spec, a run of `execute_join`
started with empty containers returns, and after every run started with empty `candidates` and
`join_result` the number of pre-candidates is at least the number of candidates handed to the
verification, which is at least the number of elements of `join_result`. -/
theorem execute_join_counter_monotone {D State : Type} (within : Nat → D → Bool)
    (touched : List Histogram → Nat → D → Nat) (V : VerificationAlgorithm Label D State)
    (le : D → D → Bool) (self : LDHJoin) (trees : List (Node Label)) (threshold : D) :
    (∃ run, self.execute_join spec_converter (spec_candidate_index within touched) V le trees
        [] [] [] threshold = some run) ∧
    ∀ (h0 : List Histogram) (run : JoinRun (List Histogram) D),
      self.execute_join spec_converter (spec_candidate_index within touched) V le trees
        h0 [] [] threshold = some run →
      run.self.get_number_of_pre_candidates ≥ run.candidates.length ∧
      run.candidates.length ≥ run.join_result.length := by
  constructor
  · have hin : ∀ p ∈ handed_candidates spec_converter (spec_candidate_index within touched)
        trees [] [] threshold, p.1 < trees.length ∧ p.2 < trees.length := by
      intro p hp
      simp only [handed_candidates, spec_candidate_index, spec_converter, List.nil_append,
        List.mem_filter, pre_candidate_pairs, List.length_map] at hp
      have := (mem_all_pairs _ p).1 hp.1.1
      omega
    obtain ⟨tr, _, _, hloop⟩ := verify_candidates_loop_eq V le trees threshold _ V.init []
      self.sum_subproblem_counter_ hin
    rw [execute_join_eq, hloop]
    exact ⟨_, rfl⟩
  · intro h0 run hrun
    rw [execute_join_eq] at hrun
    cases hloop : verify_candidates_loop V le trees threshold
        (handed_candidates spec_converter (spec_candidate_index within touched) trees h0 []
          threshold) V.init [] self.sum_subproblem_counter_ with
    | none => simp [hloop] at hrun
    | some r =>
      have hlen := verify_candidates_loop_length V le trees threshold _ _ _ _ r hloop
      simp only [hloop, Option.map_some', Option.some.injEq] at hrun
      subst hrun
      constructor
      · simp only [LDHJoin.get_number_of_pre_candidates, handed_candidates,
          spec_candidate_index, List.nil_append, ge_iff_le]
        exact List.length_filter_le _ _
      · simpa using hlen

/-! ## The tokens of a bracket string -/

theorem kR_tokens_from_left (cs : List Char) (pending : Option (List Char)) :
    kR_tokens_from ('\x7b' :: cs) pending
      = flush_label pending ++ ⟨kLeftBracket, ""⟩ :: kR_tokens_from cs (some []) := by
  simp only [kR_tokens_from, if_true]

theorem kR_tokens_from_right (cs : List Char) (pending : Option (List Char)) :
    kR_tokens_from ('\x7d' :: cs) pending
      = flush_label pending ++ ⟨kRightBracket, ""⟩ :: kR_tokens_from cs none := by
  have h : ('\x7d' : Char) ≠ '\x7b' := by decide
  simp only [kR_tokens_from, h, if_false, if_true]

theorem kR_tokens_from_other (c : Char) (cs : List Char) (pending : Option (List Char))
    (h1 : c ≠ '\x7b') (h2 : c ≠ '\x7d') :
    kR_tokens_from (c :: cs) pending = kR_tokens_from cs (some (pending.getD [] ++ [c])) := by
  simp only [kR_tokens_from, h1, h2, if_false]

theorem kR_tokens_from_label (l : List Char)
    (hl : l.all (fun c => c != '\x7b' && c != '\x7d') = true) :
    ∀ (text rest : List Char),
      kR_tokens_from (l ++ rest) (some text) = kR_tokens_from rest (some (text ++ l)) := by
  induction l with
  | nil => intro text rest; simp
  | cons c l ih =>
    intro text rest
    simp only [List.all_cons, Bool.and_eq_true, bne_iff_ne, ne_eq] at hl
    rw [List.cons_append, kR_tokens_from_other c _ _ hl.1.1 hl.1.2, Option.getD_some,
      ih hl.2 (text ++ [c]) rest, List.append_assoc, List.singleton_append]

mutual
theorem kR_tokens_from_tree : ∀ (t : Node String), well_labelled t = true →
    ∀ (rest : List Char) (pending : Option (List Char)),
      kR_tokens_from (to_bracket_chars t ++ rest) pending
        = flush_label pending ++ (tree_tokens t ++ kR_tokens_from rest none)
  | .mk l cs, h, rest, pending => by
    simp only [well_labelled, Bool.and_eq_true] at h
    have hl := kR_tokens_from_label l.data h.1 [] (forest_to_bracket_chars cs ++ '\x7d' :: rest)
    have hf := kR_tokens_from_forest cs h.2 rest (some l.data)
    have e : to_bracket_chars (Node.mk l cs) ++ rest
        = '\x7b' :: (l.data ++ (forest_to_bracket_chars cs ++ '\x7d' :: rest)) := by
      simp [to_bracket_chars]
    rw [e, kR_tokens_from_left, hl, List.nil_append, hf]
    simp [flush_label, tree_tokens]
theorem kR_tokens_from_forest : ∀ (cs : List (Node String)), forest_well_labelled cs = true →
    ∀ (rest : List Char) (pending : Option (List Char)),
      kR_tokens_from (forest_to_bracket_chars cs ++ '\x7d' :: rest) pending
        = flush_label pending
          ++ (forest_tokens cs ++ ⟨kRightBracket, ""⟩ :: kR_tokens_from rest none)
  | [], _, rest, pending => by
    rw [forest_to_bracket_chars, List.nil_append, kR_tokens_from_right, forest_tokens,
      List.nil_append]
  | c :: cs, h, rest, pending => by
    simp only [forest_well_labelled, Bool.and_eq_true] at h
    have hc := kR_tokens_from_tree c h.1 (forest_to_bracket_chars cs ++ '\x7d' :: rest) pending
    have hf := kR_tokens_from_forest cs h.2 rest none
    rw [forest_to_bracket_chars, List.append_assoc, hc, hf]
    simp [flush_label, forest_tokens]
end

/-- The tokens of the bracket notation of a tree with labels of the grammar. -/
theorem kR_tokens_to_bracket_string (t : Node String) (h : well_labelled t = true) :
    kR_tokens (to_bracket_string t) = tree_tokens t := by
  have := kR_tokens_from_tree t h [] none
  simpa [kR_tokens, to_bracket_string, flush_label, kR_tokens_from] using this

/-! ## Parsing the tokens of a tree -/

theorem plug_append (ctx : List (String × List (Node String))) (l : String)
    (ks : List (Node String)) (t : Node String) :
    plug (ctx ++ [(l, ks)]) t = plug ctx (Node.mk l (ks ++ [t])) := by
  induction ctx with
  | nil => rfl
  | cons f ctx ih =>
    obtain ⟨l0, ks0⟩ := f
    rw [List.cons_append, plug, plug, ih]

theorem plug_path_append (ctx : List (String × List (Node String))) (l : String)
    (ks : List (Node String)) :
    plug_path (ctx ++ [(l, ks)]) = plug_path ctx ++ [ks.length] := by
  induction ctx with
  | nil => rfl
  | cons f ctx ih =>
    obtain ⟨l0, ks0⟩ := f
    rw [List.cons_append, plug_path, plug_path, ih, List.cons_append]

theorem add_child_at_plug (ctx : List (String × List (Node String))) (l : String)
    (ks : List (Node String)) (n : Node String) :
    add_child_at (plug_path ctx) (plug ctx (Node.mk l ks)) n
      = some (plug ctx (Node.mk l (ks ++ [n])), plug_path ctx ++ [ks.length]) := by
  induction ctx with
  | nil => rfl
  | cons f ctx ih =>
    obtain ⟨l0, ks0⟩ := f
    simp only [plug_path, plug, add_child_at, List.getElem?_concat_length, ih,
      List.cons_append]
    simp

theorem is_label_ne_right (l : String) (h : is_label l = true) : l ≠ kRightBracket := by
  intro e
  subst e
  exact absurd h (by decide)

theorem parse_loop_open (x s g : String) (rest : List Token) (root root' : Node String)
    (a a' : Path) (st : List NodeRef) (hg : g ≠ kRightBracket)
    (hadd : add_child_at a root (Node.mk g []) = some (root', a')) :
    parse_loop (⟨kLeftBracket, x⟩ :: ⟨s, g⟩ :: rest) root (NodeRef.node a :: st)
      = parse_loop rest root' (NodeRef.node a' :: NodeRef.node a :: st) := by
  rw [parse_loop.eq_def]
  simp only [if_true, hadd, hg, if_false]

theorem parse_loop_close (x : String) (rest : List Token) (root : Node String) (r : NodeRef)
    (st : List NodeRef) :
    parse_loop (⟨kRightBracket, x⟩ :: rest) root (r :: st) = parse_loop rest root st := by
  have h : kRightBracket ≠ kLeftBracket := by decide
  rw [parse_loop.eq_def]
  simp only [h, if_false, if_true]

mutual
theorem parse_loop_tree : ∀ (t : Node String), well_labelled t = true →
    ∀ (ctx : List (String × List (Node String))) (l : String) (ks : List (Node String))
      (rest : List Token) (st : List NodeRef),
      parse_loop (tree_tokens t ++ rest) (plug ctx (Node.mk l ks))
          (NodeRef.node (plug_path ctx) :: st)
        = parse_loop rest (plug ctx (Node.mk l (ks ++ [t])))
            (NodeRef.node (plug_path ctx) :: st)
  | .mk l' cs', h, ctx, l, ks, rest, st => by
    simp only [well_labelled, Bool.and_eq_true] at h
    have hf := parse_loop_forest cs' h.2 (ctx ++ [(l, ks)]) l' []
      (⟨kRightBracket, ""⟩ :: rest) (NodeRef.node (plug_path ctx) :: st)
    rw [plug_append, plug_path_append, plug_append, List.nil_append, parse_loop_close] at hf
    have e : tree_tokens (Node.mk l' cs') ++ rest
        = ⟨kLeftBracket, ""⟩ :: ⟨l', l'⟩
          :: (forest_tokens cs' ++ ⟨kRightBracket, ""⟩ :: rest) := by
      simp [tree_tokens]
    rw [e, parse_loop_open "" l' l' _ _ _ _ _ _ (is_label_ne_right l' h.1)
      (add_child_at_plug ctx l ks (Node.mk l' [])), hf]
theorem parse_loop_forest : ∀ (cs : List (Node String)), forest_well_labelled cs = true →
    ∀ (ctx : List (String × List (Node String))) (l : String) (ks : List (Node String))
      (rest : List Token) (st : List NodeRef),
      parse_loop (forest_tokens cs ++ rest) (plug ctx (Node.mk l ks))
          (NodeRef.node (plug_path ctx) :: st)
        = parse_loop rest (plug ctx (Node.mk l (ks ++ cs)))
            (NodeRef.node (plug_path ctx) :: st)
  | [], _, ctx, l, ks, rest, st => by
    simp [forest_tokens]
  | c :: cs, h, ctx, l, ks, rest, st => by
    simp only [forest_well_labelled, Bool.and_eq_true] at h
    have hc := parse_loop_tree c h.1 ctx l ks (forest_tokens cs ++ rest) st
    have hf := parse_loop_forest cs h.2 ctx l (ks ++ [c]) rest st
    rw [forest_tokens, List.append_assoc, hc, hf, List.append_assoc, List.singleton_append]
end

/-- The parse of the tokens of a tree: the tree, and the stack as it was. -/
theorem parse_tokens_tree_tokens (t : Node String) (h : well_labelled t = true)
    (node_stack : List NodeRef) :
    parse_tokens node_stack (tree_tokens t) = some ⟨t, node_stack⟩ := by
  obtain ⟨l, cs⟩ := t
  simp only [well_labelled, Bool.and_eq_true] at h
  have hf := parse_loop_forest cs h.2 [] l [] [⟨kRightBracket, ""⟩] node_stack
  simp only [plug, plug_path, List.nil_append] at hf
  rw [tree_tokens, parse_tokens, hf, parse_loop_close, parse_loop]

/-! ## The parser on well-formed and on truncated strings -/

/-- C15: for every tree `t` whose labels are labels of the grammar (possibly empty, no
bracket), `parse_string` applied to the bracket notation of `t` returns `t`, and printing the
returned tree gives the string again. -/
theorem parse_string_round_trip (t : Node String) (node_stack : List NodeRef)
    (h : well_labelled t = true) :
    ∃ run, parse_string node_stack (to_bracket_string t) = some run ∧ run.root = t ∧
      to_bracket_string run.root = to_bracket_string t := by
  refine ⟨⟨t, node_stack⟩, ?_, rfl, rfl⟩
  rw [parse_string, kR_tokens_to_bracket_string t h, parse_tokens_tree_tokens t h]

/-- Instance of C15: the tree `{a{}{b{c}}}`, which has an empty label. -/
theorem parse_string_round_trip_witness :
    ∃ run, parse_string [] (to_bracket_string ex2) = some run ∧ run.root = ex2 ∧
      to_bracket_string run.root = to_bracket_string ex2 :=
  parse_string_round_trip ex2 [] (by decide)

theorem to_bracket_chars_getLast (t : Node String) :
    (to_bracket_chars t).getLast? = some '\x7d' := by
  obtain ⟨l, cs⟩ := t
  have e : to_bracket_chars (Node.mk l cs)
      = ('\x7b' :: (l.data ++ forest_to_bracket_chars cs)) ++ ['\x7d'] := by
    simp [to_bracket_chars]
  rw [e, List.getLast?_append]
  simp

theorem kR_tokens_from_forest_end (cs : List (Node String))
    (h : forest_well_labelled cs = true) :
    ∀ (pending : Option (List Char)),
      kR_tokens_from (forest_to_bracket_chars cs) pending
        = flush_label pending ++ forest_tokens cs := by
  induction cs with
  | nil => intro pending; simp [forest_to_bracket_chars, kR_tokens_from, forest_tokens]
  | cons c cs ih =>
    intro pending
    simp only [forest_well_labelled, Bool.and_eq_true] at h
    rw [forest_to_bracket_chars, kR_tokens_from_tree c h.1, ih h.2 none]
    simp [flush_label, forest_tokens]

theorem parse_tokens_extra_close (t : Node String) (h : well_labelled t = true)
    (node_stack : List NodeRef) :
    parse_tokens node_stack (tree_tokens t ++ [⟨kRightBracket, ""⟩])
      = parse_loop [⟨kRightBracket, ""⟩] t node_stack := by
  obtain ⟨l, cs⟩ := t
  simp only [well_labelled, Bool.and_eq_true] at h
  have hf := parse_loop_forest cs h.2 [] l [] [⟨kRightBracket, ""⟩, ⟨kRightBracket, ""⟩]
    node_stack
  simp only [plug, plug_path, List.nil_append] at hf
  have e : tree_tokens (Node.mk l cs) ++ [⟨kRightBracket, ""⟩]
      = ⟨kLeftBracket, ""⟩ :: ⟨l, l⟩
        :: (forest_tokens cs ++ [⟨kRightBracket, ""⟩, ⟨kRightBracket, ""⟩]) := by
    simp [tree_tokens]
  rw [e, parse_tokens, hf, parse_loop_close]

theorem kR_tokens_extra_close (t : Node String) (h : well_labelled t = true) :
    kR_tokens (to_bracket_string t ++ kRightBracket)
      = tree_tokens t ++ [⟨kRightBracket, ""⟩] := by
  have h1 := kR_tokens_from_tree t h ['\x7d'] none
  have h2 : kR_tokens_from ['\x7d'] none = [⟨kRightBracket, ""⟩] := by
    rw [kR_tokens_from_right]
    simp [flush_label, kR_tokens_from]
  rw [h2] at h1
  have e : (to_bracket_string t ++ kRightBracket).data = to_bracket_chars t ++ ['\x7d'] := by
    simp [to_bracket_string, kRightBracket]
  rw [kR_tokens, e, h1]
  simp [flush_label]

/-- C16 (as amended): what `parse_string` does on unbalanced input, for a tree `t` with labels
of the grammar.  On the bracket notation of `t` with its final closing bracket missing it
returns `t`, the tree it returns on the complete string, and leaves the reference to the root
on `node_stack`.  On the bracket notation of `t` followed by one more closing bracket it
returns `t` as well when `node_stack` holds an entry at the call, and that entry is popped;
when `node_stack` is empty at the call the run has no result (`pop_back` on an empty vector).
On the empty string the run has no result (the token after the last one is read). -/
theorem parse_string_unbalanced (t : Node String) (node_stack : List NodeRef) (r : NodeRef)
    (h : well_labelled t = true) :
    parse_string node_stack (to_bracket_string t) = some ⟨t, node_stack⟩ ∧
    parse_string node_stack (String.mk (to_bracket_chars t).dropLast)
      = some ⟨t, NodeRef.node [] :: node_stack⟩ ∧
    parse_string (r :: node_stack) (to_bracket_string t ++ kRightBracket)
      = some ⟨t, node_stack⟩ ∧
    parse_string [] (to_bracket_string t ++ kRightBracket) = none ∧
    parse_string node_stack "" = none := by
  refine ⟨?_, ?_, ?_, ?_, ?_⟩
  · rw [parse_string, kR_tokens_to_bracket_string t h, parse_tokens_tree_tokens t h]
  · obtain ⟨l, cs⟩ := t
    simp only [well_labelled, Bool.and_eq_true] at h
    have e : (to_bracket_chars (Node.mk l cs)).dropLast
        = '\x7b' :: (l.data ++ forest_to_bracket_chars cs) := by
      have e1 : to_bracket_chars (Node.mk l cs)
          = ('\x7b' :: (l.data ++ forest_to_bracket_chars cs)) ++ ['\x7d'] := by
        simp [to_bracket_chars]
      rw [e1, List.dropLast_concat]
    have htok : kR_tokens (String.mk (to_bracket_chars (Node.mk l cs)).dropLast)
        = ⟨kLeftBracket, ""⟩ :: ⟨l, l⟩ :: forest_tokens cs := by
      have hl := kR_tokens_from_label l.data h.1 [] (forest_to_bracket_chars cs)
      rw [kR_tokens, e]
      show kR_tokens_from ('\x7b' :: (l.data ++ forest_to_bracket_chars cs)) none = _
      rw [kR_tokens_from_left, hl, List.nil_append, kR_tokens_from_forest_end cs h.2]
      simp [flush_label]
    have hf := parse_loop_forest cs h.2 [] l [] [] node_stack
    simp only [plug, plug_path, List.nil_append, List.append_nil] at hf
    rw [parse_string, htok, parse_tokens, hf, parse_loop]
  · rw [parse_string, kR_tokens_extra_close t h, parse_tokens_extra_close t h,
      parse_loop_close, parse_loop]
  · rw [parse_string, kR_tokens_extra_close t h, parse_tokens_extra_close t h]
    rfl
  · rfl

/-- Instance of the amended C16: the tree `{a{}{b{c}}}`, an empty `node_stack` and, for the
string with one more closing bracket, a stack that holds one reference left by an earlier
call. -/
theorem parse_string_unbalanced_witness :
    parse_string [] (to_bracket_string ex2) = some ⟨ex2, []⟩ ∧
    parse_string [] (String.mk (to_bracket_chars ex2).dropLast)
      = some ⟨ex2, NodeRef.node [] :: []⟩ ∧
    parse_string (NodeRef.stale :: []) (to_bracket_string ex2 ++ kRightBracket)
      = some ⟨ex2, []⟩ ∧
    parse_string [] (to_bracket_string ex2 ++ kRightBracket) = none ∧
    parse_string [] "" = none :=
  parse_string_unbalanced ex2 [] NodeRef.stale (by decide)

/-- C16 (as stated) fails: the string `{a`, whose closing bracket is missing and which is the
bracket notation of no tree, is parsed without any failure; `parse_string` returns the tree
`{a}`. -/
theorem parse_string_unbalanced_returns :
    (∀ t : Node String, to_bracket_string t ≠ "\x7ba") ∧
    ∃ run, parse_string [] "\x7ba" = some run ∧ run.root = Node.mk "a" [] ∧
      run.node_stack = [NodeRef.node []] := by
  constructor
  · intro t ht
    have h1 := to_bracket_chars_getLast t
    have h2 : (to_bracket_string t).data = ("\x7ba" : String).data := by rw [ht]
    simp only [to_bracket_string] at h2
    rw [h2] at h1
    exact absurd h1 (by decide)
  · exact ⟨⟨Node.mk "a" [], [NodeRef.node []]⟩, rfl, rfl, rfl⟩

/-! ## The exit code of the join test -/

/-- The run of the naive branch of `main`: the thresholds `1`, `6` and `11` are checked in
this order, the first mismatch ends the run with `-1`. -/
theorem main_naive_eq (sizes : JoinSizes) :
    main "naive" sizes = some
      (if sizes.naive 1 ≠ 9 then ⟨-1, [(1, sizes.naive 1)]⟩
       else if sizes.naive 6 ≠ 344 then ⟨-1, [(6, sizes.naive 6)]⟩
       else if sizes.naive 11 ≠ 946 then ⟨-1, [(11, sizes.naive 11)]⟩
       else ⟨0, []⟩) := by
  simp only [main, if_true, threshold_loop, results]
  by_cases h1 : sizes.naive 1 = 9
  · by_cases h6 : sizes.naive 6 = 344
    · by_cases h11 : sizes.naive 11 = 946
      · simp [h1, h6, h11]
      · simp [h1, h6, h11]
    · simp [h1, h6]
  · simp [h1]

/-- C17: for a variant name that is none of `naive`, `tjoin`, `tang`, `guha` the function
`main` writes no error and returns `0`. -/
theorem main_unknown_variant (name : String) (sizes : JoinSizes) (h1 : name ≠ "naive")
    (h2 : name ≠ "tjoin") (h3 : name ≠ "tang") (h4 : name ≠ "guha") :
    main name sizes = some ⟨0, []⟩ := by
  simp only [main, h1, h2, h3, h4, if_false]

/-- Instance of C17: the variant name `foo`. -/
theorem main_unknown_variant_witness :
    main "foo" (golden_sizes_but 0) = some ⟨0, []⟩ :=
  main_unknown_variant "foo" (golden_sizes_but 0) (by decide) (by decide) (by decide)
    (by decide)

/-- C18 (as amended): for the variant `naive`, `main` returns, with exit code `0` or `-1`; it
returns `0` if and only if the join result size equals the golden count for each of the
thresholds `1`, `6` and `11`, the only ones its loop visits, and otherwise returns `-1` at the
first of these thresholds whose size differs. -/
theorem main_naive_exit_code (sizes : JoinSizes) :
    ∃ run, main "naive" sizes = some run ∧
      (run.exit_code = 0 ∨ run.exit_code = -1) ∧
      (run.exit_code = 0 ↔
        sizes.naive 1 = 9 ∧ sizes.naive 6 = 344 ∧ sizes.naive 11 = 946) ∧
      (sizes.naive 1 ≠ 9 → run = ⟨-1, [(1, sizes.naive 1)]⟩) ∧
      (sizes.naive 1 = 9 → sizes.naive 6 ≠ 344 → run = ⟨-1, [(6, sizes.naive 6)]⟩) ∧
      (sizes.naive 1 = 9 → sizes.naive 6 = 344 → sizes.naive 11 ≠ 946 →
        run = ⟨-1, [(11, sizes.naive 11)]⟩) := by
  refine ⟨_, main_naive_eq sizes, ?_⟩
  by_cases h1 : sizes.naive 1 = 9
  · by_cases h6 : sizes.naive 6 = 344
    · by_cases h11 : sizes.naive 11 = 946
      · simp [h1, h6, h11]
      · simp [h1, h6, h11]
    · simp [h1, h6]
  · simp [h1]

/-- C18 (as stated) fails: when the naive join returns the golden count for every threshold
except `2`, where it returns nothing instead of `37` pairs, `main` returns `0`. -/
theorem main_naive_misses_threshold :
    main "naive" (golden_sizes_but 2) = some ⟨0, []⟩ ∧
    (golden_sizes_but 2).naive 2 ≠ results.getD (2 - 1) 0 ∧
    results.getD (2 - 1) 0 = 37 := by
  refine ⟨?_, ?_, ?_⟩ <;> decide

/-! ## The stack of the parser after a well-formed string -/

/-- C24: on the bracket notation of a tree with labels of the grammar (possibly empty),
`parse_string` called with an empty `node_stack` returns with `node_stack` empty again; no
`pop_back` meets an empty stack (such a run would have no result), and the next string is
parsed from the empty stack in the same way. -/
theorem parse_string_stack_empty (t1 t2 : Node String) (h1 : well_labelled t1 = true)
    (h2 : well_labelled t2 = true) :
    ∃ r1 r2, parse_string [] (to_bracket_string t1) = some r1 ∧ r1.node_stack = [] ∧
      r1.root = t1 ∧
      parse_string r1.node_stack (to_bracket_string t2) = some r2 ∧ r2.node_stack = [] ∧
      r2.root = t2 := by
  refine ⟨⟨t1, []⟩, ⟨t2, []⟩, ?_, rfl, rfl, ?_, rfl, rfl⟩
  · rw [parse_string, kR_tokens_to_bracket_string t1 h1, parse_tokens_tree_tokens t1 h1]
  · rw [parse_string, kR_tokens_to_bracket_string t2 h2, parse_tokens_tree_tokens t2 h2]

/-- Instance of C24: the tree `{a{}{b{c}}}`, which has an empty label, parsed twice. -/
theorem parse_string_stack_empty_witness :
    ∃ r1 r2, parse_string [] (to_bracket_string ex2) = some r1 ∧ r1.node_stack = [] ∧
      r1.root = ex2 ∧
      parse_string r1.node_stack (to_bracket_string ex2) = some r2 ∧ r2.node_stack = [] ∧
      r2.root = ex2 :=
  parse_string_stack_empty ex2 ex2 (by decide) (by decide)

/-! ## The cells written by `zhang_shasha_ted` -/

theorem mem_kr_range (t : Node Label) (x : Int)
    (hx : x ∈ to_ints (kr_from 0 t ++ [t.get_tree_size])) :
    1 ≤ x ∧ x ≤ ((t.get_tree_size : Nat) : Int) := by
  simp only [to_ints, List.map_append, List.map_cons, List.map_nil, List.mem_append,
    List.mem_map, List.mem_singleton] at hx
  rcases hx with ⟨n, hn, rfl⟩ | rfl
  · have := (tree_inv t 0).2.2 n hn
    simp only [Int.ofNat_eq_coe]
    omega
  · have := get_tree_size_pos t
    simp only [Int.ofNat_eq_coe]
    omega

/-- C21: for every pair of trees the nested loop of `zhang_shasha_ted` visits the pair of the
two roots, `(t1_size, t2_size)`, for which neither `kr1 < t1_size` nor `kr2 < t2_size` holds,
`td` being allocated with `t1_size` rows and `t2_size` columns; all visited pairs satisfy
`1 ≤ kr1 ≤ t1_size` and `1 ≤ kr2 ≤ t2_size`. -/
theorem zhang_shasha_ted_writes_outside {CostModel : Type} (t1 t2 : Node Label)
    (c : CostModel) :
    ∃ r, zhang_shasha_ted Algorithm.init t1 t2 c = some r ∧
      r.td_rows = t1.get_tree_size ∧ r.td_columns = t2.get_tree_size ∧
      (((t1.get_tree_size : Nat) : Int), ((t2.get_tree_size : Nat) : Int)) ∈ r.td_writes ∧
      ¬ (((t1.get_tree_size : Nat) : Int) < (r.td_rows : Int)) ∧
      ¬ (((t2.get_tree_size : Nat) : Int) < (r.td_columns : Int)) ∧
      ∀ cell ∈ r.td_writes,
        1 ≤ cell.1 ∧ cell.1 ≤ ((t1.get_tree_size : Nat) : Int) ∧
        1 ≤ cell.2 ∧ cell.2 ≤ ((t2.get_tree_size : Nat) : Int) := by
  obtain ⟨A1, _, ht1⟩ := index_nodes_kr_eq t1 [] []
  obtain ⟨A2, _, ht2⟩ := index_nodes_kr_eq t2 [] []
  have hr := zhang_shasha_ted_eq Algorithm.init t1 t2 c _ _ _ _ ht1 ht2
  refine ⟨_, hr, rfl, rfl, ?_, ?_, ?_, ?_⟩
  · simp only [List.nil_append, List.mem_flatMap, List.mem_map]
    exact ⟨_, by simp [to_ints], _, by simp [to_ints], rfl⟩
  · simp
  · simp
  · intro cell hcell
    simp only [List.nil_append, List.mem_flatMap, List.mem_map] at hcell
    obtain ⟨k1, hk1, k2, hk2, rfl⟩ := hcell
    have h1 := mem_kr_range t1 k1 hk1
    have h2 := mem_kr_range t2 k2 hk2
    exact ⟨h1.1, h1.2, h2.1, h2.2⟩

/-! ## Keyroots and leaves -/

mutual
theorem kr_lld_from_fst : ∀ (t : Node Label) (k : Nat),
    (kr_lld_from k t).map Prod.fst = kr_from k t
  | .mk _ [], k => by simp [kr_lld_from, kr_from]
  | .mk _ (c :: rest), k => by
    simp [kr_lld_from, kr_from, kr_lld_from_fst c k,
      kr_lld_while_fst rest (k + c.get_tree_size)]
theorem kr_lld_while_fst : ∀ (cs : List (Node Label)) (k : Nat),
    (kr_lld_while k cs).map Prod.fst = kr_while k cs
  | [], k => by simp [kr_lld_while, kr_while]
  | c :: rest, k => by
    simp [kr_lld_while, kr_while, kr_lld_from_fst c k,
      kr_lld_while_fst rest (k + c.get_tree_size)]
end

mutual
theorem kr_lld_from_mem : ∀ (t : Node Label) (k : Nat) (p : Nat × Nat),
    p ∈ kr_lld_from k t → p ∈ indexed k (lld_from k t)
  | .mk _ [], k, p => by simp [kr_lld_from]
  | .mk _ (c :: rest), k, p => by
    intro hp
    rw [kr_lld_from, List.mem_append] at hp
    rw [lld_from, lld_forest, indexed_append, indexed_append, lld_from_length,
      List.mem_append, List.mem_append]
    rcases hp with hp | hp
    · exact Or.inl (Or.inl (kr_lld_from_mem c k p hp))
    · exact Or.inl (Or.inr (kr_lld_while_mem rest (k + c.get_tree_size) p hp))
theorem kr_lld_while_mem : ∀ (cs : List (Node Label)) (k : Nat) (p : Nat × Nat),
    p ∈ kr_lld_while k cs → p ∈ indexed k (lld_forest k cs)
  | [], k, p => by simp [kr_lld_while]
  | c :: rest, k, p => by
    intro hp
    rw [kr_lld_while, List.mem_append, List.mem_cons] at hp
    rw [lld_forest]
    rcases hp with hp | rfl | hp
    · rw [indexed_append, List.mem_append]
      exact Or.inl (kr_lld_from_mem c k p hp)
    · exact lld_from_root_mem k c _
    · rw [indexed_append, List.mem_append, lld_from_length]
      exact Or.inr (kr_lld_while_mem rest (k + c.get_tree_size) p hp)
end

mutual
theorem kr_lld_from_perm : ∀ (t : Node Label) (k : Nat),
    ((kr_lld_from k t).map Prod.snd ++ [k + 1]).Perm (leaves_from k t)
  | .mk _ [], k => by simp [kr_lld_from, leaves_from]
  | .mk _ (c :: rest), k => by
    rw [kr_lld_from, leaves_from, List.map_append, List.append_assoc]
    refine List.Perm.trans ?_
      ((kr_lld_from_perm c k).append (kr_lld_while_perm rest (k + c.get_tree_size)))
    rw [List.append_assoc]
    exact List.Perm.append_left _ List.perm_append_comm
theorem kr_lld_while_perm : ∀ (cs : List (Node Label)) (k : Nat),
    ((kr_lld_while k cs).map Prod.snd).Perm (leaves_forest k cs)
  | [], k => by simp [kr_lld_while, leaves_forest]
  | c :: rest, k => by
    rw [kr_lld_while, leaves_forest, List.map_append, List.map_cons]
    have e : (kr_lld_from k c).map Prod.snd
          ++ (k + 1) :: (kr_lld_while (k + c.get_tree_size) rest).map Prod.snd
        = ((kr_lld_from k c).map Prod.snd ++ [k + 1])
          ++ (kr_lld_while (k + c.get_tree_size) rest).map Prod.snd := by simp
    rw [e]
    exact (kr_lld_from_perm c k).append (kr_lld_while_perm rest (k + c.get_tree_size))
end

mutual
theorem leaves_from_eq_spec : ∀ (t : Node Label) (k : Nat),
    leaves_from k t = ((postorder t).filter (fun e => e.2.is_leaf)).map
      (fun e => k + (index_of e.1 (postorder_paths t) + 1))
  | .mk l [], k => by
    simp [leaves_from, postorder, postorder_forest, postorder_paths, index_of, Node.is_leaf,
      Node.get_children]
  | .mk l (c :: rest), k => by
    have hf := leaves_forest_eq_spec (c :: rest) 0 k
    rw [leaves_forest] at hf
    rw [leaves_from, hf]
    conv_rhs => rw [postorder, List.filter_append, List.map_append]
    have hroot : List.filter (fun e : Path × Node Label => e.2.is_leaf)
        [([], Node.mk l (c :: rest))] = [] := by
      simp [Node.is_leaf, Node.get_children]
    rw [hroot, List.map_nil, List.append_nil]
    apply List.map_congr_left
    intro e he
    have he' := List.mem_of_mem_filter he
    rw [postorder_paths_mk,
      index_of_append_of_mem _ _ _ (List.mem_map.2 ⟨e, he', rfl⟩)]
theorem leaves_forest_eq_spec : ∀ (cs : List (Node Label)) (i k : Nat),
    leaves_forest k cs = ((postorder_forest i cs).filter (fun e => e.2.is_leaf)).map
      (fun e => k + (index_of e.1 ((postorder_forest i cs).map Prod.fst) + 1))
  | [], _, _ => by simp [leaves_forest, postorder_forest]
  | c :: rest, i, k => by
    rw [leaves_forest, leaves_from_eq_spec c k,
      leaves_forest_eq_spec rest (i + 1) (k + c.get_tree_size)]
    conv_rhs => rw [postorder_forest, List.filter_append, List.map_append, List.filter_map,
      List.map_map]
    congr 1
    · apply List.map_congr_left
      intro e he
      have he' := List.mem_of_mem_filter he
      simp only [Function.comp]
      rw [← postorder_forest, index_of_forest_cons_left i c rest _
        (List.mem_map.2 ⟨e, he', rfl⟩)]
    · apply List.map_congr_left
      intro e he
      have he' := List.mem_of_mem_filter he
      rw [← postorder_forest,
        index_of_forest_cons_right i c rest _ (List.mem_map.2 ⟨e, he', rfl⟩)]
      omega
end

theorem leaves_from_eq_leaf_ids (t : Node Label) : leaves_from 0 t = leaf_ids t := by
  rw [leaves_from_eq_spec, leaf_ids]
  apply List.map_congr_left
  intro e _
  simp [postorder_id]

theorem vector_at_to_ints (L : List Nat) (x : Nat) (h : 1 ≤ x) :
    vector_at (to_ints L) (((x : Nat) : Int) - 1) = (L[x - 1]?).map Int.ofNat := by
  have h0 : ¬ (((x : Nat) : Int) - 1 < 0) := by omega
  have e : (((x : Nat) : Int) - 1).toNat = x - 1 := by omega
  rw [vector_at, if_neg h0, e, to_ints_getElem?]

theorem vector_at_of_mem_indexed (L : List Nat) (x y : Nat) (h : (x, y) ∈ indexed 0 L) :
    vector_at (to_ints L) (((x : Nat) : Int) - 1) = some ((y : Nat) : Int) := by
  obtain ⟨p, hx, hp⟩ := (mem_indexed L 0 x y).1 h
  have e : x - 1 = p := by omega
  rw [vector_at_to_ints L x (by omega), e, hp]
  rfl

/-- The keyroots of a tree paired with their lld entries: the pairs lie in the lld vector, their
first components are the keyroot list and their second components are the leaf ids in some
order. -/
theorem kr_lld_pairs (t : Node Label) :
    ∃ P : List (Nat × Nat),
      P.map Prod.fst = kr_from 0 t ++ [t.get_tree_size] ∧
      (∀ p ∈ P, p ∈ indexed 0 (lld_from 0 t)) ∧
      (P.map Prod.snd).Perm (leaf_ids t) := by
  refine ⟨kr_lld_from 0 t ++ [(t.get_tree_size, 1)], ?_, ?_, ?_⟩
  · simp [kr_lld_from_fst]
  · intro p hp
    rw [List.mem_append, List.mem_singleton] at hp
    rcases hp with hp | rfl
    · exact kr_lld_from_mem t 0 p hp
    · have := lld_from_root_mem 0 t []
      simpa using this
  · have := kr_lld_from_perm t 0
    rw [leaves_from_eq_leaf_ids] at this
    simpa using this

/-- C23: in the index of a tree, `kr` has as many entries as the tree has leaves, and
`k ↦ lld[k]` (stored at position `k - 1`) maps the keyroots one-to-one onto the postorder ids
of the leaves. -/
theorem index_nodes_keyroots_leaves (t : Node Label) :
    ∃ lld kr, index_nodes t [] [] = some (lld, kr) ∧
      kr.length = (leaf_ids t).length ∧
      (∀ k ∈ kr, ∃ v ∈ leaf_ids t, vector_at lld (k - 1) = some ((v : Nat) : Int)) ∧
      (∀ k ∈ kr, ∀ k' ∈ kr, vector_at lld (k - 1) = vector_at lld (k' - 1) → k = k') ∧
      (∀ v ∈ leaf_ids t, ∃ k ∈ kr, vector_at lld (k - 1) = some ((v : Nat) : Int)) := by
  obtain ⟨P, hfst, hmem, hperm⟩ := kr_lld_pairs t
  have hkr : ([] : List Int) ++ to_ints (kr_from 0 t) ++ [((t.get_tree_size : Nat) : Int)]
      = to_ints (P.map Prod.fst) := by simp [to_ints, hfst]
  have hidx := index_nodes_eq t []
  rw [hkr] at hidx
  have hpair : ∀ k ∈ to_ints (P.map Prod.fst), ∃ p ∈ P, k = ((p.1 : Nat) : Int) ∧
      vector_at (to_ints (lld_from 0 t)) (k - 1) = some ((p.2 : Nat) : Int) := by
    intro k hk
    simp only [to_ints, List.map_map, List.mem_map, Function.comp] at hk
    obtain ⟨p, hp, rfl⟩ := hk
    exact ⟨p, hp, rfl, vector_at_of_mem_indexed _ p.1 p.2 (hmem p hp)⟩
  refine ⟨_, _, hidx, ?_, ?_, ?_, ?_⟩
  · rw [← hperm.length_eq]
    simp [to_ints]
  · intro k hk
    obtain ⟨p, hp, _, hv⟩ := hpair k hk
    exact ⟨p.2, hperm.subset (List.mem_map.2 ⟨p, hp, rfl⟩), hv⟩
  · intro k hk k' hk' he
    obtain ⟨p, hp, rfl, hv⟩ := hpair k hk
    obtain ⟨q, hq, rfl, hw⟩ := hpair k' hk'
    rw [hv, hw] at he
    have hy : p.2 = q.2 := by
      have := Option.some.inj he
      exact Int.ofNat.inj this
    have hc := (tree_inv t 0).2.1
    rw [Nat.zero_add, ← hfst] at hc
    have hpK : p.1 ∈ P.map Prod.fst := List.mem_map.2 ⟨p, hp, rfl⟩
    have hqK : q.1 ∈ P.map Prod.fst := List.mem_map.2 ⟨q, hq, rfl⟩
    by_contra hne
    have hne' : p.1 ≠ q.1 := fun h => hne (by rw [h])
    rcases Nat.lt_or_gt_of_ne hne' with hlt | hlt
    · exact (hc p.1 p.2 (hmem p hp)).1 hpK q.1 q.2 (hmem q hq) hlt hy.symm
    · exact (hc q.1 q.2 (hmem q hq)).1 hqK p.1 p.2 (hmem p hp) hlt hy
  · intro v hv
    obtain ⟨p, hp, rfl⟩ := List.mem_map.1 (hperm.symm.subset hv)
    refine ⟨((p.1 : Nat) : Int), ?_, vector_at_of_mem_indexed _ p.1 p.2 (hmem p hp)⟩
    simp only [to_ints, List.map_map, List.mem_map, Function.comp]
    exact ⟨p, hp, rfl⟩

/-! ## The reads of `lld` made by the indexer -/

mutual
theorem index_nodes_recursion_reads_fst : ∀ (t : Node Label) (s : IndexState),
    (index_nodes_recursion_reads t s).map Prod.fst = index_nodes_recursion t s
  | .mk l [], s => by
    simp only [index_nodes_recursion_reads, index_nodes_recursion]
    cases index_nodes_push_lld (Node.mk l ([] : List (Node Label))).is_leaf (-1)
      { s with start_preorder := s.start_preorder + 1 } <;> rfl
  | .mk l (c :: rest), s => by
    have h1 := index_nodes_recursion_reads_fst c { s with start_preorder := s.start_preorder + 1 }
    simp only [index_nodes_recursion_reads, index_nodes_recursion]
    rw [← h1]
    cases hc : index_nodes_recursion_reads c { s with start_preorder := s.start_preorder + 1 } with
    | none => rfl
    | some p =>
      obtain ⟨s2, r2⟩ := p
      have h2 := index_nodes_while_reads_fst rest s2
      simp only [Option.map_some']
      rw [← h2]
      cases hw : index_nodes_while_reads rest s2 with
      | none => rfl
      | some q =>
        obtain ⟨s3, r3⟩ := q
        simp only [Option.map_some']
        cases index_nodes_push_lld (Node.mk l (c :: rest)).is_leaf (s2.start_postorder - 1) s3
          <;> rfl
theorem index_nodes_while_reads_fst : ∀ (cs : List (Node Label)) (s : IndexState),
    (index_nodes_while_reads cs s).map Prod.fst = index_nodes_while cs s
  | [], s => by simp [index_nodes_while_reads, index_nodes_while]
  | c :: rest, s => by
    have h1 := index_nodes_recursion_reads_fst c s
    simp only [index_nodes_while_reads, index_nodes_while]
    rw [← h1]
    cases hc : index_nodes_recursion_reads c s with
    | none => rfl
    | some p =>
      obtain ⟨s1, r1⟩ := p
      have h2 := index_nodes_while_reads_fst rest
        { s1 with kr := s1.kr ++ [s1.start_postorder - 1] }
      simp only [Option.map_some']
      rw [← h2]
      cases index_nodes_while_reads rest { s1 with kr := s1.kr ++ [s1.start_postorder - 1] }
        <;> rfl
end

mutual
theorem index_nodes_recursion_reads_eq : ∀ (t : Node Label) (L K : List Int) (sp pre : Int)
    (k : Nat), L.length = k → sp = (k : Int) + 1 →
    index_nodes_recursion_reads t ⟨L, K, sp, pre⟩
      = some (⟨L ++ to_ints (lld_from k t), K ++ to_ints (kr_from k t),
              sp + (t.get_tree_size : Nat), pre + (t.get_tree_size : Nat)⟩, reads_from k t)
  | .mk l [], L, K, sp, pre, k, hL, hsp => by
    subst hsp
    simp [index_nodes_recursion_reads, index_nodes_push_lld, index_nodes_lld_read, Node.is_leaf,
      Node.get_children, lld_from, lld_forest, kr_from, Node.get_tree_size, forest_size, to_ints,
      reads_from]
  | .mk l (c :: rest), L, K, sp, pre, k, hL, hsp => by
    subst hsp
    have h1 := index_nodes_recursion_reads_eq c L K ((k : Int) + 1) (pre + 1) k hL rfl
    have h2 := index_nodes_forest_reads_eq rest (L ++ to_ints (lld_from k c))
      (K ++ to_ints (kr_from k c)) ((k : Int) + 1 + (c.get_tree_size : Nat))
      (pre + 1 + (c.get_tree_size : Nat)) (k + c.get_tree_size)
      (by simp [to_ints, hL, lld_from_length]) (by push_cast; ring)
    have h3 := vector_at_first_child c L (to_ints (lld_forest (k + c.get_tree_size) rest)) k hL
    simp only [index_nodes_recursion_reads, h1, h2, index_nodes_push_lld, index_nodes_lld_read,
      Node.is_leaf, Node.get_children, List.isEmpty_cons, h3]
    simp [lld_from, lld_forest, kr_from, Node.get_tree_size, forest_size, to_ints, reads_from,
      hL, lld_from_length, lld_forest_length]
    omega
theorem index_nodes_forest_reads_eq : ∀ (cs : List (Node Label)) (L K : List Int) (sp pre : Int)
    (k : Nat), L.length = k → sp = (k : Int) + 1 →
    index_nodes_while_reads cs ⟨L, K, sp, pre⟩
      = some (⟨L ++ to_ints (lld_forest k cs), K ++ to_ints (kr_while k cs),
              sp + (forest_size cs : Nat), pre + (forest_size cs : Nat)⟩, reads_forest k cs)
  | [], L, K, sp, pre, k, _, _ => by
    simp [index_nodes_while_reads, lld_forest, kr_while, forest_size, to_ints, reads_forest]
  | c :: rest, L, K, sp, pre, k, hL, hsp => by
    subst hsp
    have h1 := index_nodes_recursion_reads_eq c L K ((k : Int) + 1) pre k hL rfl
    have h2 := index_nodes_forest_reads_eq rest (L ++ to_ints (lld_from k c))
      (K ++ to_ints (kr_from k c) ++ [(k : Int) + 1 + (c.get_tree_size : Nat) - 1])
      ((k : Int) + 1 + (c.get_tree_size : Nat))
      (pre + (c.get_tree_size : Nat)) (k + c.get_tree_size)
      (by simp [to_ints, hL, lld_from_length]) (by push_cast; ring)
    simp only [index_nodes_while_reads, h1, h2]
    simp [lld_forest, kr_while, forest_size, to_ints, reads_forest]
    omega
end

mutual
theorem reads_from_bounds : ∀ (t : Node Label) (k : Nat) (r : LldRead), r ∈ reads_from k t →
    1 ≤ r.first_child_postorder ∧ r.first_child_postorder ≤ (r.lld_size : Int)
  | .mk _ [], k, r => by simp [reads_from]
  | .mk _ (c :: rest), k, r => by
    intro hr
    rw [reads_from, List.mem_append, List.mem_append, List.mem_singleton] at hr
    rcases hr with (hr | hr) | rfl
    · exact reads_from_bounds c k r hr
    · exact reads_forest_bounds rest (k + c.get_tree_size) r hr
    · have := get_tree_size_pos c
      simp only
      omega
theorem reads_forest_bounds : ∀ (cs : List (Node Label)) (k : Nat) (r : LldRead),
    r ∈ reads_forest k cs →
    1 ≤ r.first_child_postorder ∧ r.first_child_postorder ≤ (r.lld_size : Int)
  | [], k, r => by simp [reads_forest]
  | c :: rest, k, r => by
    intro hr
    rw [reads_forest, List.mem_append] at hr
    rcases hr with hr | hr
    · exact reads_from_bounds c k r hr
    · exact reads_forest_bounds rest (k + c.get_tree_size) r hr
end

theorem index_of_root (l : Label) (cs : List (Node Label)) :
    index_of [] (postorder_paths (Node.mk l cs)) = forest_size cs := by
  rw [postorder_paths_mk, index_of_append_of_not_mem]
  · simp [index_of, postorder_forest_length]
  · intro h
    obtain ⟨j, b, h1, _⟩ := postorder_forest_paths_head cs 0 [] h
    cases h1

theorem index_of_first_child (l : Label) (c : Node Label) (rest : List (Node Label)) :
    index_of [0] (postorder_paths (Node.mk l (c :: rest))) + 1 = c.get_tree_size := by
  obtain ⟨lc, ccs⟩ := c
  have hmem : ([] : Path) ∈ postorder_paths (Node.mk lc ccs) := by
    rw [postorder_paths_mk]; simp
  rw [postorder_paths_mk,
    index_of_append_of_mem _ _ _ (by
      rw [postorder_forest_paths_cons]
      exact List.mem_append_left _ (List.mem_map.2 ⟨[], hmem, rfl⟩)),
    index_of_forest_cons_left 0 (Node.mk lc ccs) rest [] hmem, index_of_root]
  simp [Node.get_tree_size]

mutual
theorem first_child_mem : ∀ (t : Node Label) (a : Path) (l : Label) (c : Node Label)
    (rest : List (Node Label)),
    (a, Node.mk l (c :: rest)) ∈ postorder t → a ++ [0] ∈ postorder_paths t
  | .mk l0 cs, a, l, c, rest, h => by
    simp only [postorder, List.mem_append, List.mem_singleton] at h
    rw [postorder_paths_mk]
    rcases h with h | h
    · exact List.mem_append_left _ (first_child_mem_forest cs 0 a l c rest h)
    · cases h
      refine List.mem_append_left _ ?_
      rw [postorder_forest_paths_cons]
      refine List.mem_append_left _ (List.mem_map.2 ⟨[], ?_, rfl⟩)
      obtain ⟨lc, ccs⟩ := c
      rw [postorder_paths_mk]; simp
theorem first_child_mem_forest : ∀ (cs : List (Node Label)) (i : Nat) (a : Path) (l : Label)
    (c : Node Label) (rest : List (Node Label)),
    (a, Node.mk l (c :: rest)) ∈ postorder_forest i cs →
      a ++ [0] ∈ (postorder_forest i cs).map Prod.fst
  | [], _, _, _, _, _, h => by simp [postorder_forest] at h
  | c0 :: rest0, i, a, l, c, rest, h => by
    rw [postorder_forest_paths_cons]
    simp only [postorder_forest, List.mem_append, List.mem_map] at h
    rcases h with ⟨e0, he0, he⟩ | h
    · obtain ⟨a0, v0⟩ := e0
      simp only [Prod.mk.injEq] at he
      obtain ⟨rfl, rfl⟩ := he
      refine List.mem_append_left _ (List.mem_map.2 ⟨a0 ++ [0], ?_, by simp⟩)
      exact first_child_mem c0 a0 l c rest he0
    · exact List.mem_append_right _ (first_child_mem_forest rest0 (i + 1) a l c rest h)
end

mutual
theorem reads_from_eq_spec : ∀ (t : Node Label) (k : Nat),
    reads_from k t = (postorder t).filterMap (first_child_read k (postorder_paths t))
  | .mk l [], k => by
    simp [reads_from, postorder, postorder_forest, first_child_read]
  | .mk l (c :: rest), k => by
    have hf := reads_forest_eq_spec (c :: rest) 0 k
    rw [reads_forest] at hf
    rw [reads_from, hf]
    conv_rhs => rw [postorder, List.filterMap_append]
    congr 1
    · apply List.filterMap_congr
      rintro ⟨a, ⟨lv, cv⟩⟩ he
      cases cv with
      | nil => rfl
      | cons c1 r1 =>
        have h1 : a ∈ (postorder_forest 0 (c :: rest)).map Prod.fst :=
          List.mem_map.2 ⟨_, he, rfl⟩
        have h2 := first_child_mem_forest (c :: rest) 0 a lv c1 r1 he
        have h3 := lld_path_mem_forest (c :: rest) 0 a _ he
        have e3 : a ++ leftmost_leaf (Node.mk lv (c1 :: r1)) = a ++ [0] ++ leftmost_leaf c1 := by
          simp [leftmost_leaf]
        rw [e3] at h3
        simp only [first_child_read]
        rw [postorder_paths_mk, index_of_append_of_mem _ _ _ h1,
          index_of_append_of_mem _ _ _ h2, index_of_append_of_mem _ _ _ h3]
    · obtain ⟨tl, h⟩ := postorder_paths_head (Node.mk l (c :: rest))
      have h0 : index_of (0 :: leftmost_leaf c) (postorder_paths (Node.mk l (c :: rest))) = 0 := by
        rw [h]; simp [index_of, leftmost_leaf]
      have h1 := index_of_root l (c :: rest)
      have h2 := index_of_first_child l c rest
      simp only [List.filterMap_cons, List.filterMap_nil, first_child_read, List.nil_append,
        List.singleton_append, h0, h1, forest_size]
      simp only [List.cons.injEq, and_true, LldRead.mk.injEq]
      omega
theorem reads_forest_eq_spec : ∀ (cs : List (Node Label)) (i k : Nat),
    reads_forest k cs = (postorder_forest i cs).filterMap
      (first_child_read k ((postorder_forest i cs).map Prod.fst))
  | [], _, _ => by simp [reads_forest, postorder_forest]
  | c :: rest, i, k => by
    rw [reads_forest, reads_from_eq_spec c k,
      reads_forest_eq_spec rest (i + 1) (k + c.get_tree_size)]
    conv_rhs => rw [postorder_forest, List.filterMap_append, List.filterMap_map]
    congr 1
    · apply List.filterMap_congr
      rintro ⟨a, ⟨lv, cv⟩⟩ he
      cases cv with
      | nil => rfl
      | cons c1 r1 =>
        have h1 : a ∈ postorder_paths c := List.mem_map.2 ⟨_, he, rfl⟩
        have h2 := first_child_mem c a lv c1 r1 he
        have h3 := lld_path_mem c a _ he
        have e3 : a ++ leftmost_leaf (Node.mk lv (c1 :: r1)) = a ++ [0] ++ leftmost_leaf c1 := by
          simp [leftmost_leaf]
        rw [e3] at h3
        simp only [first_child_read, Function.comp, List.cons_append]
        rw [← postorder_forest, index_of_forest_cons_left i c rest _ h1,
          index_of_forest_cons_left i c rest _ h2]
        have h4 := index_of_forest_cons_left i c rest _ h3
        simp only [List.cons_append] at h4
        rw [h4]
    · apply List.filterMap_congr
      rintro ⟨a, ⟨lv, cv⟩⟩ he
      cases cv with
      | nil => rfl
      | cons c1 r1 =>
        have h1 : a ∈ (postorder_forest (i + 1) rest).map Prod.fst :=
          List.mem_map.2 ⟨_, he, rfl⟩
        have h2 := first_child_mem_forest rest (i + 1) a lv c1 r1 he
        have h3 := lld_path_mem_forest rest (i + 1) a _ he
        have e3 : a ++ leftmost_leaf (Node.mk lv (c1 :: r1)) = a ++ [0] ++ leftmost_leaf c1 := by
          simp [leftmost_leaf]
        rw [e3] at h3
        simp only [first_child_read]
        rw [← postorder_forest, index_of_forest_cons_right i c rest _ h1,
          index_of_forest_cons_right i c rest _ h2, index_of_forest_cons_right i c rest _ h3]
        simp only [Option.some.injEq, LldRead.mk.injEq]
        omega
end

theorem to_ints_append (A B : List Nat) : to_ints (A ++ B) = to_ints A ++ to_ints B := by
  simp [to_ints]

mutual
theorem reads_from_value : ∀ (t : Node Label) (k : Nat) (r : LldRead), r ∈ reads_from k t →
    ∀ (L R : List Int), L.length = k →
      vector_at (L ++ to_ints (lld_from k t) ++ R) (r.first_child_postorder - 1) = some r.value
  | .mk _ [], k, r => by simp [reads_from]
  | .mk _ (c :: rest), k, r => by
    intro hr L R hL
    rw [reads_from, List.mem_append, List.mem_append, List.mem_singleton] at hr
    rw [lld_from, lld_forest, to_ints_append, to_ints_append]
    rcases hr with (hr | hr) | rfl
    · have := reads_from_value c k r hr L
        (to_ints (lld_forest (k + c.get_tree_size) rest) ++ to_ints [k + 1] ++ R) hL
      simpa [List.append_assoc] using this
    · have := reads_forest_value rest (k + c.get_tree_size) r hr (L ++ to_ints (lld_from k c))
        (to_ints [k + 1] ++ R) (by simp [to_ints, hL, lld_from_length])
      simpa [List.append_assoc] using this
    · have := vector_at_first_child c L
        (to_ints (lld_forest (k + c.get_tree_size) rest) ++ to_ints [k + 1] ++ R) k hL
      have e : (((k + c.get_tree_size : Nat) : Int)) - 1
          = (k : Int) + 1 + (c.get_tree_size : Nat) - 1 - 1 := by push_cast; ring
      simp only [e]
      have e2 : (((k + 1 : Nat) : Int)) = (k : Int) + 1 := by push_cast; ring
      rw [e2]
      simpa [List.append_assoc] using this
theorem reads_forest_value : ∀ (cs : List (Node Label)) (k : Nat) (r : LldRead),
    r ∈ reads_forest k cs →
    ∀ (L R : List Int), L.length = k →
      vector_at (L ++ to_ints (lld_forest k cs) ++ R) (r.first_child_postorder - 1)
        = some r.value
  | [], k, r => by simp [reads_forest]
  | c :: rest, k, r => by
    intro hr L R hL
    rw [reads_forest, List.mem_append] at hr
    rw [lld_forest, to_ints_append]
    rcases hr with hr | hr
    · have := reads_from_value c k r hr L
        (to_ints (lld_forest (k + c.get_tree_size) rest) ++ R) hL
      simpa [List.append_assoc] using this
    · have := reads_forest_value rest (k + c.get_tree_size) r hr (L ++ to_ints (lld_from k c))
        R (by simp [to_ints, hL, lld_from_length])
      simpa [List.append_assoc] using this
end

/-- C22: for every tree, `index_nodes` called with an empty `lld` returns, and no read
`lld.at(first_child_postorder - 1)` fails: there is exactly one read for each internal node, in
postorder; at the read `1 ≤ first_child_postorder ≤ lld.size()`, `first_child_postorder` is the
postorder id of the node's first child, and the entry read, which is also the entry of the
final `lld` at that position, is the postorder id of the leftmost leaf descendant of the first
child, that is the lld of the first child. -/
theorem index_nodes_reads_first_child (t : Node Label) (kr0 : List Int) :
    ∃ s reads, index_nodes_recursion_reads t ⟨[], kr0, 1, 1⟩ = some (s, reads) ∧
      index_nodes_recursion t ⟨[], kr0, 1, 1⟩ = some s ∧
      index_nodes t [] kr0 = some (s.lld, s.kr ++ [s.start_postorder - 1]) ∧
      (∀ r ∈ reads, 1 ≤ r.first_child_postorder ∧
        r.first_child_postorder ≤ (r.lld_size : Int) ∧
        vector_at s.lld (r.first_child_postorder - 1) = some r.value) ∧
      reads = expected_reads t := by
  have h := index_nodes_recursion_reads_eq t [] kr0 1 1 0 rfl (by simp)
  have hs := index_nodes_recursion_reads_fst t ⟨[], kr0, 1, 1⟩
  rw [h] at hs
  simp only [Option.map_some'] at hs
  refine ⟨_, _, h, hs.symm, ?_, ?_, ?_⟩
  · rw [index_nodes, ← hs]
  · intro r hr
    have hb := reads_from_bounds t 0 r hr
    have hv := reads_from_value t 0 r hr [] [] rfl
    refine ⟨hb.1, hb.2, ?_⟩
    simpa using hv
  · rw [expected_reads, reads_from_eq_spec]

end TreeSimilarity
